import Mathlib

/-!
Open-addressing hash table (`HashTable.h`, `HashTable.cpp`).

A shallow embedding of the `HashTable` class: one slot vector, three probing
strategies, tombstone deletion, growth by doubling and a collision counter.

Modelling conventions.
* `int` keys are `Int`; `static_cast<size_t>(key)` is `key mod 2^64` (`toSizeT`).
* `size_t` values are `Nat`. The sums and products of the probe functions are
  reduced modulo `2^64` (`wrap`), as the machine does; `size_--` wraps at zero.
  `capacity_ *= 2` and `size_++` are not reduced: the vector of `capacity_`
  nodes has to be allocated first, which keeps both far below `2^64`; nor is
  `collision_count_++`, which `2^64` probes would be needed to wrap.
* `std::vector<HashNode>` is `List HashNode`; `table_[i]` is `nodeAt`.
* A member function that mutates the object returns the new object, next to
  its C++ return value when it has one.
* `static_cast<double>(size_ + 1) / capacity_ > 0.5` is `2 * (size_ + 1) > capacity_`:
  below `2^53` both conversions are exact and the rounded quotient lies on the
  same side of one half as the exact one.
* A `do { ... } while (attempt < capacity_)` loop is a recursion on the number
  `capacity_ - attempt` of iterations left; the capacity is never zero.
-/

namespace HT

/-- The slot record `struct HashNode`. -/
structure HashNode where
  key : Int
  value : String
  occupied : Bool
  deleted : Bool
  deriving DecidableEq

/-- The default constructor `HashNode()`: an EMPTY slot. -/
def HashNode.empty : HashNode := ⟨0, "", false, false⟩

/-- The constructor `HashNode(k, v)`: a LIVE slot. -/
def HashNode.mk2 (k : Int) (v : String) : HashNode := ⟨k, v, true, false⟩

/-- A slot is LIVE when `occupied && !deleted`. -/
def HashNode.live (n : HashNode) : Bool := n.occupied && !n.deleted

/-- The enumeration `enum class ProbingMethod`. -/
inductive ProbingMethod where
  | DOUBLE_HASHING
  | LINEAR
  | QUADRATIC
  deriving DecidableEq

/-- The data members of `class HashTable`. -/
structure HashTable where
  table_ : List HashNode
  size_ : Nat
  capacity_ : Nat
  collision_count_ : Nat
  method_ : ProbingMethod
  deriving DecidableEq

/-- The constant `INITIAL_CAPACITY`. -/
def INITIAL_CAPACITY : Nat := 16

/-- Reduction of a `size_t` result modulo `2^64`. -/
def wrap (n : Nat) : Nat := n % 2 ^ 64

/-- The conversion `static_cast<size_t>(key)` of an `int`. -/
def toSizeT (key : Int) : Nat := (key % 2 ^ 64).toNat

/-- The element access `table_[i]`; every index the code uses is a probe
result, which is below `capacity_`. -/
def nodeAt (tb : List HashNode) (i : Nat) : HashNode := tb.getD i HashNode.empty

/-- The constructor `HashTable::HashTable()`; `method_` has the default
member initialiser `DOUBLE_HASHING`. -/
def HashTable.new : HashTable :=
  { table_ := List.replicate INITIAL_CAPACITY HashNode.empty
    size_ := 0
    capacity_ := INITIAL_CAPACITY
    collision_count_ := 0
    method_ := ProbingMethod.DOUBLE_HASHING }

/-- The accessor `size()`. -/
def HashTable.size (t : HashTable) : Nat := t.size_

/-- The accessor `capacity()`, which returns `table_.size()`. -/
def HashTable.capacity (t : HashTable) : Nat := t.table_.length

/-- The accessor `collision_count()`. -/
def HashTable.collision_count (t : HashTable) : Nat := t.collision_count_

/-- The setter `set_probing_method`. -/
def HashTable.set_probing_method (t : HashTable) (m : ProbingMethod) : HashTable :=
  { t with method_ := m }

/-- The member `reset_collision_count`. -/
def HashTable.reset_collision_count (t : HashTable) : HashTable :=
  { t with collision_count_ := 0 }

/-- The primary hash `hash1`. -/
def HashTable.hash1 (t : HashTable) (key : Int) : Nat :=
  toSizeT key % t.capacity_

/-- The secondary hash `hash2`. -/
def HashTable.hash2 (t : HashTable) (key : Int) : Nat :=
  wrap (1 + toSizeT key % (t.capacity_ - 1))

/-- The probe function `doubleHash`. -/
def HashTable.doubleHash (t : HashTable) (key : Int) (attempt : Nat) : Nat :=
  wrap (t.hash1 key + wrap (attempt * t.hash2 key)) % t.capacity_

/-- The probe function `linearProbe`. -/
def HashTable.linearProbe (t : HashTable) (key : Int) (attempt : Nat) : Nat :=
  wrap (t.hash1 key + attempt) % t.capacity_

/-- The probe function `quadraticProbe`. -/
def HashTable.quadraticProbe (t : HashTable) (key : Int) (attempt : Nat) : Nat :=
  wrap (t.hash1 key + wrap (attempt * attempt)) % t.capacity_

/-- The dispatcher `probe`. -/
def HashTable.probe (t : HashTable) (key : Int) (attempt : Nat) : Nat :=
  match t.method_ with
  | ProbingMethod.LINEAR => t.linearProbe key attempt
  | ProbingMethod.QUADRATIC => t.quadraticProbe key attempt
  | ProbingMethod.DOUBLE_HASHING => t.doubleHash key attempt

/-- The stop test shared by both `findSlot` overloads:
`!node.occupied || (node.occupied && !node.deleted && node.key == key)`. -/
def stopsAt (n : HashNode) (key : Int) : Bool :=
  !n.occupied || (n.occupied && !n.deleted && n.key == key)

/-- The collision test of the counting `findSlot`:
`attempt > 0 && node.occupied && !node.deleted && node.key != key`. -/
def collidesAt (n : HashNode) (key : Int) (attempt : Nat) : Bool :=
  decide (attempt > 0) && n.occupied && !n.deleted && n.key != key

/-- The do-while loop of `findSlotForRehash`, entered at `attempt` with
`fuel = capacity_ - attempt` iterations left. -/
def HashTable.findSlotForRehashLoop (t : HashTable) (key : Int) : Nat → Nat → Nat
  | 0, _ => t.capacity_
  | fuel + 1, attempt =>
    let index := t.probe key attempt
    if !(nodeAt t.table_ index).occupied then index
    else t.findSlotForRehashLoop key fuel (attempt + 1)

/-- The helper `findSlotForRehash`. -/
def HashTable.findSlotForRehash (t : HashTable) (key : Int) : Nat :=
  t.findSlotForRehashLoop key t.capacity_ 0

/-- The do-while loop of the counting `findSlot`, entered at `attempt` with
`fuel = capacity_ - attempt` iterations left and the counter at `cc`; the result
is the returned index and the counter. -/
def HashTable.findSlotLoop (t : HashTable) (key : Int) : Nat → Nat → Nat → Nat × Nat
  | 0, _, cc => (t.capacity_, cc)
  | fuel + 1, attempt, cc =>
    let index := t.probe key attempt
    let node := nodeAt t.table_ index
    let cc1 := if collidesAt node key attempt then cc + 1 else cc
    if stopsAt node key then (index, cc1)
    else t.findSlotLoop key fuel (attempt + 1) cc1

/-- The counting `findSlot(int key)`: the returned index and the table with
its collision counter updated. -/
def HashTable.findSlot (t : HashTable) (key : Int) : Nat × HashTable :=
  let r := t.findSlotLoop key t.capacity_ 0 t.collision_count_
  (r.1, { t with collision_count_ := r.2 })

/-- The do-while loop of `findSlot(int key) const`. -/
def HashTable.findSlotConstLoop (t : HashTable) (key : Int) : Nat → Nat → Nat
  | 0, _ => t.capacity_
  | fuel + 1, attempt =>
    let index := t.probe key attempt
    if stopsAt (nodeAt t.table_ index) key then index
    else t.findSlotConstLoop key fuel (attempt + 1)

/-- The overload `findSlot(int key) const`. -/
def HashTable.findSlotConst (t : HashTable) (key : Int) : Nat :=
  t.findSlotConstLoop key t.capacity_ 0

/-- One iteration of the `for` loop of `rehash` over the old table. -/
def HashTable.rehashStep (t : HashTable) (node : HashNode) : HashTable :=
  if node.occupied && !node.deleted then
    let index := t.findSlotForRehash node.key
    if index < t.capacity_ then
      { t with table_ := t.table_.set index (HashNode.mk2 node.key node.value)
               size_ := t.size_ + 1 }
    else t
  else t

/-- The member `rehash`. -/
def HashTable.rehash (t : HashTable) : HashTable :=
  let old_table := t.table_
  let t1 : HashTable :=
    { t with capacity_ := t.capacity_ * 2
             table_ := List.replicate (t.capacity_ * 2) HashNode.empty
             size_ := 0 }
  old_table.foldl HashTable.rehashStep t1

/-- The growth test at the head of `insert` and `upsert`. -/
def HashTable.needsRehash (t : HashTable) : Bool :=
  decide (2 * (t.size_ + 1) > t.capacity_)

/-- The first statement of `insert` and `upsert`: grow when the load factor
would pass the threshold. -/
def HashTable.growIfNeeded (t : HashTable) : HashTable :=
  if t.needsRehash then t.rehash else t

/-- The member `insert`. -/
def HashTable.insert (t : HashTable) (key : Int) (value : String) : Bool × HashTable :=
  let r := t.growIfNeeded.findSlot key
  let index := r.1
  let t2 := r.2
  if index ≥ t2.capacity_ then (false, t2)
  else
    let node := nodeAt t2.table_ index
    if node.occupied && !node.deleted then (false, t2)
    else
      (true, { t2 with table_ := t2.table_.set index ⟨key, value, true, false⟩
                       size_ := t2.size_ + 1 })

/-- The member `upsert`. -/
def HashTable.upsert (t : HashTable) (key : Int) (value : String) : HashTable :=
  let r := t.growIfNeeded.findSlot key
  let index := r.1
  let t2 := r.2
  if index ≥ t2.capacity_ then t2
  else
    let node := nodeAt t2.table_ index
    if node.occupied && !node.deleted then
      { t2 with table_ := t2.table_.set index { node with value := value } }
    else
      { t2 with table_ := t2.table_.set index ⟨key, value, true, false⟩
                size_ := t2.size_ + 1 }

/-- The decrement `size_--` of a `size_t`. -/
def decSizeT (n : Nat) : Nat := if n = 0 then 2 ^ 64 - 1 else n - 1

/-- The member `erase`. -/
def HashTable.erase (t : HashTable) (key : Int) : Bool × HashTable :=
  let r := t.findSlot key
  let index := r.1
  let t2 := r.2
  if index ≥ t2.capacity_ then (false, t2)
  else
    let node := nodeAt t2.table_ index
    if node.occupied && !node.deleted then
      (true, { t2 with table_ := t2.table_.set index { node with deleted := true }
                       size_ := decSizeT t2.size_ })
    else (false, t2)

/-- The member `find`. -/
def HashTable.find (t : HashTable) (key : Int) : Option String :=
  let index := t.findSlotConst key
  if index ≥ t.capacity_ then none
  else
    let node := nodeAt t.table_ index
    if node.occupied && !node.deleted then some node.value else none

/-- The member `contains`. -/
def HashTable.contains (t : HashTable) (key : Int) : Bool :=
  let index := t.findSlotConst key
  if index ≥ t.capacity_ then false
  else
    let node := nodeAt t.table_ index
    node.occupied && !node.deleted

end HT


namespace HT

/-! ## Specification vocabulary -/

/-- The first attempt in `attempt, attempt + 1, ..., attempt + fuel - 1` at which
the test `p` holds: the attempt at which a probe loop stops. -/
def firstHit (p : Nat → Bool) : Nat → Nat → Option Nat
  | 0, _ => none
  | fuel + 1, attempt => if p attempt then some attempt else firstHit p fuel (attempt + 1)

/-- The stop test of the `findSlot` overloads as a function of the attempt. -/
def HashTable.stopFn (t : HashTable) (key : Int) (attempt : Nat) : Bool :=
  stopsAt (nodeAt t.table_ (t.probe key attempt)) key

/-- The stop test of `findSlotForRehash` as a function of the attempt. -/
def HashTable.emptyFn (t : HashTable) (key : Int) (attempt : Nat) : Bool :=
  !(nodeAt t.table_ (t.probe key attempt)).occupied

/-- The last attempt of the walk of `key`: the attempt at which the slot
location stops, or `capacity_ - 1` when it exhausts its attempts. -/
def HashTable.lastAttempt (t : HashTable) (key : Int) : Nat :=
  match firstHit (t.stopFn key) t.capacity_ 0 with
  | some a => a
  | none => t.capacity_ - 1

/-- The collision rule in the words of the specification: attempt `a` counts
when it is beyond the first and the visited slot is LIVE and holds a key
different from the searched one. -/
def HashTable.countsAsCollision (t : HashTable) (key : Int) (a : Nat) : Bool :=
  decide (1 ≤ a) && (nodeAt t.table_ (t.probe key a)).live &&
    decide ((nodeAt t.table_ (t.probe key a)).key ≠ key)

/-- The number of attempts `0, ..., last` that count as a collision. -/
def HashTable.collisionsUpTo (t : HashTable) (key : Int) (last : Nat) : Nat :=
  (List.range (last + 1)).countP (t.countsAsCollision key)

/-- The number of LIVE slots of a slot sequence. -/
def liveCount (tb : List HashNode) : Nat := tb.countP HashNode.live

/-- Well-formed object: `capacity_` is the length of `table_` and is positive. -/
def HashTable.WF (t : HashTable) : Prop :=
  t.capacity_ = t.table_.length ∧ 0 < t.capacity_

/-- Key `k` is held by a LIVE slot. -/
def HashTable.HasLive (t : HashTable) (k : Int) : Prop :=
  ∃ i, i < t.capacity_ ∧ (nodeAt t.table_ i).live = true ∧ (nodeAt t.table_ i).key = k

/-- Key `k` is held by a LIVE slot with value `v`. -/
def HashTable.Holds (t : HashTable) (k : Int) (v : String) : Prop :=
  ∃ i, i < t.capacity_ ∧ (nodeAt t.table_ i).live = true ∧
    (nodeAt t.table_ i).key = k ∧ (nodeAt t.table_ i).value = v

/-- No two LIVE slots hold the same key. -/
def HashTable.Uniq (t : HashTable) : Prop :=
  ∀ i j, i < t.capacity_ → j < t.capacity_ →
    (nodeAt t.table_ i).live = true → (nodeAt t.table_ j).live = true →
    (nodeAt t.table_ i).key = (nodeAt t.table_ j).key → i = j

/-- Every LIVE slot is reached by the probe walk of its key through occupied
slots only. -/
def HashTable.ProbeReach (t : HashTable) : Prop :=
  ∀ i, i < t.capacity_ → (nodeAt t.table_ i).live = true →
    ∃ a, a < t.capacity_ ∧ t.probe (nodeAt t.table_ i).key a = i ∧
      ∀ b, b < a → (nodeAt t.table_ (t.probe (nodeAt t.table_ i).key b)).occupied = true

/-- Every slot on the probe walk of `k` is occupied. -/
def HashTable.Blocked (t : HashTable) (k : Int) : Prop :=
  ∀ a, a < t.capacity_ → (nodeAt t.table_ (t.probe k a)).occupied = true

/-- No slot is a TOMBSTONE. -/
def HashTable.NoTomb (t : HashTable) : Prop :=
  ∀ i, (nodeAt t.table_ i).occupied = true → (nodeAt t.table_ i).deleted = false

/-- Some slot of the table is EMPTY. -/
def HashTable.HasEmpty (t : HashTable) : Prop :=
  ∃ i, i < t.capacity_ ∧ (nodeAt t.table_ i).occupied = false

/-- The slot with its value blanked: the key and the two flags, which is all
that slot location, growth and the counters read. -/
def HashNode.shape (n : HashNode) : HashNode := { n with value := "" }

/-- The table with every value blanked. -/
def HashTable.shape (t : HashTable) : HashTable :=
  { t with table_ := t.table_.map HashNode.shape }

/-- The invariant of every state, whatever the history of the strategy. -/
structure HashTable.GInv (t : HashTable) : Prop where
  wf : t.WF
  sizeOk : t.size_ = liveCount t.table_
  load : 2 * t.size_ ≤ t.capacity_
  big : 16 ≤ t.capacity_

/-- The invariant of the states whose strategy was fixed before the first
insertion. -/
structure HashTable.FInv (t : HashTable) : Prop where
  ginv : t.GInv
  uniq : t.Uniq
  reach : t.ProbeReach

/-- Distinct LIVE nodes of a slot sequence hold distinct keys. -/
def DistinctLive (tb : List HashNode) : Prop :=
  tb.Pairwise (fun a b => a.live = true → b.live = true → a.key ≠ b.key)

/-- The loop invariant of `rehash`: `pre` is the part of the old table already
visited, `T` the table under construction. -/
structure RehashInv (pre : List HashNode) (T : HashTable) : Prop where
  wf : T.WF
  sizeOk : T.size_ = liveCount T.table_
  bound : T.size_ ≤ liveCount pre
  noTomb : T.NoTomb
  uniq : T.Uniq
  reach : T.ProbeReach
  sub : ∀ k v, T.Holds k v → ∃ n, n ∈ pre ∧ n.live = true ∧ n.key = k ∧ n.value = v
  comp : ∀ n, n ∈ pre → n.live = true →
    T.Holds n.key n.value ∨ (T.Blocked n.key ∧ ¬ T.HasLive n.key)
  full : T.size_ = liveCount pre → ∀ n, n ∈ pre → n.live = true → T.Holds n.key n.value
  linear : T.method_ = ProbingMethod.LINEAR → T.capacity_ ≤ 2 ^ 63 →
    pre.length < T.capacity_ → T.size_ = liveCount pre
  lost : T.size_ < liveCount pre →
    ∃ n, n ∈ pre ∧ n.live = true ∧ T.Blocked n.key ∧ ¬ T.HasLive n.key

/-! ## Runs and concrete states -/

/-- A sequence of `insert` calls: the return values in call order and the final table. -/
def runInserts (t : HashTable) : List (Int × String) → List Bool × HashTable
  | [] => ([], t)
  | (k, v) :: rest =>
    let r := t.insert k v
    let rs := runInserts r.2 rest
    (r.1 :: rs.1, rs.2)

/-- The table after a sequence of `insert` calls. -/
def insertAll (t : HashTable) (kvs : List (Int × String)) : HashTable := (runInserts t kvs).2

/-- The `insert` of the specification on the map from keys to values that the
table stands for: a present key is rejected and nothing changes, an absent key
is accepted and bound to the value. -/
def specInsert (m : Int → Option String) (k : Int) (v : String) :
    Bool × (Int → Option String) :=
  match m k with
  | some _ => (false, m)
  | none => (true, fun k' => if k' = k then some v else m k')

/-- A sequence of `insert` calls on the map of the specification. -/
def specRunInserts (m : Int → Option String) : List (Int × String) → List Bool × (Int → Option String)
  | [] => ([], m)
  | (k, v) :: rest =>
    let r := specInsert m k v
    let rs := specRunInserts r.2 rest
    (r.1 :: rs.1, rs.2)

/-- The call `insert(k, _)` on `t` meets no defensive case: its growth step, if
any, relocates every entry, and its slot location returns an index below the capacity. -/
def insertOk (t : HashTable) (k : Int) : Bool :=
  decide (t.growIfNeeded.size_ = t.size_) &&
    decide ((t.growIfNeeded.findSlot k).1 < t.growIfNeeded.capacity_)

/-- No call of a sequence of `insert` calls meets a defensive case. -/
def runOk (t : HashTable) : List (Int × String) → Bool
  | [] => true
  | (k, v) :: rest => insertOk t k && runOk (t.insert k v).2 rest

/-- A sequence of `insert(k, "v")` followed by `erase(k)` calls, one pair per key. -/
def insertEraseAll (t : HashTable) : List Int → HashTable
  | [] => t
  | k :: rest => insertEraseAll ((t.insert k "v").2.erase k).2 rest

/-- Default strategy, two entries whose slots are the whole probe walk of key 247. -/
def stateCycle : HashTable := insertAll HashTable.new [(7, "a"), (127, "b")]

/-- Default strategy, seven entries. -/
def stateSeven : HashTable :=
  insertAll HashTable.new
    [(11, "a"), (12, "b"), (13, "c"), (14, "d"), (15, "e"), (45, "f"), (61, "g")]

/-- Default strategy, eight entries; the next growth cannot relocate key 77. -/
def stateDrop : HashTable :=
  insertAll HashTable.new
    [(11, "a"), (12, "b"), (13, "c"), (14, "d"), (15, "e"), (45, "f"), (61, "g"), (77, "h")]

/-- LINEAR strategy, seven entries. -/
def stateSevenLinear : HashTable :=
  insertAll (HashTable.new.set_probing_method ProbingMethod.LINEAR)
    [(0, "a"), (1, "b"), (2, "c"), (3, "d"), (4, "e"), (5, "f"), (6, "g")]

/-- Five keys with the same primary hash in the initial table. -/
def opsCluster : List (Int × String) :=
  [(0, "a"), (16, "b"), (32, "c"), (48, "d"), (64, "e")]

/-- Nine keys; the growth at the ninth call cannot relocate key 77 under the
default strategy. -/
def opsDrop : List (Int × String) :=
  [(11, "a"), (12, "b"), (13, "c"), (14, "d"), (15, "e"), (45, "f"), (61, "g"), (77, "h"),
    (100, "i")]

/-- Five calls that meet no defensive case under QUADRATIC and DOUBLE_HASHING. -/
def opsPlain : List (Int × String) :=
  [(0, "a"), (16, "b"), (5, "c"), (16, "d"), (21, "e")]

/-- LINEAR strategy, eight entries: the table is at the load threshold. -/
def stateEight : HashTable :=
  insertAll (HashTable.new.set_probing_method ProbingMethod.LINEAR)
    [(0, "a"), (1, "b"), (2, "c"), (3, "d"), (4, "e"), (5, "f"), (6, "g"), (7, "h")]

/-- LINEAR strategy, keys 0 to 15 inserted and erased one after the other: every
slot of the table is a TOMBSTONE. -/
def stateTombs : HashTable :=
  insertEraseAll (HashTable.new.set_probing_method ProbingMethod.LINEAR)
    [0, 1, 2, 3, 4, 5, 6, 7, 8, 9, 10, 11, 12, 13, 14, 15]

/-- Nine distinct keys; under the default strategy the third call finds no slot. -/
def opsNine : List (Int × String) :=
  [(7, "a"), (127, "b"), (247, "c"), (1, "d"), (2, "e"), (3, "f"), (4, "g"), (5, "h"), (6, "i")]

/-- Nine distinct keys for the LINEAR strategy. -/
def opsNineLinear : List (Int × String) :=
  [(0, "a"), (1, "b"), (2, "c"), (3, "d"), (4, "e"), (5, "f"), (6, "g"), (7, "h"), (8, "i")]

/-- Keys 1, 17 and 33 inserted under LINEAR (slots 1, 2, 3), then the strategy
changed to QUADRATIC: the walk of key 33 (slots 1, 2, 5) no longer reaches its slot. -/
def stateSwitched : HashTable :=
  (insertAll (HashTable.new.set_probing_method ProbingMethod.LINEAR)
    [(1, "a"), (17, "b"), (33, "c")]).set_probing_method ProbingMethod.QUADRATIC

/-- The workload of `BM_Collision_Test`: a fresh table, LINEAR strategy, counter
reset, then `insert(i * 16, "test")` for `i = 0, ..., 7`. -/
def collisionTest : HashTable :=
  insertAll (HashTable.new.set_probing_method ProbingMethod.LINEAR).reset_collision_count
    [(0, "test"), (16, "test"), (32, "test"), (48, "test"), (64, "test"), (80, "test"),
     (96, "test"), (112, "test")]

/-- The workload of `BM_Collision_Test` with eight arbitrary values in place of
`"test"`. -/
def collisionTestWith (v0 v1 v2 v3 v4 v5 v6 v7 : String) : HashTable :=
  insertAll (HashTable.new.set_probing_method ProbingMethod.LINEAR).reset_collision_count
    [(0, v0), (16, v1), (32, v2), (48, v3), (64, v4), (80, v5), (96, v6), (112, v7)]

/-- States reachable from a fresh table whose strategy is chosen, if at all,
before the first insertion (`find` and `contains` are `const`). -/
inductive Reachable : HashTable → Prop
  | fresh : Reachable HashTable.new
  | configured (m : ProbingMethod) : Reachable (HashTable.new.set_probing_method m)
  | insert {t : HashTable} (k : Int) (v : String) : Reachable t → Reachable (t.insert k v).2
  | upsert {t : HashTable} (k : Int) (v : String) : Reachable t → Reachable (t.upsert k v)
  | erase {t : HashTable} (k : Int) : Reachable t → Reachable (t.erase k).2
  | reset {t : HashTable} : Reachable t → Reachable t.reset_collision_count

/-- States reachable from a fresh table, strategy chosen first, by `insert`,
`upsert` and `reset_collision_count` calls only: no `erase`. -/
inductive ReachableNoErase : HashTable → Prop
  | fresh : ReachableNoErase HashTable.new
  | configured (m : ProbingMethod) : ReachableNoErase (HashTable.new.set_probing_method m)
  | insert {t : HashTable} (k : Int) (v : String) :
      ReachableNoErase t → ReachableNoErase (t.insert k v).2
  | upsert {t : HashTable} (k : Int) (v : String) :
      ReachableNoErase t → ReachableNoErase (t.upsert k v)
  | reset {t : HashTable} : ReachableNoErase t → ReachableNoErase t.reset_collision_count

/-- States reachable from a fresh table by any sequence of public operations,
`set_probing_method` at any time included. -/
inductive ReachableAny : HashTable → Prop
  | fresh : ReachableAny HashTable.new
  | set_probing_method {t : HashTable} (m : ProbingMethod) :
      ReachableAny t → ReachableAny (t.set_probing_method m)
  | insert {t : HashTable} (k : Int) (v : String) : ReachableAny t → ReachableAny (t.insert k v).2
  | upsert {t : HashTable} (k : Int) (v : String) : ReachableAny t → ReachableAny (t.upsert k v)
  | erase {t : HashTable} (k : Int) : ReachableAny t → ReachableAny (t.erase k).2
  | reset {t : HashTable} : ReachableAny t → ReachableAny t.reset_collision_count

/-! ## Theorems -/

set_option maxRecDepth 100000

/-! ## Slot access -/

theorem nodeAt_set_eq (tb : List HashNode) (i : Nat) (x : HashNode) (h : i < tb.length) :
    nodeAt (tb.set i x) i = x := by
  simp [nodeAt, List.getD, h]

theorem nodeAt_set_ne (tb : List HashNode) (i j : Nat) (x : HashNode) (h : i ≠ j) :
    nodeAt (tb.set i x) j = nodeAt tb j := by
  simp [nodeAt, List.getD, List.getElem?_set_ne h]

theorem nodeAt_replicate (n i : Nat) :
    nodeAt (List.replicate n HashNode.empty) i = HashNode.empty := by
  unfold nodeAt
  by_cases h : i < n
  · simp [List.getD, List.getElem?_replicate, h]
  · simp [List.getD, List.getElem?_replicate, h]

theorem nodeAt_of_le (tb : List HashNode) (i : Nat) (h : tb.length ≤ i) :
    nodeAt tb i = HashNode.empty := by
  simp [nodeAt, List.getD, List.getElem?_eq_none h]

theorem liveCount_set (tb : List HashNode) (i : Nat) (x : HashNode) (h : i < tb.length) :
    liveCount (tb.set i x) + (if (nodeAt tb i).live then 1 else 0)
      = liveCount tb + (if x.live then 1 else 0) := by
  induction tb generalizing i with
  | nil => simp at h
  | cons y ys ih =>
    cases i with
    | zero =>
      simp only [List.set_cons_zero, liveCount, List.countP_cons, nodeAt, List.getD_cons_zero]
      omega
    | succ n =>
      have h2 : n < ys.length := by simpa using h
      have := ih n h2
      simp only [List.set_cons_succ, liveCount, List.countP_cons, nodeAt, List.getD_cons_succ] at this ⊢
      omega

theorem liveCount_le_length (tb : List HashNode) : liveCount tb ≤ tb.length :=
  List.countP_le_length _

theorem liveCount_replicate (n : Nat) : liveCount (List.replicate n HashNode.empty) = 0 := by
  simp [liveCount, List.countP_replicate, HashNode.empty, HashNode.live]

theorem liveCount_pos_of_live (tb : List HashNode) (i : Nat) (h : (nodeAt tb i).live = true) :
    0 < liveCount tb := by
  by_cases hi : i < tb.length
  · have hmem : tb[i] ∈ tb := List.getElem_mem hi
    have : nodeAt tb i = tb[i] := by simp [nodeAt, List.getD, hi]
    rw [this] at h
    exact List.countP_pos_iff.mpr ⟨_, hmem, h⟩
  · rw [nodeAt_of_le tb i (by omega)] at h
    simp [HashNode.empty, HashNode.live] at h

/-- A sequence all of whose slots are LIVE has as many LIVE slots as slots. -/
theorem liveCount_eq_length (tb : List HashNode)
    (h : ∀ i, i < tb.length → (nodeAt tb i).live = true) : liveCount tb = tb.length := by
  unfold liveCount
  rw [List.countP_eq_length]
  intro a ha
  obtain ⟨i, hi, rfl⟩ := List.getElem_of_mem ha
  have := h i hi
  simpa [nodeAt, List.getD, hi] using this

/-! ## The stopping attempt of a probe loop -/

theorem firstHit_some {p : Nat → Bool} {fuel a b : Nat} (h : firstHit p fuel a = some b) :
    a ≤ b ∧ b < a + fuel ∧ p b = true ∧ ∀ c, a ≤ c → c < b → p c = false := by
  induction fuel generalizing a with
  | zero => simp [firstHit] at h
  | succ n ih =>
    unfold firstHit at h
    by_cases hp : p a = true
    · simp only [hp, if_true, Option.some.injEq] at h
      subst h
      exact ⟨le_refl _, by omega, hp, fun c h1 h2 => by omega⟩
    · simp only [hp, if_false] at h
      obtain ⟨h1, h2, h3, h4⟩ := ih h
      refine ⟨by omega, by omega, h3, fun c hc1 hc2 => ?_⟩
      by_cases hca : c = a
      · subst hca; simpa using hp
      · exact h4 c (by omega) hc2

theorem firstHit_none {p : Nat → Bool} {fuel a : Nat} (h : firstHit p fuel a = none) :
    ∀ c, a ≤ c → c < a + fuel → p c = false := by
  induction fuel generalizing a with
  | zero => intro c h1 h2; omega
  | succ n ih =>
    unfold firstHit at h
    by_cases hp : p a = true
    · simp [hp] at h
    · simp only [hp, if_false] at h
      intro c hc1 hc2
      by_cases hca : c = a
      · subst hca; simpa using hp
      · exact ih h c (by omega) (by omega)

theorem firstHit_of_first {p : Nat → Bool} {fuel a b : Nat} (h1 : a ≤ b) (h2 : b < a + fuel)
    (h3 : p b = true) (h4 : ∀ c, a ≤ c → c < b → p c = false) : firstHit p fuel a = some b := by
  cases h : firstHit p fuel a with
  | none => have := firstHit_none h b h1 h2; simp [h3] at this
  | some b' =>
    obtain ⟨g1, g2, g3, g4⟩ := firstHit_some h
    rcases Nat.lt_trichotomy b b' with hlt | heq | hgt
    · have := g4 b h1 hlt; simp [h3] at this
    · rw [heq]
    · have := h4 b' g1 hgt; simp [g3] at this

theorem firstHit_none_of {p : Nat → Bool} {fuel a : Nat}
    (h : ∀ c, a ≤ c → c < a + fuel → p c = false) : firstHit p fuel a = none := by
  cases h' : firstHit p fuel a with
  | none => rfl
  | some b =>
    obtain ⟨g1, g2, g3, _⟩ := firstHit_some h'
    have := h b g1 g2; simp [g3] at this

theorem firstHit_exists {p : Nat → Bool} {fuel a b : Nat} (h1 : a ≤ b) (h2 : b < a + fuel)
    (h3 : p b = true) : ∃ b', firstHit p fuel a = some b' ∧ b' ≤ b := by
  cases h : firstHit p fuel a with
  | none => have := firstHit_none h b h1 h2; simp [h3] at this
  | some b' =>
    refine ⟨b', rfl, ?_⟩
    obtain ⟨_, _, _, g4⟩ := firstHit_some h
    by_contra hc
    have := g4 b h1 (by omega); simp [h3] at this

/-! ## The probe loops -/

theorem findSlotConstLoop_eq (t : HashTable) (key : Int) (fuel a : Nat) :
    t.findSlotConstLoop key fuel a =
      match firstHit (t.stopFn key) fuel a with
      | some b => t.probe key b
      | none => t.capacity_ := by
  induction fuel generalizing a with
  | zero => simp [HashTable.findSlotConstLoop, firstHit]
  | succ n ih =>
    unfold HashTable.findSlotConstLoop firstHit
    by_cases h : t.stopFn key a = true
    · have h' : stopsAt (nodeAt t.table_ (t.probe key a)) key = true := h
      simp [h, h']
    · have h' : ¬ stopsAt (nodeAt t.table_ (t.probe key a)) key = true := h
      simp only [h, h', if_false]
      exact ih (a + 1)

theorem findSlotLoop_fst (t : HashTable) (key : Int) (fuel a cc : Nat) :
    (t.findSlotLoop key fuel a cc).1 = t.findSlotConstLoop key fuel a := by
  induction fuel generalizing a cc with
  | zero => simp [HashTable.findSlotLoop, HashTable.findSlotConstLoop]
  | succ n ih =>
    unfold HashTable.findSlotLoop HashTable.findSlotConstLoop
    by_cases h : stopsAt (nodeAt t.table_ (t.probe key a)) key = true
    · simp [h]
    · simp only [h, if_false]
      exact ih _ _

theorem findSlotForRehashLoop_eq (t : HashTable) (key : Int) (fuel a : Nat) :
    t.findSlotForRehashLoop key fuel a =
      match firstHit (t.emptyFn key) fuel a with
      | some b => t.probe key b
      | none => t.capacity_ := by
  induction fuel generalizing a with
  | zero => simp [HashTable.findSlotForRehashLoop, firstHit]
  | succ n ih =>
    unfold HashTable.findSlotForRehashLoop firstHit
    by_cases h : t.emptyFn key a = true
    · have h' : (!(nodeAt t.table_ (t.probe key a)).occupied) = true := h
      simp [h, h']
    · have h' : ¬ (!(nodeAt t.table_ (t.probe key a)).occupied) = true := h
      simp only [h, h', if_false]
      exact ih (a + 1)

theorem findSlot_fst (t : HashTable) (key : Int) :
    (t.findSlot key).1 = t.findSlotConst key := by
  simp [HashTable.findSlot, HashTable.findSlotConst, findSlotLoop_fst]

theorem findSlot_snd (t : HashTable) (key : Int) :
    (t.findSlot key).2 =
      { t with collision_count_ := (t.findSlotLoop key t.capacity_ 0 t.collision_count_).2 } := rfl

theorem probe_lt (t : HashTable) (h : t.WF) (key : Int) (a : Nat) : t.probe key a < t.capacity_ := by
  unfold HashTable.probe
  cases t.method_ <;>
    simp only [HashTable.doubleHash, HashTable.linearProbe, HashTable.quadraticProbe] <;>
    exact Nat.mod_lt _ h.2

/-- The probe function depends on the capacity and the strategy only. -/
theorem probe_congr (t t' : HashTable) (hc : t'.capacity_ = t.capacity_)
    (hm : t'.method_ = t.method_) (key : Int) (a : Nat) : t'.probe key a = t.probe key a := by
  simp [HashTable.probe, HashTable.doubleHash, HashTable.linearProbe, HashTable.quadraticProbe,
    HashTable.hash1, HashTable.hash2, hc, hm]

/-- Outcome of the read-only slot location: either the walk stops at its first
stopping attempt, or no attempt below the capacity stops and the capacity is returned. -/
theorem findSlotConst_cases (t : HashTable) (key : Int) :
    (∃ a, firstHit (t.stopFn key) t.capacity_ 0 = some a ∧ t.findSlotConst key = t.probe key a) ∨
    (firstHit (t.stopFn key) t.capacity_ 0 = none ∧ t.findSlotConst key = t.capacity_) := by
  unfold HashTable.findSlotConst
  rw [findSlotConstLoop_eq]
  cases h : firstHit (t.stopFn key) t.capacity_ 0 with
  | none => right; simp
  | some a => left; exact ⟨a, rfl, rfl⟩

theorem findSlotForRehash_cases (t : HashTable) (key : Int) :
    (∃ a, firstHit (t.emptyFn key) t.capacity_ 0 = some a ∧
        t.findSlotForRehash key = t.probe key a) ∨
    (firstHit (t.emptyFn key) t.capacity_ 0 = none ∧ t.findSlotForRehash key = t.capacity_) := by
  unfold HashTable.findSlotForRehash
  rw [findSlotForRehashLoop_eq]
  cases h : firstHit (t.emptyFn key) t.capacity_ 0 with
  | none => right; simp
  | some a => left; exact ⟨a, rfl, rfl⟩

/-- A located slot passes the stop test. -/
theorem findSlotConst_stops (t : HashTable) (key : Int)
    (hlt : t.findSlotConst key < t.capacity_) :
    ∃ a, firstHit (t.stopFn key) t.capacity_ 0 = some a ∧ t.findSlotConst key = t.probe key a ∧
      stopsAt (nodeAt t.table_ (t.findSlotConst key)) key = true := by
  rcases findSlotConst_cases t key with ⟨a, h1, h2⟩ | ⟨_, h2⟩
  · refine ⟨a, h1, h2, ?_⟩
    rw [h2]
    exact (firstHit_some h1).2.2.1
  · omega

theorem stopsAt_live {n : HashNode} {key : Int} (h : stopsAt n key = true) (hl : n.live = true) :
    n.key = key := by
  simp only [stopsAt, HashNode.live, Bool.and_eq_true, Bool.or_eq_true, Bool.not_eq_true',
    beq_iff_eq] at h hl
  rcases h with h | h
  · rw [h] at hl; simp at hl
  · exact h.2

theorem stopsAt_of_live {n : HashNode} (hl : n.live = true) : stopsAt n n.key = true := by
  simp only [HashNode.live, Bool.and_eq_true, Bool.not_eq_true'] at hl
  simp [stopsAt, hl.1, hl.2]

theorem stopsAt_not_live {n : HashNode} {key : Int} (h : stopsAt n key = true)
    (hl : n.live = false) : n.occupied = false := by
  cases n with
  | mk k v o d =>
    cases o <;> cases d <;> simp_all [stopsAt, HashNode.live]

theorem not_stopsAt_occupied {n : HashNode} {key : Int} (h : stopsAt n key = false) :
    n.occupied = true := by
  cases n with
  | mk k v o d => cases o <;> simp_all [stopsAt]

theorem not_stopsAt_of_ne {n : HashNode} {key : Int} (ho : n.occupied = true)
    (hk : n.live = true → n.key ≠ key) : stopsAt n key = false := by
  cases n with
  | mk k v o d =>
    cases o <;> cases d <;> simp_all [stopsAt, HashNode.live]

/-! ## `find` and `contains` in terms of the located slot -/

theorem find_eq_some_iff (t : HashTable) (k : Int) (v : String) :
    t.find k = some v ↔
      t.findSlotConst k < t.capacity_ ∧ (nodeAt t.table_ (t.findSlotConst k)).live = true ∧
        (nodeAt t.table_ (t.findSlotConst k)).value = v := by
  unfold HashTable.find HashNode.live
  by_cases h1 : t.findSlotConst k ≥ t.capacity_
  · simp [h1]
  · by_cases h2 : ((nodeAt t.table_ (t.findSlotConst k)).occupied &&
        !(nodeAt t.table_ (t.findSlotConst k)).deleted) = true
    · simp only [h1, h2, if_false, if_true, Option.some.injEq]
      constructor
      · intro h; exact ⟨by omega, trivial, h⟩
      · intro h; exact h.2.2
    · simp only [h1, h2, if_false]
      constructor
      · intro h; cases h
      · intro h; exact absurd h.2.1 (by simp)

theorem find_eq_none_iff (t : HashTable) (k : Int) :
    t.find k = none ↔
      ¬ (t.findSlotConst k < t.capacity_ ∧ (nodeAt t.table_ (t.findSlotConst k)).live = true) := by
  constructor
  · intro h ⟨h1, h2⟩
    have := (find_eq_some_iff t k _).mpr ⟨h1, h2, rfl⟩
    rw [h] at this; cases this
  · intro h
    cases hf : t.find k with
    | none => rfl
    | some v =>
      have := (find_eq_some_iff t k v).mp hf
      exact absurd ⟨this.1, this.2.1⟩ h

theorem contains_eq_isSome (t : HashTable) (k : Int) : t.contains k = (t.find k).isSome := by
  unfold HashTable.contains HashTable.find
  by_cases h1 : t.findSlotConst k ≥ t.capacity_
  · simp [h1]
  · cases h2 : ((nodeAt t.table_ (t.findSlotConst k)).occupied &&
        !(nodeAt t.table_ (t.findSlotConst k)).deleted) <;> simp [h1, h2]

/-- A key that `find` reports is held by a LIVE slot with the reported value. -/
theorem holds_of_find {t : HashTable} {k : Int} {v : String}
    (h : t.find k = some v) : t.Holds k v := by
  obtain ⟨h1, h2, h3⟩ := (find_eq_some_iff t k v).mp h
  obtain ⟨a, _, _, hs⟩ := findSlotConst_stops t k h1
  exact ⟨_, h1, h2, stopsAt_live hs h2, h3⟩

/-- Under key uniqueness and probe reachability the walk of a LIVE key stops
at the slot that holds it. -/
theorem findSlotConst_of_live {t : HashTable} (hwf : t.WF) (hu : t.Uniq) (hr : t.ProbeReach)
    {i : Nat} (hi : i < t.capacity_) (hl : (nodeAt t.table_ i).live = true) :
    t.findSlotConst (nodeAt t.table_ i).key = i := by
  obtain ⟨a, ha, hpa, hocc⟩ := hr i hi hl
  have hstop : t.stopFn (nodeAt t.table_ i).key a = true := by
    unfold HashTable.stopFn; rw [hpa]; exact stopsAt_of_live hl
  obtain ⟨b, hb, hba⟩ := firstHit_exists (Nat.zero_le a) (show a < 0 + t.capacity_ by omega) hstop
  rcases findSlotConst_cases t (nodeAt t.table_ i).key with ⟨a', h1, h2⟩ | ⟨h1, _⟩
  · rw [hb] at h1
    cases h1
    rw [h2]
    rcases Nat.lt_or_ge b a with hlt | hge
    · have hsb := (firstHit_some hb).2.2.1
      have hob := hocc b hlt
      have hlive : (nodeAt t.table_ (t.probe (nodeAt t.table_ i).key b)).live = true := by
        by_contra hn
        have := stopsAt_not_live hsb (by simpa using hn)
        rw [this] at hob; cases hob
      exact hu _ _ (probe_lt t hwf _ _) hi hlive hl (stopsAt_live hsb hlive)
    · have : b = a := by omega
      rw [this, hpa]
  · rw [hb] at h1; cases h1

theorem find_of_holds {t : HashTable} (hwf : t.WF) (hu : t.Uniq) (hr : t.ProbeReach)
    {k : Int} {v : String} (h : t.Holds k v) : t.find k = some v := by
  obtain ⟨i, hi, hl, hk, hv⟩ := h
  have := findSlotConst_of_live hwf hu hr hi hl
  rw [hk] at this
  exact (find_eq_some_iff t k v).mpr ⟨by rw [this]; exact hi, by rw [this]; exact hl,
    by rw [this]; exact hv⟩

theorem find_eq_some_iff_holds {t : HashTable} (h : t.FInv) (k : Int) (v : String) :
    t.find k = some v ↔ t.Holds k v :=
  ⟨holds_of_find, find_of_holds h.ginv.wf h.uniq h.reach⟩

theorem hasLive_iff_holds (t : HashTable) (k : Int) : t.HasLive k ↔ ∃ v, t.Holds k v := by
  constructor
  · rintro ⟨i, h1, h2, h3⟩; exact ⟨_, i, h1, h2, h3, rfl⟩
  · rintro ⟨v, i, h1, h2, h3, _⟩; exact ⟨i, h1, h2, h3⟩

theorem find_eq_none_iff_not_hasLive {t : HashTable} (h : t.FInv) (k : Int) :
    t.find k = none ↔ ¬ t.HasLive k := by
  rw [hasLive_iff_holds]
  constructor
  · rintro hn ⟨v, hv⟩
    rw [(find_eq_some_iff_holds h k v).mpr hv] at hn; cases hn
  · intro hn
    cases hf : t.find k with
    | none => rfl
    | some v => exact absurd ⟨v, (find_eq_some_iff_holds h k v).mp hf⟩ hn

/-- Two tables with the same LIVE entries answer `find` alike. -/
theorem find_congr {t t' : HashTable} (h : t.FInv) (h' : t'.FInv)
    (hh : ∀ k v, t'.Holds k v ↔ t.Holds k v) (k : Int) : t'.find k = t.find k := by
  cases hf : t.find k with
  | none =>
    rw [find_eq_none_iff_not_hasLive h', hasLive_iff_holds]
    rintro ⟨v, hv⟩
    rw [(find_eq_some_iff_holds h k v).mpr ((hh k v).mp hv)] at hf; cases hf
  | some v =>
    exact (find_eq_some_iff_holds h' k v).mpr ((hh k v).mpr ((find_eq_some_iff_holds h k v).mp hf))

/-! ## Replacing one slot -/

theorem WF_set {t t' : HashTable} (hwf : t.WF) (hc : t'.capacity_ = t.capacity_)
    {idx : Nat} {n' : HashNode} (htab : t'.table_ = t.table_.set idx n') : t'.WF := by
  unfold HashTable.WF at *
  rw [hc, htab, List.length_set]
  exact hwf

theorem nodeAt_set_self {t t' : HashTable} (hwf : t.WF)
    {idx : Nat} {n' : HashNode} (htab : t'.table_ = t.table_.set idx n')
    (hidx : idx < t.capacity_) : nodeAt t'.table_ idx = n' := by
  rw [htab]; exact nodeAt_set_eq _ _ _ (by rw [← hwf.1]; exact hidx)

theorem nodeAt_set_other {t t' : HashTable}
    {idx : Nat} {n' : HashNode} (htab : t'.table_ = t.table_.set idx n')
    {j : Nat} (hj : j ≠ idx) : nodeAt t'.table_ j = nodeAt t.table_ j := by
  rw [htab]; exact nodeAt_set_ne _ _ _ _ (Ne.symm hj)

theorem Uniq_set {t t' : HashTable} (hwf : t.WF) (hu : t.Uniq)
    (hc : t'.capacity_ = t.capacity_)
    {idx : Nat} {n' : HashNode} (htab : t'.table_ = t.table_.set idx n')
    (hidx : idx < t.capacity_)
    (hnew : n'.live = true → ∀ j, j < t.capacity_ → j ≠ idx →
      (nodeAt t.table_ j).live = true → (nodeAt t.table_ j).key ≠ n'.key) : t'.Uniq := by
  intro i j hi hj hli hlj hk
  rw [hc] at hi hj
  by_cases h1 : i = idx
  · by_cases h2 : j = idx
    · rw [h1, h2]
    · exfalso
      rw [h1, nodeAt_set_self hwf htab hidx] at hli hk
      rw [nodeAt_set_other htab h2] at hlj hk
      exact hnew hli j hj h2 hlj hk.symm
  · by_cases h2 : j = idx
    · exfalso
      rw [h2, nodeAt_set_self hwf htab hidx] at hlj hk
      rw [nodeAt_set_other htab h1] at hli hk
      exact hnew hlj i hi h1 hli hk
    · rw [nodeAt_set_other htab h1] at hli hk
      rw [nodeAt_set_other htab h2] at hlj hk
      exact hu i j hi hj hli hlj hk

theorem occupied_set_mono {t t' : HashTable} (hwf : t.WF)
    {idx : Nat} {n' : HashNode} (htab : t'.table_ = t.table_.set idx n')
    (hidx : idx < t.capacity_)
    (hocc : (nodeAt t.table_ idx).occupied = true → n'.occupied = true)
    {j : Nat} (h : (nodeAt t.table_ j).occupied = true) :
    (nodeAt t'.table_ j).occupied = true := by
  by_cases hj : j = idx
  · rw [hj, nodeAt_set_self hwf htab hidx]; exact hocc (hj ▸ h)
  · rw [nodeAt_set_other htab hj]; exact h

theorem ProbeReach_set {t t' : HashTable} (hwf : t.WF) (hr : t.ProbeReach)
    (hc : t'.capacity_ = t.capacity_) (hm : t'.method_ = t.method_)
    {idx : Nat} {n' : HashNode} (htab : t'.table_ = t.table_.set idx n')
    (hidx : idx < t.capacity_)
    (hocc : (nodeAt t.table_ idx).occupied = true → n'.occupied = true)
    (hnew : n'.live = true → ∃ a, a < t.capacity_ ∧ t.probe n'.key a = idx ∧
      ∀ b, b < a → (nodeAt t.table_ (t.probe n'.key b)).occupied = true) : t'.ProbeReach := by
  intro i hi hl
  rw [hc] at hi
  have hp : ∀ key a, t'.probe key a = t.probe key a := probe_congr t t' hc hm
  by_cases h1 : i = idx
  · rw [h1, nodeAt_set_self hwf htab hidx] at hl ⊢
    obtain ⟨a, ha, hpa, hb⟩ := hnew hl
    refine ⟨a, by rw [hc]; exact ha, by rw [hp, hpa], fun b hba => ?_⟩
    rw [hp]
    exact occupied_set_mono hwf htab hidx hocc (hb b hba)
  · rw [nodeAt_set_other htab h1] at hl ⊢
    obtain ⟨a, ha, hpa, hb⟩ := hr i hi hl
    refine ⟨a, by rw [hc]; exact ha, by rw [hp, hpa], fun b hba => ?_⟩
    rw [hp]
    exact occupied_set_mono hwf htab hidx hocc (hb b hba)

theorem liveCount_set_table {t t' : HashTable} (hwf : t.WF)
    {idx : Nat} {n' : HashNode} (htab : t'.table_ = t.table_.set idx n')
    (hidx : idx < t.capacity_) :
    liveCount t'.table_ + (if (nodeAt t.table_ idx).live then 1 else 0)
      = liveCount t.table_ + (if n'.live then 1 else 0) := by
  rw [htab]; exact liveCount_set _ _ _ (by rw [← hwf.1]; exact hidx)

/-- Writing a node that passes the stop test for `key` into the slot at which
the walk of `key` stops leaves that walk stopping at the same slot. -/
theorem findSlotConst_set_located {t t' : HashTable} (hwf : t.WF)
    (hc : t'.capacity_ = t.capacity_) (hm : t'.method_ = t.method_)
    {key : Int} {a : Nat} (hfirst : firstHit (t.stopFn key) t.capacity_ 0 = some a)
    {n' : HashNode} (htab : t'.table_ = t.table_.set (t.probe key a) n')
    (hstop : stopsAt n' key = true) : t'.findSlotConst key = t.probe key a := by
  have hp : ∀ key a, t'.probe key a = t.probe key a := probe_congr t t' hc hm
  obtain ⟨_, ha, hsa, hbefore⟩ := firstHit_some hfirst
  have hidx := probe_lt t hwf key a
  have h2 : firstHit (t'.stopFn key) t'.capacity_ 0 = some a := by
    rw [hc]
    apply firstHit_of_first (Nat.zero_le a) ha
    · unfold HashTable.stopFn
      rw [hp, nodeAt_set_self hwf htab hidx]; exact hstop
    · intro c hc1 hc2
      have hne : t.probe key c ≠ t.probe key a := by
        intro heq
        have h3 := hbefore c hc1 hc2
        unfold HashTable.stopFn at h3 hsa
        rw [heq, hsa] at h3; cases h3
      unfold HashTable.stopFn
      rw [hp, nodeAt_set_other htab hne]
      exact hbefore c hc1 hc2
  rcases findSlotConst_cases t' key with ⟨a', g1, g2⟩ | ⟨g1, _⟩
  · rw [h2] at g1; cases g1; rw [g2, hp]
  · rw [h2] at g1; cases g1

theorem find_set_located {t t' : HashTable} (n' : HashNode) (hwf : t.WF)
    (hc : t'.capacity_ = t.capacity_) (hm : t'.method_ = t.method_)
    {key : Int} {a : Nat} (hfirst : firstHit (t.stopFn key) t.capacity_ 0 = some a)
    (htab : t'.table_ = t.table_.set (t.probe key a) n')
    (hstop : stopsAt n' key = true) (hlive : n'.live = true) : t'.find key = some n'.value := by
  have h1 := findSlotConst_set_located hwf hc hm hfirst htab hstop
  have hidx := probe_lt t hwf key a
  rw [find_eq_some_iff, h1, nodeAt_set_self hwf htab hidx]
  exact ⟨by rw [hc]; exact hidx, hlive, rfl⟩

/-! ## The three slot updates and the invariants -/

theorem live_imp_occupied {n : HashNode} (h : n.live = true) : n.occupied = true := by
  simp only [HashNode.live, Bool.and_eq_true] at h; exact h.1

theorem not_live_of_not_occupied {n : HashNode} (h : n.occupied = false) : n.live = false := by
  simp [HashNode.live, h]

/-- Placing a LIVE node into a slot that is not LIVE keeps the general invariant,
provided there is room below the load threshold. -/
theorem GInv_place {t t' : HashTable} (h : t.GInv) (hload : 2 * (t.size_ + 1) ≤ t.capacity_)
    (hc : t'.capacity_ = t.capacity_)
    {idx : Nat} {n' : HashNode} (htab : t'.table_ = t.table_.set idx n')
    (hidx : idx < t.capacity_) (hold : (nodeAt t.table_ idx).live = false)
    (hnew : n'.live = true) (hs : t'.size_ = t.size_ + 1) : t'.GInv := by
  have hcount := liveCount_set_table h.wf htab hidx
  rw [hold, hnew] at hcount
  simp only [if_true, Bool.false_eq_true, if_false, Nat.add_zero] at hcount
  exact ⟨WF_set h.wf hc htab, by rw [hs, hcount, h.sizeOk], by rw [hs, hc]; exact hload,
    by rw [hc]; exact h.big⟩

/-- Replacing a slot by a node of the same liveness keeps the general invariant. -/
theorem GInv_same {t t' : HashTable} (h : t.GInv)
    (hc : t'.capacity_ = t.capacity_)
    {idx : Nat} {n' : HashNode} (htab : t'.table_ = t.table_.set idx n')
    (hidx : idx < t.capacity_) (hlive : n'.live = (nodeAt t.table_ idx).live)
    (hs : t'.size_ = t.size_) : t'.GInv := by
  have hcount := liveCount_set_table h.wf htab hidx
  rw [hlive] at hcount
  have hcount' : liveCount t'.table_ = liveCount t.table_ := by omega
  exact ⟨WF_set h.wf hc htab, by rw [hs, hcount', h.sizeOk], by rw [hs, hc]; exact h.load,
    by rw [hc]; exact h.big⟩

/-- Turning a LIVE slot into a TOMBSTONE keeps the general invariant; the
decrement of `size_` does not wrap. -/
theorem tombstone_both {t t' : HashTable} (h : t.GInv)
    (hc : t'.capacity_ = t.capacity_)
    {idx : Nat} {n' : HashNode} (htab : t'.table_ = t.table_.set idx n')
    (hidx : idx < t.capacity_) (hold : (nodeAt t.table_ idx).live = true)
    (hnew : n'.live = false) (hs : t'.size_ = decSizeT t.size_) :
    t'.GInv ∧ t'.size_ + 1 = t.size_ := by
  have hcount := liveCount_set_table h.wf htab hidx
  rw [hold, hnew] at hcount
  simp only [if_true, Bool.false_eq_true, if_false, Nat.add_zero] at hcount
  have hpos : 0 < t.size_ := by rw [h.sizeOk]; exact liveCount_pos_of_live _ _ hold
  have hdec : decSizeT t.size_ = t.size_ - 1 := by
    unfold decSizeT; rw [if_neg (by omega)]
  have hsz : t'.size_ + 1 = t.size_ := by rw [hs, hdec]; omega
  refine ⟨⟨WF_set h.wf hc htab, ?_, ?_, by rw [hc]; exact h.big⟩, hsz⟩
  · have := h.sizeOk; omega
  · rw [hc]; have := h.load; omega

theorem GInv_tombstone {t t' : HashTable} (h : t.GInv)
    (hc : t'.capacity_ = t.capacity_)
    {idx : Nat} {n' : HashNode} (htab : t'.table_ = t.table_.set idx n')
    (hidx : idx < t.capacity_) (hold : (nodeAt t.table_ idx).live = true)
    (hnew : n'.live = false) (hs : t'.size_ = decSizeT t.size_) : t'.GInv :=
  (tombstone_both h hc htab hidx hold hnew hs).1

theorem size_tombstone {t t' : HashTable} (h : t.GInv)
    (hc : t'.capacity_ = t.capacity_)
    {idx : Nat} {n' : HashNode} (htab : t'.table_ = t.table_.set idx n')
    (hidx : idx < t.capacity_) (hold : (nodeAt t.table_ idx).live = true)
    (hnew : n'.live = false) (hs : t'.size_ = decSizeT t.size_) : t'.size_ + 1 = t.size_ :=
  (tombstone_both h hc htab hidx hold hnew hs).2

theorem FInv_place {t t' : HashTable} (h : t.FInv) (hload : 2 * (t.size_ + 1) ≤ t.capacity_)
    (hc : t'.capacity_ = t.capacity_) (hm : t'.method_ = t.method_)
    {key : Int} {v : String} {idx : Nat}
    (htab : t'.table_ = t.table_.set idx ⟨key, v, true, false⟩)
    (hidx : idx < t.capacity_) (hs : t'.size_ = t.size_ + 1)
    (hempty : (nodeAt t.table_ idx).occupied = false) (hnot : ¬ t.HasLive key)
    {a : Nat} (ha : a < t.capacity_) (hpa : t.probe key a = idx)
    (hb : ∀ b, b < a → (nodeAt t.table_ (t.probe key b)).occupied = true) : t'.FInv := by
  refine ⟨GInv_place h.ginv hload hc htab hidx (not_live_of_not_occupied hempty) rfl hs, ?_, ?_⟩
  · apply Uniq_set h.ginv.wf h.uniq hc htab hidx
    intro _ j hj _ hlj hk
    exact hnot ⟨j, hj, hlj, hk⟩
  · apply ProbeReach_set h.ginv.wf h.reach hc hm htab hidx
    · intro _; rfl
    · intro _; exact ⟨a, ha, hpa, hb⟩

theorem FInv_overwrite {t t' : HashTable} (h : t.FInv)
    (hc : t'.capacity_ = t.capacity_) (hm : t'.method_ = t.method_)
    {v : String} {idx : Nat}
    (htab : t'.table_ = t.table_.set idx { nodeAt t.table_ idx with value := v })
    (hidx : idx < t.capacity_) (hs : t'.size_ = t.size_)
    (hold : (nodeAt t.table_ idx).live = true) : t'.FInv := by
  refine ⟨GInv_same h.ginv hc htab hidx rfl hs, ?_, ?_⟩
  · apply Uniq_set h.ginv.wf h.uniq hc htab hidx
    intro _ j hj hne hlj hk
    exact hne (h.uniq j idx hj hidx hlj hold hk)
  · apply ProbeReach_set h.ginv.wf h.reach hc hm htab hidx
    · intro hocc; exact hocc
    · intro _; exact h.reach idx hidx hold

theorem FInv_tombstone {t t' : HashTable} (h : t.FInv)
    (hc : t'.capacity_ = t.capacity_) (hm : t'.method_ = t.method_) {idx : Nat}
    (htab : t'.table_ = t.table_.set idx { nodeAt t.table_ idx with deleted := true })
    (hidx : idx < t.capacity_) (hs : t'.size_ = decSizeT t.size_)
    (hold : (nodeAt t.table_ idx).live = true) : t'.FInv := by
  have hnl : ({ nodeAt t.table_ idx with deleted := true } : HashNode).live = false := by
    simp [HashNode.live]
  refine ⟨(tombstone_both h.ginv hc htab hidx hold hnl hs).1, ?_, ?_⟩
  · apply Uniq_set h.ginv.wf h.uniq hc htab hidx
    intro hl; rw [hnl] at hl; cases hl
  · apply ProbeReach_set h.ginv.wf h.reach hc hm htab hidx
    · intro hocc; exact hocc
    · intro hl; rw [hnl] at hl; cases hl

/-- The invariants do not read the collision counter. -/
theorem GInv_counter {t : HashTable} (h : t.GInv) (c : Nat) :
    ({ t with collision_count_ := c } : HashTable).GInv :=
  ⟨h.wf, h.sizeOk, h.load, h.big⟩

theorem FInv_counter {t : HashTable} (h : t.FInv) (c : Nat) :
    ({ t with collision_count_ := c } : HashTable).FInv :=
  ⟨GInv_counter h.ginv c, h.uniq, h.reach⟩

/-! ## Case analysis of the public operations -/

theorem insert_exhaust (t : HashTable) (k : Int) (v : String)
    (h : t.growIfNeeded.capacity_ ≤ t.growIfNeeded.findSlotConst k) :
    t.insert k v = (false, (t.growIfNeeded.findSlot k).2) := by
  unfold HashTable.insert
  simp only [findSlot_fst]
  rw [if_pos (show (t.growIfNeeded.findSlot k).2.capacity_ ≤ _ from h)]

theorem insert_dup (t : HashTable) (k : Int) (v : String)
    (h1 : t.growIfNeeded.findSlotConst k < t.growIfNeeded.capacity_)
    (h2 : (nodeAt t.growIfNeeded.table_ (t.growIfNeeded.findSlotConst k)).live = true) :
    t.insert k v = (false, (t.growIfNeeded.findSlot k).2) := by
  unfold HashTable.insert
  simp only [findSlot_fst]
  rw [if_neg (show ¬ (t.growIfNeeded.findSlot k).2.capacity_ ≤ _ from by
    show ¬ t.growIfNeeded.capacity_ ≤ _; omega)]
  rw [if_pos (show ((nodeAt (t.growIfNeeded.findSlot k).2.table_ _).occupied &&
    !(nodeAt (t.growIfNeeded.findSlot k).2.table_ _).deleted) = true from h2)]

theorem insert_place (t : HashTable) (k : Int) (v : String)
    (h1 : t.growIfNeeded.findSlotConst k < t.growIfNeeded.capacity_)
    (h2 : (nodeAt t.growIfNeeded.table_ (t.growIfNeeded.findSlotConst k)).live = false) :
    t.insert k v = (true,
      { (t.growIfNeeded.findSlot k).2 with
        table_ := t.growIfNeeded.table_.set (t.growIfNeeded.findSlotConst k) ⟨k, v, true, false⟩
        size_ := t.growIfNeeded.size_ + 1 }) := by
  unfold HashTable.insert
  simp only [findSlot_fst]
  rw [if_neg (show ¬ (t.growIfNeeded.findSlot k).2.capacity_ ≤ _ from by
    show ¬ t.growIfNeeded.capacity_ ≤ _; omega)]
  rw [if_neg (show ¬ ((nodeAt (t.growIfNeeded.findSlot k).2.table_ _).occupied &&
    !(nodeAt (t.growIfNeeded.findSlot k).2.table_ _).deleted) = true from by
      intro hh; exact Bool.noConfusion (h2.symm.trans (hh : HashNode.live _ = true)))]
  rfl

theorem upsert_exhaust (t : HashTable) (k : Int) (v : String)
    (h : t.growIfNeeded.capacity_ ≤ t.growIfNeeded.findSlotConst k) :
    t.upsert k v = (t.growIfNeeded.findSlot k).2 := by
  unfold HashTable.upsert
  simp only [findSlot_fst]
  rw [if_pos (show (t.growIfNeeded.findSlot k).2.capacity_ ≤ _ from h)]

theorem upsert_overwrite (t : HashTable) (k : Int) (v : String)
    (h1 : t.growIfNeeded.findSlotConst k < t.growIfNeeded.capacity_)
    (h2 : (nodeAt t.growIfNeeded.table_ (t.growIfNeeded.findSlotConst k)).live = true) :
    t.upsert k v =
      { (t.growIfNeeded.findSlot k).2 with
        table_ := t.growIfNeeded.table_.set (t.growIfNeeded.findSlotConst k)
          { nodeAt t.growIfNeeded.table_ (t.growIfNeeded.findSlotConst k) with value := v } } := by
  unfold HashTable.upsert
  simp only [findSlot_fst]
  rw [if_neg (show ¬ (t.growIfNeeded.findSlot k).2.capacity_ ≤ _ from by
    show ¬ t.growIfNeeded.capacity_ ≤ _; omega)]
  rw [if_pos (show ((nodeAt (t.growIfNeeded.findSlot k).2.table_ _).occupied &&
    !(nodeAt (t.growIfNeeded.findSlot k).2.table_ _).deleted) = true from h2)]
  rfl

theorem upsert_place (t : HashTable) (k : Int) (v : String)
    (h1 : t.growIfNeeded.findSlotConst k < t.growIfNeeded.capacity_)
    (h2 : (nodeAt t.growIfNeeded.table_ (t.growIfNeeded.findSlotConst k)).live = false) :
    t.upsert k v =
      { (t.growIfNeeded.findSlot k).2 with
        table_ := t.growIfNeeded.table_.set (t.growIfNeeded.findSlotConst k) ⟨k, v, true, false⟩
        size_ := t.growIfNeeded.size_ + 1 } := by
  unfold HashTable.upsert
  simp only [findSlot_fst]
  rw [if_neg (show ¬ (t.growIfNeeded.findSlot k).2.capacity_ ≤ _ from by
    show ¬ t.growIfNeeded.capacity_ ≤ _; omega)]
  rw [if_neg (show ¬ ((nodeAt (t.growIfNeeded.findSlot k).2.table_ _).occupied &&
    !(nodeAt (t.growIfNeeded.findSlot k).2.table_ _).deleted) = true from by
      intro hh; exact Bool.noConfusion (h2.symm.trans (hh : HashNode.live _ = true)))]
  rfl

theorem erase_exhaust (t : HashTable) (k : Int)
    (h : t.capacity_ ≤ t.findSlotConst k) :
    t.erase k = (false, (t.findSlot k).2) := by
  unfold HashTable.erase
  simp only [findSlot_fst]
  rw [if_pos (show (t.findSlot k).2.capacity_ ≤ _ from h)]

theorem erase_absent (t : HashTable) (k : Int)
    (h1 : t.findSlotConst k < t.capacity_)
    (h2 : (nodeAt t.table_ (t.findSlotConst k)).live = false) :
    t.erase k = (false, (t.findSlot k).2) := by
  unfold HashTable.erase
  simp only [findSlot_fst]
  rw [if_neg (show ¬ (t.findSlot k).2.capacity_ ≤ _ from by
    show ¬ t.capacity_ ≤ _; omega)]
  rw [if_neg (show ¬ ((nodeAt (t.findSlot k).2.table_ _).occupied &&
    !(nodeAt (t.findSlot k).2.table_ _).deleted) = true from by
      intro hh; exact Bool.noConfusion (h2.symm.trans (hh : HashNode.live _ = true)))]

theorem erase_live (t : HashTable) (k : Int)
    (h1 : t.findSlotConst k < t.capacity_)
    (h2 : (nodeAt t.table_ (t.findSlotConst k)).live = true) :
    t.erase k = (true,
      { (t.findSlot k).2 with
        table_ := t.table_.set (t.findSlotConst k)
          { nodeAt t.table_ (t.findSlotConst k) with deleted := true }
        size_ := decSizeT t.size_ }) := by
  unfold HashTable.erase
  simp only [findSlot_fst]
  rw [if_neg (show ¬ (t.findSlot k).2.capacity_ ≤ _ from by
    show ¬ t.capacity_ ≤ _; omega)]
  rw [if_pos (show ((nodeAt (t.findSlot k).2.table_ _).occupied &&
    !(nodeAt (t.findSlot k).2.table_ _).deleted) = true from h2)]
  rfl

/-! ## Growth: one relocation step -/

theorem rehashStep_skip (T : HashTable) (n : HashNode) (h : n.live = false) :
    T.rehashStep n = T := by
  unfold HashTable.rehashStep
  rw [if_neg (show ¬ (n.occupied && !n.deleted) = true from by
    intro hh; exact Bool.noConfusion (h.symm.trans (hh : n.live = true)))]

theorem rehashStep_blocked (T : HashTable) (n : HashNode) (h : n.live = true)
    (hb : T.capacity_ ≤ T.findSlotForRehash n.key) : T.rehashStep n = T := by
  unfold HashTable.rehashStep
  rw [if_pos (show (n.occupied && !n.deleted) = true from h)]
  simp only
  rw [if_neg (by omega)]

theorem rehashStep_place (T : HashTable) (n : HashNode) (h : n.live = true)
    (hlt : T.findSlotForRehash n.key < T.capacity_) :
    T.rehashStep n =
      { T with table_ := T.table_.set (T.findSlotForRehash n.key) ⟨n.key, n.value, true, false⟩
               size_ := T.size_ + 1 } := by
  unfold HashTable.rehashStep
  rw [if_pos (show (n.occupied && !n.deleted) = true from h)]
  simp only
  rw [if_pos hlt]
  rfl

theorem rehashStep_fields (T : HashTable) (n : HashNode) :
    (T.rehashStep n).capacity_ = T.capacity_ ∧ (T.rehashStep n).method_ = T.method_ ∧
      (T.rehashStep n).collision_count_ = T.collision_count_ := by
  unfold HashTable.rehashStep
  split
  · simp only
    split <;> exact ⟨rfl, rfl, rfl⟩
  · exact ⟨rfl, rfl, rfl⟩

theorem foldl_rehashStep_fields (l : List HashNode) (T : HashTable) :
    (l.foldl HashTable.rehashStep T).capacity_ = T.capacity_ ∧
      (l.foldl HashTable.rehashStep T).method_ = T.method_ ∧
      (l.foldl HashTable.rehashStep T).collision_count_ = T.collision_count_ := by
  induction l generalizing T with
  | nil => exact ⟨rfl, rfl, rfl⟩
  | cons n l ih =>
    simp only [List.foldl_cons]
    obtain ⟨h1, h2, h3⟩ := ih (T.rehashStep n)
    obtain ⟨g1, g2, g3⟩ := rehashStep_fields T n
    exact ⟨h1.trans g1, h2.trans g2, h3.trans g3⟩

theorem liveCount_append_singleton (pre : List HashNode) (n : HashNode) :
    liveCount (pre ++ [n]) = liveCount pre + (if n.live then 1 else 0) := by
  simp [liveCount, List.countP_append, List.countP_singleton]

/-- The LINEAR walk of any key visits every slot. -/
theorem linear_surjective {T : HashTable} (hwf : T.WF) (hm : T.method_ = ProbingMethod.LINEAR)
    (hcap : T.capacity_ ≤ 2 ^ 63) (key : Int) (i : Nat) (hi : i < T.capacity_) :
    ∃ a, a < T.capacity_ ∧ T.probe key a = i := by
  have hh : T.hash1 key < T.capacity_ := Nat.mod_lt _ hwf.2
  have hp : ∀ a, a < T.capacity_ → T.probe key a = (T.hash1 key + a) % T.capacity_ := by
    intro a ha
    unfold HashTable.probe
    rw [hm]
    simp only [HashTable.linearProbe, wrap]
    rw [Nat.mod_eq_of_lt (by omega : T.hash1 key + a < 2 ^ 64)]
  by_cases hge : T.hash1 key ≤ i
  · refine ⟨i - T.hash1 key, by omega, ?_⟩
    rw [hp _ (by omega), show T.hash1 key + (i - T.hash1 key) = i by omega]
    exact Nat.mod_eq_of_lt hi
  · refine ⟨i + T.capacity_ - T.hash1 key, by omega, ?_⟩
    rw [hp _ (by omega), show T.hash1 key + (i + T.capacity_ - T.hash1 key) = i + T.capacity_ by omega,
      Nat.add_mod_right]
    exact Nat.mod_eq_of_lt hi

/-- A LINEAR table without tombstones in which some walk is blocked is full. -/
theorem blocked_linear_full {T : HashTable} (hwf : T.WF) (hnt : T.NoTomb)
    (hm : T.method_ = ProbingMethod.LINEAR) (hcap : T.capacity_ ≤ 2 ^ 63) {key : Int}
    (hb : T.Blocked key) : liveCount T.table_ = T.capacity_ := by
  rw [hwf.1]
  apply liveCount_eq_length
  intro i hi
  obtain ⟨a, ha, hpa⟩ := linear_surjective hwf hm hcap key i (by rw [hwf.1]; exact hi)
  have hocc := hb a ha
  rw [hpa] at hocc
  have hdel := hnt i hocc
  simp [HashNode.live, hocc, hdel]

/-! ## Growth: the loop invariant -/

theorem holds_set_mono {T T' : HashTable} (hc : T'.capacity_ = T.capacity_)
    {idx : Nat} {n' : HashNode} (htab : T'.table_ = T.table_.set idx n')
    (hempty : (nodeAt T.table_ idx).occupied = false) {k : Int} {v : String}
    (h : T.Holds k v) : T'.Holds k v := by
  obtain ⟨i, hi, hl, hk, hv⟩ := h
  have hne : i ≠ idx := by
    intro heq
    rw [heq] at hl
    have := live_imp_occupied hl
    rw [hempty] at this; cases this
  refine ⟨i, by rw [hc]; exact hi, ?_, ?_, ?_⟩ <;> rw [nodeAt_set_other htab hne] <;> assumption

theorem not_hasLive_of_sub {pre : List HashNode} {T : HashTable} (h : RehashInv pre T)
    {node : HashNode} (hl : node.live = true)
    (hd : ∀ n, n ∈ pre → n.live = true → node.live = true → n.key ≠ node.key) :
    ¬ T.HasLive node.key := by
  intro hh
  obtain ⟨v, hv⟩ := (hasLive_iff_holds T node.key).mp hh
  obtain ⟨n, hn, hnl, hnk, _⟩ := h.sub _ _ hv
  exact hd n hn hnl hl hnk

theorem RehashInv_skip {pre : List HashNode} {T : HashTable} (h : RehashInv pre T)
    {node : HashNode} (hl : node.live = false) : RehashInv (pre ++ [node]) T := by
  have hcount : liveCount (pre ++ [node]) = liveCount pre := by
    rw [liveCount_append_singleton, hl]; simp
  have hmem : ∀ n, n ∈ pre ++ [node] → n.live = true → n ∈ pre := by
    intro n hn hnl
    rcases List.mem_append.mp hn with h1 | h1
    · exact h1
    · rw [List.mem_singleton.mp h1, hl] at hnl; cases hnl
  refine ⟨h.wf, h.sizeOk, by rw [hcount]; exact h.bound, h.noTomb, h.uniq, h.reach, ?_, ?_, ?_, ?_,
    ?_⟩
  · intro k v hv
    obtain ⟨n, hn, rest⟩ := h.sub k v hv
    exact ⟨n, List.mem_append_left _ hn, rest⟩
  · intro n hn hnl; exact h.comp n (hmem n hn hnl) hnl
  · intro hs n hn hnl; exact h.full (by rw [← hcount]; exact hs) n (hmem n hn hnl) hnl
  · intro hm hcap hlen
    rw [hcount]
    exact h.linear hm hcap (by simp at hlen; omega)
  · intro hlt
    obtain ⟨n, hn, rest⟩ := h.lost (by rw [← hcount]; exact hlt)
    exact ⟨n, List.mem_append_left _ hn, rest⟩

theorem RehashInv_blocked {pre : List HashNode} {T : HashTable} (h : RehashInv pre T)
    {node : HashNode} (hl : node.live = true)
    (hd : ∀ n, n ∈ pre → n.live = true → node.live = true → n.key ≠ node.key)
    (hnone : firstHit (T.emptyFn node.key) T.capacity_ 0 = none) :
    RehashInv (pre ++ [node]) T := by
  have hcount : liveCount (pre ++ [node]) = liveCount pre + 1 := by
    rw [liveCount_append_singleton, hl]; simp
  have hblocked : T.Blocked node.key := by
    intro a ha
    have := firstHit_none hnone a (Nat.zero_le a) (by omega)
    simpa [HashTable.emptyFn] using this
  have hnot := not_hasLive_of_sub h hl hd
  have hmem : ∀ n, n ∈ pre ++ [node] → n ∈ pre ∨ n = node := by
    intro n hn
    rcases List.mem_append.mp hn with h1 | h1
    · exact Or.inl h1
    · exact Or.inr (List.mem_singleton.mp h1)
  have hb := h.bound
  refine ⟨h.wf, h.sizeOk, by omega, h.noTomb, h.uniq, h.reach, ?_, ?_, ?_, ?_, ?_⟩
  · intro k v hv
    obtain ⟨n, hn, rest⟩ := h.sub k v hv
    exact ⟨n, List.mem_append_left _ hn, rest⟩
  · intro n hn hnl
    rcases hmem n hn with h1 | h1
    · exact h.comp n h1 hnl
    · rw [h1]; exact Or.inr ⟨hblocked, hnot⟩
  · intro hs; omega
  · intro hm hcap hlen
    exfalso
    have hfull := blocked_linear_full h.wf h.noTomb hm hcap hblocked
    have h1 := h.sizeOk
    have h2 := liveCount_le_length pre
    simp at hlen
    omega
  · intro _
    exact ⟨node, List.mem_append_right _ (List.mem_singleton.mpr rfl), hl, hblocked, hnot⟩

theorem RehashInv_place {pre : List HashNode} {T : HashTable} (h : RehashInv pre T)
    {node : HashNode} (hl : node.live = true)
    (hd : ∀ n, n ∈ pre → n.live = true → node.live = true → n.key ≠ node.key)
    {a : Nat} (hsome : firstHit (T.emptyFn node.key) T.capacity_ 0 = some a) :
    RehashInv (pre ++ [node])
      { T with table_ := T.table_.set (T.probe node.key a) ⟨node.key, node.value, true, false⟩
               size_ := T.size_ + 1 } := by
  have hcount : liveCount (pre ++ [node]) = liveCount pre + 1 := by
    rw [liveCount_append_singleton, hl]; simp
  obtain ⟨_, ha, hea, hbefore⟩ := firstHit_some hsome
  have ha' : a < T.capacity_ := by omega
  have hidx := probe_lt T h.wf node.key a
  have hempty : (nodeAt T.table_ (T.probe node.key a)).occupied = false := by
    simpa [HashTable.emptyFn] using hea
  have hocc : ∀ b, b < a → (nodeAt T.table_ (T.probe node.key b)).occupied = true := by
    intro b hb
    have := hbefore b (Nat.zero_le b) hb
    simpa [HashTable.emptyFn] using this
  have hnot := not_hasLive_of_sub h hl hd
  have hmem : ∀ n, n ∈ pre ++ [node] → n ∈ pre ∨ n = node := by
    intro n hn
    rcases List.mem_append.mp hn with h1 | h1
    · exact Or.inl h1
    · exact Or.inr (List.mem_singleton.mp h1)
  generalize hT' : ({ T with
      table_ := T.table_.set (T.probe node.key a) ⟨node.key, node.value, true, false⟩
      size_ := T.size_ + 1 } : HashTable) = T'
  have hc : T'.capacity_ = T.capacity_ := by rw [← hT']
  have hm : T'.method_ = T.method_ := by rw [← hT']
  have hs : T'.size_ = T.size_ + 1 := by rw [← hT']
  have htab : T'.table_ =
      T.table_.set (T.probe node.key a) ⟨node.key, node.value, true, false⟩ := by rw [← hT']
  have hself := nodeAt_set_self h.wf htab hidx
  have hholds : T'.Holds node.key node.value :=
    ⟨T.probe node.key a, by rw [hc]; exact hidx, by rw [hself]; rfl, by rw [hself],
      by rw [hself]⟩
  have hcnt := liveCount_set_table h.wf htab hidx
  rw [not_live_of_not_occupied hempty] at hcnt
  simp only [Bool.false_eq_true, if_false, Nat.add_zero] at hcnt
  have hlive1 : (⟨node.key, node.value, true, false⟩ : HashNode).live = true := rfl
  rw [hlive1] at hcnt
  simp only [if_true] at hcnt
  have hb := h.bound
  have hso := h.sizeOk
  have hkeep : ∀ n, n ∈ pre → n.live = true → T.Blocked n.key → ¬ T.HasLive n.key →
      T'.Blocked n.key ∧ ¬ T'.HasLive n.key := by
    intro n h1 hnl h2 h3
    refine ⟨?_, ?_⟩
    · intro b hb'
      rw [probe_congr T T' hc hm]
      exact occupied_set_mono h.wf htab hidx (fun _ => rfl) (h2 b (by rw [← hc]; exact hb'))
    · rintro ⟨i, hi, hli, hki⟩
      by_cases hii : i = T.probe node.key a
      · rw [hii, hself] at hki
        exact hd n h1 hnl hl hki.symm
      · rw [nodeAt_set_other htab hii] at hli hki
        exact h3 ⟨i, by rw [← hc]; exact hi, hli, hki⟩
  refine ⟨WF_set h.wf hc htab, by omega, by omega, ?_, ?_, ?_, ?_, ?_, ?_, ?_, ?_⟩
  · intro i hi
    by_cases hii : i = T.probe node.key a
    · rw [hii, hself]
    · rw [nodeAt_set_other htab hii] at hi ⊢
      exact h.noTomb i hi
  · apply Uniq_set h.wf h.uniq hc htab hidx
    intro _ j hj _ hlj hk
    exact hnot ⟨j, hj, hlj, hk⟩
  · apply ProbeReach_set h.wf h.reach hc hm htab hidx
    · intro _; rfl
    · intro _; exact ⟨a, ha', rfl, hocc⟩
  · intro k v ⟨i, hi, hli, hki, hvi⟩
    by_cases hii : i = T.probe node.key a
    · rw [hii, hself] at hki hvi
      exact ⟨node, List.mem_append_right _ (List.mem_singleton.mpr rfl), hl, hki, hvi⟩
    · rw [nodeAt_set_other htab hii] at hli hki hvi
      obtain ⟨n, hn, rest⟩ := h.sub k v ⟨i, by rw [← hc]; exact hi, hli, hki, hvi⟩
      exact ⟨n, List.mem_append_left _ hn, rest⟩
  · intro n hn hnl
    rcases hmem n hn with h1 | h1
    · rcases h.comp n h1 hnl with h2 | ⟨h2, h3⟩
      · exact Or.inl (holds_set_mono hc htab hempty h2)
      · exact Or.inr (hkeep n h1 hnl h2 h3)
    · rw [h1]; exact Or.inl hholds
  · intro hsz n hn hnl
    rcases hmem n hn with h1 | h1
    · exact holds_set_mono hc htab hempty (h.full (by omega) n h1 hnl)
    · rw [h1]; exact hholds
  · intro hm' hcap hlen
    have := h.linear (by rw [← hm]; exact hm') (by rw [← hc]; exact hcap)
      (by simp at hlen; rw [hc] at hlen; omega)
    omega
  · intro hlt
    obtain ⟨n, hn, hnl, h2, h3⟩ := h.lost (by omega)
    exact ⟨n, List.mem_append_left _ hn, hnl, hkeep n hn hnl h2 h3⟩

/-- One iteration of the relocation loop keeps the loop invariant. -/
theorem RehashInv_step {pre : List HashNode} {T : HashTable} (h : RehashInv pre T)
    {node : HashNode}
    (hd : ∀ n, n ∈ pre → n.live = true → node.live = true → n.key ≠ node.key) :
    RehashInv (pre ++ [node]) (T.rehashStep node) := by
  cases hl : node.live with
  | false => rw [rehashStep_skip T node hl]; exact RehashInv_skip h hl
  | true =>
    rcases findSlotForRehash_cases T node.key with ⟨a, h1, h2⟩ | ⟨h1, h2⟩
    · rw [rehashStep_place T node hl (by rw [h2]; exact probe_lt T h.wf _ _), h2]
      exact RehashInv_place h hl hd h1
    · rw [rehashStep_blocked T node hl (by rw [h2])]
      exact RehashInv_blocked h hl hd h1

theorem RehashInv_foldl (rest : List HashNode) :
    ∀ (pre : List HashNode) (T : HashTable), DistinctLive (pre ++ rest) → RehashInv pre T →
      RehashInv (pre ++ rest) (rest.foldl HashTable.rehashStep T) := by
  induction rest with
  | nil => intro pre T _ h; simpa using h
  | cons node rest ih =>
    intro pre T hd h
    have hd' : DistinctLive ((pre ++ [node]) ++ rest) := by simpa using hd
    have hstep : RehashInv (pre ++ [node]) (T.rehashStep node) := by
      apply RehashInv_step h
      intro n hn hnl hl
      unfold DistinctLive at hd
      rw [List.pairwise_append] at hd
      exact hd.2.2 n hn node (List.mem_cons_self _ _) hnl hl
    have := ih (pre ++ [node]) (T.rehashStep node) hd' hstep
    simpa using this

/-! ## Growth: the whole of `rehash` -/

/-- The general part of the loop invariant needs no assumption on the old table. -/
theorem rehashG_foldl (rest : List HashNode) :
    ∀ (pre : List HashNode) (T : HashTable),
      (T.WF ∧ T.size_ = liveCount T.table_ ∧ T.size_ ≤ liveCount pre) →
      ((rest.foldl HashTable.rehashStep T).WF ∧
        (rest.foldl HashTable.rehashStep T).size_ =
          liveCount (rest.foldl HashTable.rehashStep T).table_ ∧
        (rest.foldl HashTable.rehashStep T).size_ ≤ liveCount (pre ++ rest)) := by
  induction rest with
  | nil => intro pre T h; simpa using h
  | cons node rest ih =>
    intro pre T ⟨hwf, hso, hb⟩
    have key : (T.rehashStep node).WF ∧
        (T.rehashStep node).size_ = liveCount (T.rehashStep node).table_ ∧
        (T.rehashStep node).size_ ≤ liveCount (pre ++ [node]) := by
      rw [liveCount_append_singleton]
      cases hl : node.live with
      | false => rw [rehashStep_skip T node hl]; exact ⟨hwf, hso, by simp; exact hb⟩
      | true =>
        rcases findSlotForRehash_cases T node.key with ⟨a, h1, h2⟩ | ⟨h1, h2⟩
        · rw [rehashStep_place T node hl (by rw [h2]; exact probe_lt T hwf _ _), h2]
          have hidx := probe_lt T hwf node.key a
          have hempty : (nodeAt T.table_ (T.probe node.key a)).occupied = false := by
            simpa [HashTable.emptyFn] using (firstHit_some h1).2.2.1
          have hcnt := liveCount_set T.table_ (T.probe node.key a)
            ⟨node.key, node.value, true, false⟩ (by rw [← hwf.1]; exact hidx)
          rw [not_live_of_not_occupied hempty] at hcnt
          have hlive1 : (⟨node.key, node.value, true, false⟩ : HashNode).live = true := rfl
          rw [hlive1] at hcnt
          simp only [Bool.false_eq_true, if_false, Nat.add_zero, if_true] at hcnt
          refine ⟨WF_set hwf rfl rfl, ?_, ?_⟩
          · show T.size_ + 1 = liveCount (T.table_.set _ _); omega
          · show T.size_ + 1 ≤ _; simp; omega
        · rw [rehashStep_blocked T node hl (by rw [h2])]
          exact ⟨hwf, hso, by simp; omega⟩
    have := ih (pre ++ [node]) (T.rehashStep node) key
    simpa using this

theorem rehash_capacity (t : HashTable) : t.rehash.capacity_ = t.capacity_ * 2 :=
  (foldl_rehashStep_fields _ _).1

theorem rehash_method (t : HashTable) : t.rehash.method_ = t.method_ :=
  (foldl_rehashStep_fields _ _).2.1

/-- Growth leaves the collision counter as it was. -/
theorem rehash_collision_count (t : HashTable) : t.rehash.collision_count_ = t.collision_count_ :=
  (foldl_rehashStep_fields _ _).2.2

theorem rehash_general {t : HashTable} (h : t.GInv) :
    t.rehash.WF ∧ t.rehash.size_ = liveCount t.rehash.table_ ∧ t.rehash.size_ ≤ t.size_ := by
  have h0 := rehashG_foldl t.table_ [] { t with capacity_ := t.capacity_ * 2
                                                table_ := List.replicate (t.capacity_ * 2) HashNode.empty
                                                size_ := 0 }
    ⟨⟨by simp, by show 0 < t.capacity_ * 2; have := h.big; omega⟩,
      by show 0 = liveCount (List.replicate _ _); rw [liveCount_replicate],
      Nat.zero_le _⟩
  simp only [List.nil_append] at h0
  refine ⟨h0.1, h0.2.1, ?_⟩
  rw [h.sizeOk]; exact h0.2.2

theorem GInv_rehash {t : HashTable} (h : t.GInv) :
    t.rehash.GInv ∧ 2 * (t.rehash.size_ + 1) ≤ t.rehash.capacity_ ∧ t.rehash.size_ ≤ t.size_ := by
  obtain ⟨h1, h2, h3⟩ := rehash_general h
  have hc := rehash_capacity t
  have hl := h.load
  have hb := h.big
  exact ⟨⟨h1, h2, by omega, by omega⟩, by omega, h3⟩

theorem growIfNeeded_eq_rehash {t : HashTable} (h : t.needsRehash = true) :
    t.growIfNeeded = t.rehash := by
  unfold HashTable.growIfNeeded; rw [if_pos h]

theorem growIfNeeded_eq_self {t : HashTable} (h : t.needsRehash = false) :
    t.growIfNeeded = t := by
  unfold HashTable.growIfNeeded; rw [if_neg (by rw [h]; simp)]

theorem GInv_growIfNeeded {t : HashTable} (h : t.GInv) :
    t.growIfNeeded.GInv ∧ 2 * (t.growIfNeeded.size_ + 1) ≤ t.growIfNeeded.capacity_ ∧
      t.growIfNeeded.size_ ≤ t.size_ := by
  cases hn : t.needsRehash with
  | true => rw [growIfNeeded_eq_rehash hn]; exact GInv_rehash h
  | false =>
    rw [growIfNeeded_eq_self hn]
    refine ⟨h, ?_, le_refl _⟩
    simpa [HashTable.needsRehash] using hn

theorem growIfNeeded_method (t : HashTable) : t.growIfNeeded.method_ = t.method_ := by
  unfold HashTable.growIfNeeded; split
  · exact rehash_method t
  · rfl

theorem growIfNeeded_collision_count (t : HashTable) :
    t.growIfNeeded.collision_count_ = t.collision_count_ := by
  unfold HashTable.growIfNeeded; split
  · exact rehash_collision_count t
  · rfl

theorem distinctLive_of_uniq {t : HashTable} (hwf : t.WF) (hu : t.Uniq) :
    DistinctLive t.table_ := by
  unfold DistinctLive
  rw [List.pairwise_iff_getElem]
  intro i j hi hj hij hli hlj hk
  have e1 : nodeAt t.table_ i = t.table_[i] := by simp [nodeAt, List.getD, hi]
  have e2 : nodeAt t.table_ j = t.table_[j] := by simp [nodeAt, List.getD, hj]
  have := hu i j (by rw [hwf.1]; exact hi) (by rw [hwf.1]; exact hj)
    (by rw [e1]; exact hli) (by rw [e2]; exact hlj) (by rw [e1, e2]; exact hk)
  omega

theorem holds_iff_mem {t : HashTable} (hwf : t.WF) (k : Int) (v : String) :
    t.Holds k v ↔ ∃ n, n ∈ t.table_ ∧ n.live = true ∧ n.key = k ∧ n.value = v := by
  constructor
  · rintro ⟨i, hi, hl, hk, hv⟩
    have hi' : i < t.table_.length := by rw [← hwf.1]; exact hi
    have e1 : nodeAt t.table_ i = t.table_[i] := by simp [nodeAt, List.getD, hi']
    exact ⟨t.table_[i], List.getElem_mem hi', by rw [← e1]; exact hl, by rw [← e1]; exact hk,
      by rw [← e1]; exact hv⟩
  · rintro ⟨n, hn, hl, hk, hv⟩
    obtain ⟨i, hi, rfl⟩ := List.getElem_of_mem hn
    have e1 : nodeAt t.table_ i = t.table_[i] := by simp [nodeAt, List.getD, hi]
    exact ⟨i, by rw [hwf.1]; exact hi, by rw [e1]; exact hl, by rw [e1]; exact hk,
      by rw [e1]; exact hv⟩

/-- The loop invariant holds when `rehash` returns, with the whole old table visited. -/
theorem rehash_inv {t : HashTable} (h : t.FInv) : RehashInv t.table_ t.rehash := by
  have hempty : ∀ i, nodeAt (List.replicate (t.capacity_ * 2) HashNode.empty) i = HashNode.empty :=
    fun i => nodeAt_replicate _ i
  have h0 : RehashInv [] { t with capacity_ := t.capacity_ * 2
                                  table_ := List.replicate (t.capacity_ * 2) HashNode.empty
                                  size_ := 0 } := by
    refine ⟨⟨by simp, by show 0 < t.capacity_ * 2; have := h.ginv.big; omega⟩,
      by show 0 = liveCount (List.replicate _ _); rw [liveCount_replicate], Nat.zero_le _,
      ?_, ?_, ?_, ?_, ?_, ?_, ?_, ?_⟩
    · intro i hi
      change (nodeAt (List.replicate _ _) i).occupied = true at hi
      rw [hempty] at hi; cases hi
    · intro i j _ _ hi
      change (nodeAt (List.replicate _ _) i).live = true at hi
      rw [hempty] at hi; cases hi
    · intro i _ hi
      change (nodeAt (List.replicate _ _) i).live = true at hi
      rw [hempty] at hi; cases hi
    · rintro k v ⟨i, _, hi, _⟩
      change (nodeAt (List.replicate _ _) i).live = true at hi
      rw [hempty] at hi; cases hi
    · intro n hn; cases hn
    · intro _ n hn; cases hn
    · intro _ _ _; rfl
    · intro hlt; exact absurd hlt (Nat.lt_irrefl 0)
  have := RehashInv_foldl t.table_ [] _ (by simpa using distinctLive_of_uniq h.ginv.wf h.uniq) h0
  simpa using this

theorem FInv_rehash {t : HashTable} (h : t.FInv) : t.rehash.FInv :=
  ⟨(GInv_rehash h.ginv).1, (rehash_inv h).uniq, (rehash_inv h).reach⟩

theorem FInv_growIfNeeded {t : HashTable} (h : t.FInv) : t.growIfNeeded.FInv := by
  unfold HashTable.growIfNeeded; split
  · exact FInv_rehash h
  · exact h

/-- Growth creates no entry. -/
theorem holds_of_rehash {t : HashTable} (h : t.FInv) {k : Int} {v : String}
    (hh : t.rehash.Holds k v) : t.Holds k v :=
  (holds_iff_mem h.ginv.wf k v).mpr ((rehash_inv h).sub k v hh)

/-- Growth that keeps the size keeps every entry. -/
theorem rehash_holds {t : HashTable} (h : t.FInv) (hs : t.rehash.size_ = t.size_)
    {k : Int} {v : String} (hh : t.Holds k v) : t.rehash.Holds k v := by
  obtain ⟨n, hn, hl, hk, hv⟩ := (holds_iff_mem h.ginv.wf k v).mp hh
  have := (rehash_inv h).full (by rw [hs, h.ginv.sizeOk]) n hn hl
  rw [hk, hv] at this; exact this

/-- An entry that was LIVE before growth is LIVE after it, or the walk of its
key in the new table is blocked and the key is gone. -/
theorem rehash_holds_or {t : HashTable} (h : t.FInv) {k : Int} {v : String} (hh : t.Holds k v) :
    t.rehash.Holds k v ∨ (t.rehash.Blocked k ∧ ¬ t.rehash.HasLive k) := by
  obtain ⟨n, hn, hl, hk, hv⟩ := (holds_iff_mem h.ginv.wf k v).mp hh
  have := (rehash_inv h).comp n hn hl
  rw [hk, hv] at this; exact this

theorem rehash_hasLive {t : HashTable} (h : t.FInv) {k : Int} (hh : t.HasLive k) :
    t.rehash.HasLive k ∨ (t.rehash.Blocked k ∧ ¬ t.rehash.HasLive k) := by
  obtain ⟨v, hv⟩ := (hasLive_iff_holds t k).mp hh
  rcases rehash_holds_or h hv with h1 | h1
  · exact Or.inl ((hasLive_iff_holds _ k).mpr ⟨_, h1⟩)
  · exact Or.inr h1

theorem holds_of_growIfNeeded {t : HashTable} (h : t.FInv) {k : Int} {v : String}
    (hh : t.growIfNeeded.Holds k v) : t.Holds k v := by
  cases hn : t.needsRehash with
  | true => rw [growIfNeeded_eq_rehash hn] at hh; exact holds_of_rehash h hh
  | false => rw [growIfNeeded_eq_self hn] at hh; exact hh

theorem growIfNeeded_holds {t : HashTable} (h : t.FInv) (hs : t.growIfNeeded.size_ = t.size_)
    {k : Int} {v : String} (hh : t.Holds k v) : t.growIfNeeded.Holds k v := by
  cases hn : t.needsRehash with
  | true =>
    rw [growIfNeeded_eq_rehash hn] at hs ⊢; exact rehash_holds h hs hh
  | false => rw [growIfNeeded_eq_self hn]; exact hh

theorem growIfNeeded_holds_or {t : HashTable} (h : t.FInv) {k : Int} {v : String}
    (hh : t.Holds k v) :
    t.growIfNeeded.Holds k v ∨ (t.growIfNeeded.Blocked k ∧ ¬ t.growIfNeeded.HasLive k) := by
  cases hn : t.needsRehash with
  | true => rw [growIfNeeded_eq_rehash hn]; exact rehash_holds_or h hh
  | false => rw [growIfNeeded_eq_self hn]; exact Or.inl hh

theorem growIfNeeded_hasLive {t : HashTable} (h : t.FInv) {k : Int} (hh : t.HasLive k) :
    t.growIfNeeded.HasLive k ∨ (t.growIfNeeded.Blocked k ∧ ¬ t.growIfNeeded.HasLive k) := by
  cases hn : t.needsRehash with
  | true => rw [growIfNeeded_eq_rehash hn]; exact rehash_hasLive h hh
  | false => rw [growIfNeeded_eq_self hn]; exact Or.inl hh

theorem not_hasLive_growIfNeeded {t : HashTable} (h : t.FInv) {k : Int} (hh : ¬ t.HasLive k) :
    ¬ t.growIfNeeded.HasLive k := by
  intro hg
  obtain ⟨v, hv⟩ := (hasLive_iff_holds _ k).mp hg
  exact hh ((hasLive_iff_holds _ k).mpr ⟨v, holds_of_growIfNeeded h hv⟩)

theorem find_growIfNeeded {t : HashTable} (h : t.FInv) (hs : t.growIfNeeded.size_ = t.size_)
    (k : Int) : t.growIfNeeded.find k = t.find k :=
  find_congr h (FInv_growIfNeeded h)
    (fun _ _ => ⟨holds_of_growIfNeeded h, growIfNeeded_holds h hs⟩) k

/-! ## The public operations keep the invariants -/

/-- What the located slot of an absent key looks like: it is EMPTY, it is the
probe of the stopping attempt, and every earlier probe hits an occupied slot. -/
theorem located_empty {g : HashTable} {k : Int}
    (h1 : g.findSlotConst k < g.capacity_)
    (h2 : (nodeAt g.table_ (g.findSlotConst k)).live = false) :
    (nodeAt g.table_ (g.findSlotConst k)).occupied = false ∧
    ∃ a, firstHit (g.stopFn k) g.capacity_ 0 = some a ∧ a < g.capacity_ ∧
      g.probe k a = g.findSlotConst k ∧
      ∀ b, b < a → (nodeAt g.table_ (g.probe k b)).occupied = true := by
  obtain ⟨a, hf, he, hs⟩ := findSlotConst_stops g k h1
  obtain ⟨_, ha, _, hbefore⟩ := firstHit_some hf
  refine ⟨stopsAt_not_live hs h2, a, hf, by omega, he.symm, fun b hb => ?_⟩
  exact not_stopsAt_occupied (hbefore b (Nat.zero_le b) hb)

theorem not_hasLive_of_located_empty {g : HashTable} (h : g.FInv) {k : Int}
    (h2 : (nodeAt g.table_ (g.findSlotConst k)).live = false) : ¬ g.HasLive k := by
  rintro ⟨j, hj, hl, hk⟩
  have := findSlotConst_of_live h.ginv.wf h.uniq h.reach hj hl
  rw [hk] at this
  rw [this, hl] at h2; cases h2

theorem GInv_insert {t : HashTable} (h : t.GInv) (k : Int) (v : String) :
    (t.insert k v).2.GInv := by
  obtain ⟨hg, hload, _⟩ := GInv_growIfNeeded h
  rcases Nat.lt_or_ge (t.growIfNeeded.findSlotConst k) t.growIfNeeded.capacity_ with h1 | h1
  · cases h2 : (nodeAt t.growIfNeeded.table_ (t.growIfNeeded.findSlotConst k)).live with
    | true => rw [insert_dup t k v h1 h2]; exact GInv_counter hg _
    | false =>
      rw [insert_place t k v h1 h2]
      exact GInv_place hg hload rfl rfl h1 h2 rfl rfl
  · rw [insert_exhaust t k v h1]; exact GInv_counter hg _

theorem GInv_upsert {t : HashTable} (h : t.GInv) (k : Int) (v : String) :
    (t.upsert k v).GInv := by
  obtain ⟨hg, hload, _⟩ := GInv_growIfNeeded h
  rcases Nat.lt_or_ge (t.growIfNeeded.findSlotConst k) t.growIfNeeded.capacity_ with h1 | h1
  · cases h2 : (nodeAt t.growIfNeeded.table_ (t.growIfNeeded.findSlotConst k)).live with
    | true =>
      rw [upsert_overwrite t k v h1 h2]
      exact GInv_same hg rfl rfl h1 rfl rfl
    | false =>
      rw [upsert_place t k v h1 h2]
      exact GInv_place hg hload rfl rfl h1 h2 rfl rfl
  · rw [upsert_exhaust t k v h1]; exact GInv_counter hg _

theorem GInv_erase {t : HashTable} (h : t.GInv) (k : Int) : (t.erase k).2.GInv := by
  rcases Nat.lt_or_ge (t.findSlotConst k) t.capacity_ with h1 | h1
  · cases h2 : (nodeAt t.table_ (t.findSlotConst k)).live with
    | true =>
      rw [erase_live t k h1 h2]
      exact GInv_tombstone h rfl rfl h1 h2 (by simp [HashNode.live]) rfl
    | false => rw [erase_absent t k h1 h2]; exact GInv_counter h _
  · rw [erase_exhaust t k h1]; exact GInv_counter h _

theorem GInv_new : HashTable.new.GInv :=
  ⟨⟨by simp [HashTable.new], by decide⟩, by
    show 0 = liveCount (List.replicate _ _); rw [liveCount_replicate], by decide, by decide⟩

theorem FInv_new (m : ProbingMethod) : (HashTable.new.set_probing_method m).FInv := by
  have hempty : ∀ i, nodeAt (HashTable.new.set_probing_method m).table_ i = HashNode.empty :=
    fun i => nodeAt_replicate _ i
  refine ⟨⟨GInv_new.wf, GInv_new.sizeOk, GInv_new.load, GInv_new.big⟩, ?_, ?_⟩
  · intro i j _ _ hi; rw [hempty] at hi; cases hi
  · intro i _ hi; rw [hempty] at hi; cases hi

theorem FInv_insert {t : HashTable} (h : t.FInv) (k : Int) (v : String) :
    (t.insert k v).2.FInv := by
  have hg := FInv_growIfNeeded h
  obtain ⟨_, hload, _⟩ := GInv_growIfNeeded h.ginv
  rcases Nat.lt_or_ge (t.growIfNeeded.findSlotConst k) t.growIfNeeded.capacity_ with h1 | h1
  · cases h2 : (nodeAt t.growIfNeeded.table_ (t.growIfNeeded.findSlotConst k)).live with
    | true => rw [insert_dup t k v h1 h2]; exact FInv_counter hg _
    | false =>
      rw [insert_place t k v h1 h2]
      obtain ⟨hempty, a, _, ha, hpa, hb⟩ := located_empty h1 h2
      exact FInv_place hg hload rfl rfl rfl h1 rfl hempty
        (not_hasLive_of_located_empty hg h2) ha hpa hb
  · rw [insert_exhaust t k v h1]; exact FInv_counter hg _

theorem FInv_upsert {t : HashTable} (h : t.FInv) (k : Int) (v : String) :
    (t.upsert k v).FInv := by
  have hg := FInv_growIfNeeded h
  obtain ⟨_, hload, _⟩ := GInv_growIfNeeded h.ginv
  rcases Nat.lt_or_ge (t.growIfNeeded.findSlotConst k) t.growIfNeeded.capacity_ with h1 | h1
  · cases h2 : (nodeAt t.growIfNeeded.table_ (t.growIfNeeded.findSlotConst k)).live with
    | true =>
      rw [upsert_overwrite t k v h1 h2]
      exact FInv_overwrite hg rfl rfl rfl h1 rfl h2
    | false =>
      rw [upsert_place t k v h1 h2]
      obtain ⟨hempty, a, _, ha, hpa, hb⟩ := located_empty h1 h2
      exact FInv_place hg hload rfl rfl rfl h1 rfl hempty
        (not_hasLive_of_located_empty hg h2) ha hpa hb
  · rw [upsert_exhaust t k v h1]; exact FInv_counter hg _

theorem FInv_erase {t : HashTable} (h : t.FInv) (k : Int) : (t.erase k).2.FInv := by
  rcases Nat.lt_or_ge (t.findSlotConst k) t.capacity_ with h1 | h1
  · cases h2 : (nodeAt t.table_ (t.findSlotConst k)).live with
    | true =>
      rw [erase_live t k h1 h2]
      exact FInv_tombstone h rfl rfl rfl h1 rfl h2
    | false => rw [erase_absent t k h1 h2]; exact FInv_counter h _
  · rw [erase_exhaust t k h1]; exact FInv_counter h _

/-- Every state reachable by public operations satisfies the general invariant. -/
theorem ReachableAny.ginv {t : HashTable} (h : ReachableAny t) : t.GInv := by
  induction h with
  | fresh => exact GInv_new
  | set_probing_method m _ ih => exact ⟨ih.wf, ih.sizeOk, ih.load, ih.big⟩
  | insert k v _ ih => exact GInv_insert ih k v
  | upsert k v _ ih => exact GInv_upsert ih k v
  | erase k _ ih => exact GInv_erase ih k
  | reset _ ih => exact GInv_counter ih 0

/-- Every state reachable with the strategy fixed before the first insertion
satisfies the full invariant. -/
theorem Reachable.finv {t : HashTable} (h : Reachable t) : t.FInv := by
  induction h with
  | fresh => exact FInv_new ProbingMethod.DOUBLE_HASHING
  | configured m => exact FInv_new m
  | insert k v _ ih => exact FInv_insert ih k v
  | upsert k v _ ih => exact FInv_upsert ih k v
  | erase k _ ih => exact FInv_erase ih k
  | reset _ ih => exact FInv_counter ih 0

theorem Reachable.any {t : HashTable} (h : Reachable t) : ReachableAny t := by
  induction h with
  | fresh => exact ReachableAny.fresh
  | configured m => exact ReachableAny.set_probing_method m ReachableAny.fresh
  | insert k v _ ih => exact ReachableAny.insert k v ih
  | upsert k v _ ih => exact ReachableAny.upsert k v ih
  | erase k _ ih => exact ReachableAny.erase k ih
  | reset _ ih => exact ReachableAny.reset ih

/-! ## Outcomes of `insert`, `upsert` and `erase` on a state with the full invariant -/

/-- The read-only slot location reads the slots, the capacity and the strategy only. -/
theorem findSlotConst_congr {t t' : HashTable} (htab : t'.table_ = t.table_)
    (hc : t'.capacity_ = t.capacity_) (hm : t'.method_ = t.method_) (k : Int) :
    t'.findSlotConst k = t.findSlotConst k := by
  have hs : t'.stopFn k = t.stopFn k := by
    funext a
    simp only [HashTable.stopFn, htab, probe_congr t t' hc hm]
  unfold HashTable.findSlotConst
  rw [findSlotConstLoop_eq, findSlotConstLoop_eq, hs, hc]
  cases firstHit (t.stopFn k) t.capacity_ 0 with
  | none => rfl
  | some a => exact probe_congr t t' hc hm k a

theorem find_congr_fields (t t' : HashTable) (htab : t'.table_ = t.table_)
    (hc : t'.capacity_ = t.capacity_) (hm : t'.method_ = t.method_) (k : Int) :
    t'.find k = t.find k := by
  unfold HashTable.find
  rw [findSlotConst_congr htab hc hm, hc, htab]

theorem findSlot_snd_find (t : HashTable) (k k' : Int) : (t.findSlot k).2.find k' = t.find k' :=
  find_congr_fields t (t.findSlot k).2 rfl rfl rfl k'

theorem reachable_insertAll {t : HashTable} (h : Reachable t) (kvs : List (Int × String)) :
    Reachable (insertAll t kvs) := by
  induction kvs generalizing t with
  | nil => exact h
  | cons kv rest ih => exact ih (Reachable.insert kv.1 kv.2 h)

theorem reachable_insertEraseAll {t : HashTable} (h : Reachable t) (ks : List Int) :
    Reachable (insertEraseAll t ks) := by
  induction ks generalizing t with
  | nil => exact h
  | cons k rest ih => exact ih (Reachable.erase k (Reachable.insert k "v" h))

/-- The walk of a key that no LIVE slot holds, in a table where it is blocked, is exhausted. -/
theorem findSlotConst_blocked {g : HashTable} (hwf : g.WF) {k : Int} (hb : g.Blocked k)
    (hn : ¬ g.HasLive k) : g.findSlotConst k = g.capacity_ := by
  have hnone : firstHit (g.stopFn k) g.capacity_ 0 = none := by
    apply firstHit_none_of
    intro c _ hc
    have hcc : c < g.capacity_ := by omega
    apply not_stopsAt_of_ne (hb c hcc)
    intro hl hk
    exact hn ⟨_, probe_lt g hwf k c, hl, hk⟩
  rcases findSlotConst_cases g k with ⟨a, h1, _⟩ | ⟨_, h2⟩
  · rw [hnone] at h1; cases h1
  · exact h2

/-- The located slot of a key that is LIVE. -/
theorem located_of_hasLive {g : HashTable} (h : g.FInv) {k : Int} (hl : g.HasLive k) :
    g.findSlotConst k < g.capacity_ ∧ (nodeAt g.table_ (g.findSlotConst k)).live = true := by
  obtain ⟨j, hj, hlj, hk⟩ := hl
  have := findSlotConst_of_live h.ginv.wf h.uniq h.reach hj hlj
  rw [hk] at this
  rw [this]; exact ⟨hj, hlj⟩

theorem hasLive_of_located {g : HashTable} {k : Int}
    (h1 : g.findSlotConst k < g.capacity_)
    (h2 : (nodeAt g.table_ (g.findSlotConst k)).live = true) : g.HasLive k := by
  obtain ⟨_, _, _, hs⟩ := findSlotConst_stops g k h1
  exact ⟨_, h1, h2, stopsAt_live hs h2⟩

/-- An `insert` of a key that is LIVE returns false. -/
theorem insert_false_of_hasLive {t : HashTable} (h : t.FInv) {k : Int} (hl : t.HasLive k)
    (v : String) : (t.insert k v).1 = false := by
  have hg := FInv_growIfNeeded h
  rcases growIfNeeded_hasLive h hl with h1 | ⟨h1, h2⟩
  · obtain ⟨g1, g2⟩ := located_of_hasLive hg h1
    rw [insert_dup t k v g1 g2]
  · have := findSlotConst_blocked hg.ginv.wf h1 h2
    rw [insert_exhaust t k v (by omega)]

/-- An `insert` that places its entry: the key was not LIVE after the growth
step and is found with the inserted value afterwards. -/
theorem insert_place_find {t : HashTable} (h : t.FInv) {k : Int} {v : String}
    (h1 : t.growIfNeeded.findSlotConst k < t.growIfNeeded.capacity_)
    (h2 : (nodeAt t.growIfNeeded.table_ (t.growIfNeeded.findSlotConst k)).live = false) :
    (t.insert k v).1 = true ∧ (t.insert k v).2.find k = some v ∧
      (t.insert k v).2.size_ = t.growIfNeeded.size_ + 1 := by
  have hg := FInv_growIfNeeded h
  obtain ⟨_, a, hf, _, hpa, _⟩ := located_empty h1 h2
  rw [insert_place t k v h1 h2]
  refine ⟨rfl, ?_, rfl⟩
  refine find_set_located ⟨k, v, true, false⟩ hg.ginv.wf
    ?_ ?_ hf ?_ (by simp [stopsAt]) rfl
  · rfl
  · rfl
  · rw [hpa]

theorem upsert_place_find {t : HashTable} (h : t.FInv) {k : Int} {v : String}
    (h1 : t.growIfNeeded.findSlotConst k < t.growIfNeeded.capacity_)
    (h2 : (nodeAt t.growIfNeeded.table_ (t.growIfNeeded.findSlotConst k)).live = false) :
    (t.upsert k v).find k = some v ∧ (t.upsert k v).size_ = t.growIfNeeded.size_ + 1 := by
  have hg := FInv_growIfNeeded h
  obtain ⟨_, a, hf, _, hpa, _⟩ := located_empty h1 h2
  rw [upsert_place t k v h1 h2]
  refine ⟨?_, rfl⟩
  refine find_set_located ⟨k, v, true, false⟩ hg.ginv.wf
    ?_ ?_ hf ?_ (by simp [stopsAt]) rfl
  · rfl
  · rfl
  · rw [hpa]

theorem upsert_overwrite_find {t : HashTable} (h : t.FInv) {k : Int} {v : String}
    (h1 : t.growIfNeeded.findSlotConst k < t.growIfNeeded.capacity_)
    (h2 : (nodeAt t.growIfNeeded.table_ (t.growIfNeeded.findSlotConst k)).live = true) :
    (t.upsert k v).find k = some v ∧ (t.upsert k v).size_ = t.growIfNeeded.size_ := by
  have hg := FInv_growIfNeeded h
  obtain ⟨a, hf, hpa, hs⟩ := findSlotConst_stops _ k h1
  rw [upsert_overwrite t k v h1 h2]
  refine ⟨?_, rfl⟩
  refine find_set_located
    { nodeAt t.growIfNeeded.table_ (t.growIfNeeded.findSlotConst k) with value := v }
    hg.ginv.wf ?_ ?_ hf ?_ hs h2
  · rfl
  · rfl
  · rw [← hpa]

/-- An `erase` of a key that `find` reports: the slot becomes a TOMBSTONE. -/
theorem erase_present {t : HashTable} (h : t.FInv) {k : Int} (hp : t.find k ≠ none) :
    (t.erase k).1 = true ∧ (t.erase k).2.size_ + 1 = t.size_ ∧ ¬ (t.erase k).2.HasLive k := by
  have hloc : t.findSlotConst k < t.capacity_ ∧
      (nodeAt t.table_ (t.findSlotConst k)).live = true := by
    by_contra hc
    exact hp ((find_eq_none_iff t k).mpr hc)
  obtain ⟨h1, h2⟩ := hloc
  have hk := (hasLive_of_located h1 h2)
  rw [erase_live t k h1 h2]
  refine ⟨rfl, size_tombstone h.ginv rfl rfl h1 h2 (by simp [HashNode.live]) rfl, ?_⟩
  rintro ⟨j, hj, hlj, hkj⟩
  change j < t.capacity_ at hj
  change (nodeAt (t.table_.set _ _) j).live = true at hlj
  change (nodeAt (t.table_.set _ _) j).key = k at hkj
  by_cases hji : j = t.findSlotConst k
  · rw [hji, nodeAt_set_eq _ _ _ (by rw [← h.ginv.wf.1]; exact h1)] at hlj
    simp [HashNode.live] at hlj
  · rw [nodeAt_set_ne _ _ _ _ (Ne.symm hji)] at hlj hkj
    obtain ⟨_, _, _, hs⟩ := findSlotConst_stops t k h1
    exact hji (h.uniq j _ hj h1 hlj h2 (by rw [hkj, stopsAt_live hs h2]))

/-- An `erase` of a key that `find` does not report changes the counter only. -/
theorem erase_not_found (t : HashTable) {k : Int} (ha : t.find k = none) :
    t.erase k = (false, (t.findSlot k).2) := by
  rcases Nat.lt_or_ge (t.findSlotConst k) t.capacity_ with h1 | h1
  · cases h2 : (nodeAt t.table_ (t.findSlotConst k)).live with
    | true => exact absurd ⟨h1, h2⟩ ((find_eq_none_iff t k).mp ha)
    | false => exact erase_absent t k h1 h2
  · exact erase_exhaust t k h1

/-! ## Claims -/

/-- C1 (as stated, refuted): in the reachable state `stateCycle` (default strategy,
keys 7 and 127 inserted) key 247 is absent, yet `insert(247, "c")` returns false:
its probe walk visits slots 7 and 15 only, and both are taken. -/
theorem c1_insert_absent_key_fails :
    Reachable stateCycle ∧ stateCycle.find 247 = none ∧
      (stateCycle.insert 247 "c").1 = false :=
  ⟨reachable_insertAll Reachable.fresh _, by decide, by decide⟩

/-- C1 (amended): in every reachable state, for a key `k` that `find` reports
absent, `insert(k, v)` returns true exactly when its slot location, run after
the growth check, returns an index below the capacity; and whenever it returns
true the `find(k)` that follows returns `v`. -/
theorem c1_insert_round_trip (t : HashTable) (k : Int) (v : String)
    (hr : Reachable t) (habs : t.find k = none) :
    ((t.insert k v).1 = true ↔ (t.growIfNeeded.findSlot k).1 < t.growIfNeeded.capacity_) ∧
      ((t.insert k v).1 = true → (t.insert k v).2.find k = some v) := by
  have h := hr.finv
  have hg := FInv_growIfNeeded h
  have hnl : ¬ t.growIfNeeded.HasLive k :=
    not_hasLive_growIfNeeded h ((find_eq_none_iff_not_hasLive h k).mp habs)
  rw [findSlot_fst]
  rcases Nat.lt_or_ge (t.growIfNeeded.findSlotConst k) t.growIfNeeded.capacity_ with h1 | h1
  · cases h2 : (nodeAt t.growIfNeeded.table_ (t.growIfNeeded.findSlotConst k)).live with
    | true => exact absurd (hasLive_of_located h1 h2) hnl
    | false =>
      obtain ⟨g1, g2, _⟩ := insert_place_find (v := v) h h1 h2
      exact ⟨⟨fun _ => h1, fun _ => g1⟩, fun _ => g2⟩
  · rw [insert_exhaust t k v h1]
    exact ⟨⟨fun hh => (by cases hh), fun hh => (by omega)⟩, fun hh => (by cases hh)⟩

/-- An instance of `c1_insert_round_trip`: the fresh table and key 5. -/
theorem c1_insert_round_trip_witness :
    Reachable HashTable.new ∧ HashTable.new.find 5 = none ∧
      (((HashTable.new.insert 5 "x").1 = true ↔
          (HashTable.new.growIfNeeded.findSlot 5).1 < HashTable.new.growIfNeeded.capacity_) ∧
        ((HashTable.new.insert 5 "x").1 = true →
          (HashTable.new.insert 5 "x").2.find 5 = some "x")) :=
  ⟨Reachable.fresh, by decide, c1_insert_round_trip HashTable.new 5 "x" Reachable.fresh (by decide)⟩

/-- C2 (as stated, refuted): in the reachable state `stateCycle` the call
`upsert(247, "c")` finds no slot and does nothing, so `find(247)` stays absent;
and in the reachable state `stateDrop` (size 8, key 100 absent) `upsert(100, "z")`
grows the table, the growth drops key 77, and the size afterwards is 8, not 9. -/
theorem c2_upsert_round_trip_fails :
    (Reachable stateCycle ∧ (stateCycle.upsert 247 "c").find 247 = none) ∧
      (Reachable stateDrop ∧ stateDrop.find 100 = none ∧ stateDrop.size = 8 ∧
        (stateDrop.upsert 100 "z").size = 8) :=
  ⟨⟨reachable_insertAll Reachable.fresh _, by decide⟩,
    ⟨reachable_insertAll Reachable.fresh _, by decide, by decide, by decide⟩⟩

/-- C2 (amended): in every reachable state, whenever the slot location of
`upsert(k, v)`, run after the growth check, returns an index below the
capacity, `find(k)` returns `v` afterwards; and if moreover the growth step,
when it fires, relocates every entry (the size after it is the size before),
the size grows by exactly 1 if `k` was absent and is unchanged if `k` was present. -/
theorem c2_upsert_round_trip (t : HashTable) (k : Int) (v : String)
    (hr : Reachable t)
    (hloc : (t.growIfNeeded.findSlot k).1 < t.growIfNeeded.capacity_) :
    (t.upsert k v).find k = some v ∧
      (t.growIfNeeded.size_ = t.size_ →
        (t.upsert k v).size = if (t.find k).isSome then t.size else t.size + 1) := by
  have h := hr.finv
  have hg := FInv_growIfNeeded h
  rw [findSlot_fst] at hloc
  cases h2 : (nodeAt t.growIfNeeded.table_ (t.growIfNeeded.findSlotConst k)).live with
  | true =>
    obtain ⟨g1, g2⟩ := upsert_overwrite_find (v := v) h hloc h2
    refine ⟨g1, fun hs => ?_⟩
    obtain ⟨w, hw⟩ := (hasLive_iff_holds _ k).mp (hasLive_of_located hloc h2)
    have hf := (find_eq_some_iff_holds h k w).mpr (holds_of_growIfNeeded h hw)
    show (t.upsert k v).size_ = _
    rw [hf, g2, hs]; rfl
  | false =>
    obtain ⟨g1, g2⟩ := upsert_place_find (v := v) h hloc h2
    refine ⟨g1, fun hs => ?_⟩
    have hnl := not_hasLive_of_located_empty hg h2
    have hf : t.find k = none := by
      rw [find_eq_none_iff_not_hasLive h]
      intro hl
      obtain ⟨w, hw⟩ := (hasLive_iff_holds _ k).mp hl
      exact hnl ((hasLive_iff_holds _ k).mpr ⟨w, growIfNeeded_holds h hs hw⟩)
    show (t.upsert k v).size_ = _
    rw [hf, g2, hs]; rfl

/-- An instance of `c2_upsert_round_trip`: `stateEight` and the present key 3; the call grows the table. -/
theorem c2_upsert_round_trip_witness :
    Reachable stateEight ∧
      (stateEight.growIfNeeded.findSlot 3).1 < stateEight.growIfNeeded.capacity_ ∧
      ((stateEight.upsert 3 "z").find 3 = some "z" ∧
        (stateEight.growIfNeeded.size_ = stateEight.size_ →
          (stateEight.upsert 3 "z").size =
            if (stateEight.find 3).isSome then stateEight.size else stateEight.size + 1)) :=
  ⟨reachable_insertAll (Reachable.configured _) _, by decide,
    c2_upsert_round_trip stateEight 3 "z" (reachable_insertAll (Reachable.configured _) _)
      (by decide)⟩

/-- C3 (as stated, refuted): in the reachable state `stateSeven` (default
strategy, keys 11, 12, 13, 14, 15, 45, 61) `insert(77, "h")` returns true; the
`insert(77, "z")` that follows triggers growth, which cannot relocate key 77
(its walk in the new table visits slots 13 and 29 only, taken by 45 and 61);
the call returns false and `find(77)` afterwards reports absence instead of `"h"`. -/
theorem c3_duplicate_insert_loses_entry :
    Reachable stateSeven ∧ (stateSeven.insert 77 "h").1 = true ∧
      ((stateSeven.insert 77 "h").2.insert 77 "z").1 = false ∧
      ((stateSeven.insert 77 "h").2.insert 77 "z").2.find 77 = none :=
  ⟨reachable_insertAll Reachable.fresh _, by decide, by decide, by decide⟩

/-- C3 (amended): in every reachable state, if `insert(k, v1)` returns true then
an immediately following `insert(k, v2)` returns false, and `find(k)` afterwards
still returns `v1`, unless the second call triggered a growth step that dropped
an entry (the size after it is below the size before), in which case `find(k)`
may report absence instead. -/
theorem c3_duplicate_rejection (t : HashTable) (k : Int) (v1 v2 : String)
    (hr : Reachable t) (h1 : (t.insert k v1).1 = true) :
    ((t.insert k v1).2.insert k v2).1 = false ∧
      (((t.insert k v1).2.insert k v2).2.find k = some v1 ∨
        (((t.insert k v1).2.insert k v2).2.find k = none ∧
          (t.insert k v1).2.growIfNeeded.size_ < (t.insert k v1).2.size_)) := by
  have h := hr.finv
  have h' : (t.insert k v1).2.FInv := FInv_insert h k v1
  -- the first call placed the entry
  have hfind : (t.insert k v1).2.find k = some v1 := by
    rcases Nat.lt_or_ge (t.growIfNeeded.findSlotConst k) t.growIfNeeded.capacity_ with g1 | g1
    · cases g2 : (nodeAt t.growIfNeeded.table_ (t.growIfNeeded.findSlotConst k)).live with
      | true => rw [insert_dup t k v1 g1 g2] at h1; cases h1
      | false => exact (insert_place_find h g1 g2).2.1
    · rw [insert_exhaust t k v1 g1] at h1; cases h1
  have hholds := (find_eq_some_iff_holds h' k v1).mp hfind
  have hlive : (t.insert k v1).2.HasLive k := (hasLive_iff_holds _ k).mpr ⟨v1, hholds⟩
  refine ⟨insert_false_of_hasLive h' hlive v2, ?_⟩
  have hg' := FInv_growIfNeeded h'
  rcases growIfNeeded_holds_or h' hholds with hh | ⟨hb, hn⟩
  · left
    obtain ⟨g1, g2⟩ := located_of_hasLive hg' ((hasLive_iff_holds _ k).mpr ⟨v1, hh⟩)
    rw [insert_dup _ k v2 g1 g2, findSlot_snd_find]
    exact (find_eq_some_iff_holds hg' k v1).mpr hh
  · right
    have hex := findSlotConst_blocked hg'.ginv.wf hb hn
    constructor
    · rw [insert_exhaust _ k v2 (by omega), findSlot_snd_find]
      exact (find_eq_none_iff_not_hasLive hg' k).mpr hn
    · have hle := (GInv_growIfNeeded h'.ginv).2.2
      rcases Nat.lt_or_ge (t.insert k v1).2.growIfNeeded.size_ (t.insert k v1).2.size_ with g | g
      · exact g
      · exfalso
        exact hn ((hasLive_iff_holds _ k).mpr ⟨v1, growIfNeeded_holds h' (by omega) hholds⟩)

/-- An instance of `c3_duplicate_rejection`: `stateSevenLinear` and key 7; the second call grows the table. -/
theorem c3_duplicate_rejection_witness :
    Reachable stateSevenLinear ∧ (stateSevenLinear.insert 7 "h").1 = true ∧
      (((stateSevenLinear.insert 7 "h").2.insert 7 "z").1 = false ∧
        (((stateSevenLinear.insert 7 "h").2.insert 7 "z").2.find 7 = some "h" ∨
          (((stateSevenLinear.insert 7 "h").2.insert 7 "z").2.find 7 = none ∧
            (stateSevenLinear.insert 7 "h").2.growIfNeeded.size_ <
              (stateSevenLinear.insert 7 "h").2.size_))) :=
  ⟨reachable_insertAll (Reachable.configured _) _, by decide,
    c3_duplicate_rejection stateSevenLinear 7 "h" "z"
      (reachable_insertAll (Reachable.configured _) _) (by decide)⟩

/-- C4 (as stated, refuted): in the reachable state `stateEight` (LINEAR, keys
0 to 7) key 0 is LIVE in slot 0, and the rejected `insert(0, "z")` grows the
table first: the capacity goes from 16 to 32. -/
theorem c4_rejected_insert_grows :
    Reachable stateEight ∧ stateEight.HasLive 0 ∧ (stateEight.insert 0 "z").1 = false ∧
      stateEight.capacity = 16 ∧ (stateEight.insert 0 "z").2.capacity = 32 :=
  ⟨reachable_insertAll (Reachable.configured _) _, ⟨0, by decide, by decide, by decide⟩,
    by decide, by decide, by decide⟩

/-- C4 (amended): in every reachable state in which key `k` is LIVE,
`insert(k, v)` returns false; and when the growth check of the call does not
fire, the call leaves the slot sequence, the capacity and the size exactly as
they were. -/
theorem c4_rejected_insert_atomic (t : HashTable) (k : Int) (v : String)
    (hr : Reachable t) (hl : t.HasLive k) :
    (t.insert k v).1 = false ∧
      (t.needsRehash = false →
        (t.insert k v).2.table_ = t.table_ ∧ (t.insert k v).2.capacity = t.capacity ∧
          (t.insert k v).2.capacity_ = t.capacity_ ∧ (t.insert k v).2.size = t.size) := by
  have h := hr.finv
  refine ⟨insert_false_of_hasLive h hl v, fun hn => ?_⟩
  have hgrow := growIfNeeded_eq_self hn
  obtain ⟨g1, g2⟩ := located_of_hasLive h hl
  have : t.insert k v = (false, (t.findSlot k).2) := by
    have := insert_dup t k v (by rw [hgrow]; exact g1) (by rw [hgrow]; exact g2)
    rw [hgrow] at this; exact this
  rw [this]
  exact ⟨rfl, rfl, rfl, rfl⟩

/-- An instance of `c4_rejected_insert_atomic`: one entry with key 1, inserted again. -/
theorem c4_rejected_insert_atomic_witness :
    Reachable (insertAll HashTable.new [(1, "a")]) ∧
      (insertAll HashTable.new [(1, "a")]).HasLive 1 ∧
      (((insertAll HashTable.new [(1, "a")]).insert 1 "z").1 = false ∧
        ((insertAll HashTable.new [(1, "a")]).needsRehash = false →
          ((insertAll HashTable.new [(1, "a")]).insert 1 "z").2.table_ =
              (insertAll HashTable.new [(1, "a")]).table_ ∧
            ((insertAll HashTable.new [(1, "a")]).insert 1 "z").2.capacity =
              (insertAll HashTable.new [(1, "a")]).capacity ∧
            ((insertAll HashTable.new [(1, "a")]).insert 1 "z").2.capacity_ =
              (insertAll HashTable.new [(1, "a")]).capacity_ ∧
            ((insertAll HashTable.new [(1, "a")]).insert 1 "z").2.size =
              (insertAll HashTable.new [(1, "a")]).size)) :=
  ⟨reachable_insertAll Reachable.fresh _, ⟨1, by decide, by decide, by decide⟩,
    c4_rejected_insert_atomic _ 1 "z" (reachable_insertAll Reachable.fresh _)
      ⟨1, by decide, by decide, by decide⟩⟩

/-- C5: in every reachable state, for a key `k` that `find` reports present,
`erase(k)` returns true, the size decreases by exactly 1, `find(k)` and
`contains(k)` afterwards report absence, and an immediately following second
`erase(k)` returns false and leaves the size unchanged. -/
theorem c5_erase_present_once (t : HashTable) (k : Int)
    (hr : Reachable t) (hp : t.find k ≠ none) :
    (t.erase k).1 = true ∧ (t.erase k).2.size + 1 = t.size ∧
      (t.erase k).2.find k = none ∧ (t.erase k).2.contains k = false ∧
      ((t.erase k).2.erase k).1 = false ∧
      ((t.erase k).2.erase k).2.size = (t.erase k).2.size := by
  have h := hr.finv
  obtain ⟨h1, h2, h3⟩ := erase_present h hp
  have hf : (t.erase k).2.find k = none :=
    (find_eq_none_iff_not_hasLive (FInv_erase h k) k).mpr h3
  refine ⟨h1, h2, hf, ?_, ?_, ?_⟩
  · rw [contains_eq_isSome, hf]; rfl
  · rw [erase_not_found _ hf]
  · rw [erase_not_found _ hf]; rfl

/-- An instance of `c5_erase_present_once`: `stateEight` and key 3. -/
theorem c5_erase_present_once_witness :
    Reachable stateEight ∧ stateEight.find 3 ≠ none ∧
      ((stateEight.erase 3).1 = true ∧ (stateEight.erase 3).2.size + 1 = stateEight.size ∧
        (stateEight.erase 3).2.find 3 = none ∧ (stateEight.erase 3).2.contains 3 = false ∧
        ((stateEight.erase 3).2.erase 3).1 = false ∧
        ((stateEight.erase 3).2.erase 3).2.size = (stateEight.erase 3).2.size) :=
  ⟨reachable_insertAll (Reachable.configured _) _, by decide,
    c5_erase_present_once stateEight 3 (reachable_insertAll (Reachable.configured _) _)
      (by decide)⟩

/-- C6: in every state reachable by public operations, for a key `k` that `find`
reports absent, `erase(k)` returns false and leaves the size, the capacity and
the slot sequence unchanged (the proof does not need the reachability). -/
theorem c6_erase_absent_noop (t : HashTable) (k : Int)
    (_hr : ReachableAny t) (ha : t.find k = none) :
    (t.erase k).1 = false ∧ (t.erase k).2.size = t.size ∧
      (t.erase k).2.capacity = t.capacity ∧ (t.erase k).2.capacity_ = t.capacity_ ∧
      (t.erase k).2.table_ = t.table_ := by
  rw [erase_not_found t ha]
  exact ⟨rfl, rfl, rfl, rfl, rfl⟩

/-- An instance of `c6_erase_absent_noop`: `stateEight` and the absent key 9. -/
theorem c6_erase_absent_noop_witness :
    ReachableAny stateEight ∧ stateEight.find 9 = none ∧
      ((stateEight.erase 9).1 = false ∧ (stateEight.erase 9).2.size = stateEight.size ∧
        (stateEight.erase 9).2.capacity = stateEight.capacity ∧
        (stateEight.erase 9).2.capacity_ = stateEight.capacity_ ∧
        (stateEight.erase 9).2.table_ = stateEight.table_) :=
  ⟨(reachable_insertAll (Reachable.configured _) _).any, by decide,
    c6_erase_absent_noop stateEight 9 (reachable_insertAll (Reachable.configured _) _).any
      (by decide)⟩

/-- C7: in every state reachable from a fresh table by public operations
(`set_probing_method` at any time included), immediately after an `insert` or
an `upsert` returns, `2 * size() <= capacity()`. -/
theorem c7_load_factor (t : HashTable) (k : Int) (v : String) (hr : ReachableAny t) :
    2 * (t.insert k v).2.size ≤ (t.insert k v).2.capacity ∧
      2 * (t.upsert k v).size ≤ (t.upsert k v).capacity := by
  have h := hr.ginv
  have hi := GInv_insert h k v
  have hu := GInv_upsert h k v
  constructor
  · show 2 * (t.insert k v).2.size_ ≤ (t.insert k v).2.table_.length
    rw [← hi.wf.1]; exact hi.load
  · show 2 * (t.upsert k v).size_ ≤ (t.upsert k v).table_.length
    rw [← hu.wf.1]; exact hu.load

/-- An instance of `c7_load_factor`: `stateEight` and a ninth key, which triggers growth. -/
theorem c7_load_factor_witness :
    ReachableAny stateEight ∧
      (2 * (stateEight.insert 8 "i").2.size ≤ (stateEight.insert 8 "i").2.capacity ∧
        2 * (stateEight.upsert 8 "i").size ≤ (stateEight.upsert 8 "i").capacity) :=
  ⟨(reachable_insertAll (Reachable.configured _) _).any,
    c7_load_factor stateEight 8 "i" (reachable_insertAll (Reachable.configured _) _).any⟩

/-! ## Values are never read by slot location, growth or the counters -/

theorem nodeAt_shape (tb : List HashNode) (i : Nat) :
    nodeAt (tb.map HashNode.shape) i = (nodeAt tb i).shape := by
  unfold nodeAt
  rw [show HashNode.empty = HashNode.shape HashNode.empty from rfl, List.getD_map]
  rfl

theorem probe_shape (t : HashTable) (key : Int) (a : Nat) : t.shape.probe key a = t.probe key a :=
  probe_congr t t.shape rfl rfl key a

theorem findSlotLoop_shape (t : HashTable) (key : Int) (fuel a cc : Nat) :
    t.shape.findSlotLoop key fuel a cc = t.findSlotLoop key fuel a cc := by
  induction fuel generalizing a cc with
  | zero => rfl
  | succ fuel ih =>
    simp only [HashTable.findSlotLoop]
    rw [probe_shape, show t.shape.table_ = t.table_.map HashNode.shape from rfl, nodeAt_shape, ih]
    rfl

theorem findSlot_shape (t : HashTable) (key : Int) :
    (t.shape.findSlot key).1 = (t.findSlot key).1 ∧
      (t.shape.findSlot key).2 = (t.findSlot key).2.shape := by
  unfold HashTable.findSlot
  simp only
  rw [show t.shape.capacity_ = t.capacity_ from rfl,
    show t.shape.collision_count_ = t.collision_count_ from rfl, findSlotLoop_shape]
  exact ⟨rfl, rfl⟩

theorem findSlotForRehashLoop_shape (t : HashTable) (key : Int) (fuel a : Nat) :
    t.shape.findSlotForRehashLoop key fuel a = t.findSlotForRehashLoop key fuel a := by
  induction fuel generalizing a with
  | zero => rfl
  | succ fuel ih =>
    simp only [HashTable.findSlotForRehashLoop]
    rw [probe_shape, show t.shape.table_ = t.table_.map HashNode.shape from rfl, nodeAt_shape, ih]
    rfl

theorem findSlotForRehash_shape (t : HashTable) (key : Int) :
    t.shape.findSlotForRehash key = t.findSlotForRehash key :=
  findSlotForRehashLoop_shape t key t.capacity_ 0

theorem rehashStep_shape (T : HashTable) (n : HashNode) :
    T.shape.rehashStep n.shape = (T.rehashStep n).shape := by
  cases hl : n.live with
  | false => rw [rehashStep_skip T n hl, rehashStep_skip T.shape n.shape hl]
  | true =>
    have hk : T.shape.findSlotForRehash n.shape.key = T.findSlotForRehash n.key :=
      findSlotForRehash_shape T n.key
    rcases Nat.lt_or_ge (T.findSlotForRehash n.key) T.capacity_ with h1 | h1
    · rw [rehashStep_place T n hl h1, rehashStep_place T.shape n.shape hl (by rw [hk]; exact h1), hk]
      simp [HashTable.shape, HashNode.shape, List.map_set]
    · rw [rehashStep_blocked T n hl h1, rehashStep_blocked T.shape n.shape hl (by rw [hk]; exact h1)]

theorem foldl_rehashStep_shape (l : List HashNode) (T : HashTable) :
    (l.map HashNode.shape).foldl HashTable.rehashStep T.shape =
      (l.foldl HashTable.rehashStep T).shape := by
  induction l generalizing T with
  | nil => rfl
  | cons n l ih => simp only [List.map_cons, List.foldl_cons]; rw [rehashStep_shape, ih]

theorem rehash_shape (t : HashTable) : t.shape.rehash = t.rehash.shape := by
  unfold HashTable.rehash
  simp only
  rw [show t.shape.table_ = t.table_.map HashNode.shape from rfl, ← foldl_rehashStep_shape]
  congr 1
  simp [HashTable.shape, HashNode.shape, HashNode.empty]

theorem growIfNeeded_shape (t : HashTable) : t.shape.growIfNeeded = t.growIfNeeded.shape := by
  unfold HashTable.growIfNeeded
  rw [show t.shape.needsRehash = t.needsRehash from rfl]
  split
  · exact rehash_shape t
  · rfl

theorem shape_shape (t : HashTable) : t.shape.shape = t.shape := by
  simp [HashTable.shape, HashNode.shape]

/-- The outcome of `insert` up to values does not depend on any value. -/
theorem insert_shape (t : HashTable) (k : Int) (v w : String) :
    (t.shape.insert k w).1 = (t.insert k v).1 ∧
      (t.shape.insert k w).2.shape = (t.insert k v).2.shape := by
  have hc : t.shape.growIfNeeded.findSlotConst k = t.growIfNeeded.findSlotConst k := by
    rw [← findSlot_fst, ← findSlot_fst, growIfNeeded_shape]; exact (findSlot_shape _ k).1
  have hs : (t.shape.growIfNeeded.findSlot k).2 = (t.growIfNeeded.findSlot k).2.shape := by
    rw [growIfNeeded_shape]; exact (findSlot_shape _ k).2
  have hcap : t.shape.growIfNeeded.capacity_ = t.growIfNeeded.capacity_ := by
    rw [growIfNeeded_shape]; rfl
  have hnode : nodeAt t.shape.growIfNeeded.table_ (t.growIfNeeded.findSlotConst k) =
      (nodeAt t.growIfNeeded.table_ (t.growIfNeeded.findSlotConst k)).shape := by
    rw [growIfNeeded_shape]; exact nodeAt_shape _ _
  rcases Nat.lt_or_ge (t.growIfNeeded.findSlotConst k) t.growIfNeeded.capacity_ with h1 | h1
  · cases h2 : (nodeAt t.growIfNeeded.table_ (t.growIfNeeded.findSlotConst k)).live with
    | true =>
      rw [insert_dup t k v h1 h2,
        insert_dup t.shape k w (by rw [hc, hcap]; exact h1) (by rw [hc, hnode]; exact h2), hs]
      exact ⟨rfl, shape_shape _⟩
    | false =>
      rw [insert_place t k v h1 h2,
        insert_place t.shape k w (by rw [hc, hcap]; exact h1) (by rw [hc, hnode]; exact h2), hs, hc]
      refine ⟨rfl, ?_⟩
      rw [growIfNeeded_shape]
      have hcomp : HashNode.shape ∘ HashNode.shape = HashNode.shape := by funext n; rfl
      simp [HashTable.shape, List.map_set, hcomp]
      rfl
  · rw [insert_exhaust t k v h1, insert_exhaust t.shape k w (by rw [hc, hcap]; exact h1), hs]
    exact ⟨rfl, shape_shape _⟩

/-- Two runs of `insert` calls with the same keys from tables that differ in
their values only end in tables that differ in their values only, with the same
return values. -/
theorem runInserts_shape (ks : List (Int × String × String)) :
    ∀ t t' : HashTable, t.shape = t'.shape →
      (runInserts t (ks.map fun x => (x.1, x.2.1))).1 =
          (runInserts t' (ks.map fun x => (x.1, x.2.2))).1 ∧
        (runInserts t (ks.map fun x => (x.1, x.2.1))).2.shape =
          (runInserts t' (ks.map fun x => (x.1, x.2.2))).2.shape := by
  induction ks with
  | nil => intro t t' h; exact ⟨rfl, h⟩
  | cons x ks ih =>
    intro t t' h
    have h1 := insert_shape t x.1 x.2.1 x.2.1
    have h2 := insert_shape t' x.1 x.2.2 x.2.1
    rw [← h] at h2
    have e1 : (t.insert x.1 x.2.1).1 = (t'.insert x.1 x.2.2).1 := h1.1.symm.trans h2.1
    have e2 : (t.insert x.1 x.2.1).2.shape = (t'.insert x.1 x.2.2).2.shape :=
      h1.2.symm.trans h2.2
    have := ih _ _ e2
    simp only [List.map_cons, runInserts]
    exact ⟨by rw [e1, this.1], this.2⟩

theorem insertAll_shape (ks : List (Int × String × String)) (t : HashTable) :
    (insertAll t (ks.map fun x => (x.1, x.2.1))).shape =
      (insertAll t (ks.map fun x => (x.1, x.2.2))).shape :=
  (runInserts_shape ks t t rfl).2

theorem collisionTestWith_shape (v0 v1 v2 v3 v4 v5 v6 v7 : String) :
    (collisionTestWith v0 v1 v2 v3 v4 v5 v6 v7).shape = collisionTest.shape := by
  have h := insertAll_shape
    [(0, v0, "test"), (16, v1, "test"), (32, v2, "test"), (48, v3, "test"), (64, v4, "test"),
      (80, v5, "test"), (96, v6, "test"), (112, v7, "test")]
    (HashTable.new.set_probing_method ProbingMethod.LINEAR).reset_collision_count
  simp only [List.map_cons, List.map_nil] at h
  exact h

/-- The workload of `BM_Collision_Test` is the instance with all values `"test"`. -/
theorem collisionTest_eq :
    collisionTest =
      collisionTestWith "test" "test" "test" "test" "test" "test" "test" "test" := rfl

theorem shape_fields (t : HashTable) :
    t.shape.collision_count = t.collision_count ∧ t.shape.size = t.size ∧
      t.shape.capacity = t.capacity :=
  ⟨rfl, rfl, by simp [HashTable.shape, HashTable.capacity]⟩

/-- C8 (as stated, refuted): after the workload of `BM_Collision_Test` the
collision counter is not 7. -/
theorem c8_collision_count_not_seven : collisionTest.collision_count ≠ 7 := by decide

/-- C8 (amended): after the workload of `BM_Collision_Test` (fresh table, LINEAR,
counter reset, keys 0, 16, ..., 112 inserted in that order), whatever the eight
values inserted with the keys, the collision counter is 21, the size is 8 and
the capacity is 16. -/
theorem c8_collision_count (v0 v1 v2 v3 v4 v5 v6 v7 : String) :
    (collisionTestWith v0 v1 v2 v3 v4 v5 v6 v7).collision_count = 21 ∧
      (collisionTestWith v0 v1 v2 v3 v4 v5 v6 v7).size = 8 ∧
      (collisionTestWith v0 v1 v2 v3 v4 v5 v6 v7).capacity = 16 := by
  obtain ⟨e1, e2, e3⟩ := shape_fields (collisionTestWith v0 v1 v2 v3 v4 v5 v6 v7)
  rw [← e1, ← e2, ← e3, collisionTestWith_shape]
  decide

theorem find_congr_key {t t' : HashTable} (h : t.FInv) (h' : t'.FInv) (k : Int)
    (hh : ∀ v, t'.Holds k v ↔ t.Holds k v) : t'.find k = t.find k := by
  cases hf : t.find k with
  | none =>
    rw [find_eq_none_iff_not_hasLive h', hasLive_iff_holds]
    rintro ⟨v, hv⟩
    rw [(find_eq_some_iff_holds h k v).mpr ((hh v).mp hv)] at hf; cases hf
  | some v =>
    exact (find_eq_some_iff_holds h' k v).mpr ((hh v).mpr ((find_eq_some_iff_holds h k v).mp hf))

/-- Placing an entry for `k` into an EMPTY slot does not change what `find`
reports for another key. -/
theorem find_place_other {g g' : HashTable} (h : g.FInv) (h' : g'.FInv)
    (hc : g'.capacity_ = g.capacity_) {k : Int} {v : String} {idx : Nat}
    (htab : g'.table_ = g.table_.set idx ⟨k, v, true, false⟩) (hidx : idx < g.capacity_)
    (hempty : (nodeAt g.table_ idx).occupied = false) {k' : Int} (hne : k' ≠ k) :
    g'.find k' = g.find k' := by
  apply find_congr_key h h'
  intro w
  constructor
  · rintro ⟨i, hi, hl, hk, hv⟩
    have hii : i ≠ idx := by
      intro heq
      rw [heq, nodeAt_set_self h.ginv.wf htab hidx] at hk
      exact hne hk.symm
    rw [nodeAt_set_other htab hii] at hl hk hv
    exact ⟨i, by rw [← hc]; exact hi, hl, hk, hv⟩
  · exact holds_set_mono hc htab hempty

/-- One `insert` that meets no defensive case acts on the `find` view as the
`insert` of the specification acts on the map. -/
theorem insert_refines {t : HashTable} (h : t.FInv) {k : Int} (v : String)
    (hok : insertOk t k = true) :
    (t.insert k v).1 = (specInsert t.find k v).1 ∧
      (t.insert k v).2.find = (specInsert t.find k v).2 := by
  simp only [insertOk, Bool.and_eq_true, decide_eq_true_eq, findSlot_fst] at hok
  obtain ⟨hs, h1⟩ := hok
  have hg := FInv_growIfNeeded h
  have hfg := find_growIfNeeded h hs
  cases h2 : (nodeAt t.growIfNeeded.table_ (t.growIfNeeded.findSlotConst k)).live with
  | true =>
    obtain ⟨w, hw⟩ := (hasLive_iff_holds _ k).mp (hasLive_of_located h1 h2)
    have hf : t.find k = some w := by
      rw [← hfg]; exact (find_eq_some_iff_holds hg k w).mpr hw
    rw [insert_dup t k v h1 h2]
    simp only [specInsert, hf]
    refine ⟨trivial, ?_⟩
    funext k'
    rw [findSlot_snd_find, hfg]
  | false =>
    have hf : t.find k = none := by
      rw [← hfg, find_eq_none_iff_not_hasLive hg]
      exact not_hasLive_of_located_empty hg h2
    obtain ⟨g1, g2, _⟩ := insert_place_find (v := v) h h1 h2
    obtain ⟨hempty, _⟩ := located_empty h1 h2
    simp only [specInsert, hf]
    refine ⟨g1, ?_⟩
    funext k'
    by_cases hk : k' = k
    · rw [hk, g2]; simp
    · rw [if_neg hk, ← hfg]
      have h' := FInv_insert h k v
      rw [insert_place t k v h1 h2] at h' ⊢
      exact find_place_other hg h' rfl rfl h1 hempty hk

/-- A sequence of `insert` calls that meets no defensive case refines the
sequence of the specification. -/
theorem runInserts_refines (ops : List (Int × String)) :
    ∀ {t : HashTable}, t.FInv → runOk t ops = true →
      (runInserts t ops).1 = (specRunInserts t.find ops).1 ∧
        (runInserts t ops).2.find = (specRunInserts t.find ops).2 := by
  induction ops with
  | nil => intro t _ _; exact ⟨rfl, rfl⟩
  | cons kv rest ih =>
    intro t h hok
    obtain ⟨k, v⟩ := kv
    simp only [runOk, Bool.and_eq_true] at hok
    obtain ⟨g1, g2⟩ := insert_refines h v hok.1
    obtain ⟨i1, i2⟩ := ih (FInv_insert h k v) hok.2
    simp only [runInserts, specRunInserts]
    rw [← g2, g1]
    exact ⟨by rw [i1], i2⟩

theorem find_new (m : ProbingMethod) : (HashTable.new.set_probing_method m).find = fun _ => none := by
  funext k
  rw [find_eq_none_iff_not_hasLive (FInv_new m)]
  rintro ⟨i, _, hl, _⟩
  have : nodeAt (HashTable.new.set_probing_method m).table_ i = HashNode.empty :=
    nodeAt_replicate _ i
  rw [this] at hl; cases hl

/-- C10 (as stated, refuted): the five calls of `opsCluster` (keys 0, 16, 32, 48,
64) all return true under LINEAR, while under QUADRATIC the fifth returns false
and key 64 is absent; and the nine calls of `opsDrop` (keys 11, 12, 13, 14, 15,
45, 61, 77, 100) all return true under LINEAR and under DOUBLE_HASHING, yet
`find(77)` afterwards returns `"h"` under LINEAR and reports absence under
DOUBLE_HASHING. -/
theorem c10_strategies_disagree :
    ((runInserts (HashTable.new.set_probing_method ProbingMethod.LINEAR) opsCluster).1 =
        [true, true, true, true, true] ∧
      (runInserts (HashTable.new.set_probing_method ProbingMethod.QUADRATIC) opsCluster).1 =
        [true, true, true, true, false] ∧
      (runInserts (HashTable.new.set_probing_method ProbingMethod.LINEAR) opsCluster).2.find 64 =
        some "e" ∧
      (runInserts (HashTable.new.set_probing_method ProbingMethod.QUADRATIC) opsCluster).2.find 64 =
        none) ∧
    ((runInserts (HashTable.new.set_probing_method ProbingMethod.LINEAR) opsDrop).1 =
        [true, true, true, true, true, true, true, true, true] ∧
      (runInserts (HashTable.new.set_probing_method ProbingMethod.DOUBLE_HASHING) opsDrop).1 =
        [true, true, true, true, true, true, true, true, true] ∧
      (runInserts (HashTable.new.set_probing_method ProbingMethod.LINEAR) opsDrop).2.find 77 =
        some "h" ∧
      (runInserts (HashTable.new.set_probing_method ProbingMethod.DOUBLE_HASHING) opsDrop).2.find 77 =
        none) := by
  decide

/-- C10 (amended): for any two strategies and any finite sequence of `insert`
calls during which, under both strategies, no slot location exhausts its
attempts and no growth step drops an entry, the two runs from fresh tables
configured with these strategies give the same return value for every call
and the same `find(k)` result for every key `k`. -/
theorem c10_strategy_independence (s1 s2 : ProbingMethod) (ops : List (Int × String))
    (h1 : runOk (HashTable.new.set_probing_method s1) ops = true)
    (h2 : runOk (HashTable.new.set_probing_method s2) ops = true) :
    (runInserts (HashTable.new.set_probing_method s1) ops).1 =
        (runInserts (HashTable.new.set_probing_method s2) ops).1 ∧
      ∀ k, (runInserts (HashTable.new.set_probing_method s1) ops).2.find k =
        (runInserts (HashTable.new.set_probing_method s2) ops).2.find k := by
  obtain ⟨a1, a2⟩ := runInserts_refines ops (FInv_new s1) h1
  obtain ⟨b1, b2⟩ := runInserts_refines ops (FInv_new s2) h2
  rw [find_new] at a1 a2 b1 b2
  refine ⟨by rw [a1, b1], fun k => ?_⟩
  rw [a2, b2]

/-- An instance of `c10_strategy_independence`: QUADRATIC and DOUBLE_HASHING on `opsPlain`. -/
theorem c10_strategy_independence_witness :
    runOk (HashTable.new.set_probing_method ProbingMethod.QUADRATIC) opsPlain = true ∧
      runOk (HashTable.new.set_probing_method ProbingMethod.DOUBLE_HASHING) opsPlain = true ∧
      ((runInserts (HashTable.new.set_probing_method ProbingMethod.QUADRATIC) opsPlain).1 =
          (runInserts (HashTable.new.set_probing_method ProbingMethod.DOUBLE_HASHING) opsPlain).1 ∧
        ∀ k, (runInserts (HashTable.new.set_probing_method ProbingMethod.QUADRATIC) opsPlain).2.find k =
          (runInserts (HashTable.new.set_probing_method ProbingMethod.DOUBLE_HASHING)
            opsPlain).2.find k) :=
  ⟨by decide, by decide,
    c10_strategy_independence ProbingMethod.QUADRATIC ProbingMethod.DOUBLE_HASHING opsPlain
      (by decide) (by decide)⟩

/-! ## Invariants of the reachable states -/

/-- C12: in every state reachable with the strategy fixed before the first
insertion (growth included), no two LIVE slots hold the same key. -/
theorem c12_key_uniqueness (t : HashTable) (hr : Reachable t) (i j : Nat)
    (hi : i < t.capacity) (hj : j < t.capacity)
    (hli : (nodeAt t.table_ i).occupied = true ∧ (nodeAt t.table_ i).deleted = false)
    (hlj : (nodeAt t.table_ j).occupied = true ∧ (nodeAt t.table_ j).deleted = false)
    (hk : (nodeAt t.table_ i).key = (nodeAt t.table_ j).key) : i = j := by
  have h := hr.finv
  have hc : t.capacity = t.capacity_ := h.ginv.wf.1.symm
  rw [hc] at hi hj
  exact h.uniq i j hi hj (by simp [HashNode.live, hli.1, hli.2])
    (by simp [HashNode.live, hlj.1, hlj.2]) hk

/-- An instance of `c12_key_uniqueness`: slot 3 of `stateEight` against itself. -/
theorem c12_key_uniqueness_witness :
    Reachable stateEight ∧ 3 < stateEight.capacity ∧
      ((nodeAt stateEight.table_ 3).occupied = true ∧
        (nodeAt stateEight.table_ 3).deleted = false) ∧
      (nodeAt stateEight.table_ 3).key = (nodeAt stateEight.table_ 3).key ∧ 3 = 3 :=
  ⟨reachable_insertAll (Reachable.configured _) _, by decide, by decide, rfl,
    c12_key_uniqueness stateEight (reachable_insertAll (Reachable.configured _) _) 3 3
      (by decide) (by decide) (by decide) (by decide) rfl⟩

/-- C13: in every state reachable with the strategy fixed before the first
insertion, for every LIVE slot at index `i`, the probe walk of its key reaches
`i` at an attempt below the capacity, every earlier attempt visits an occupied
slot (no EMPTY slot comes first), the read-only slot location of the key
returns `i`, and `find` of the key returns the value of the slot. -/
theorem c13_probe_reachability (t : HashTable) (hr : Reachable t) (i : Nat)
    (hi : i < t.capacity)
    (hl : (nodeAt t.table_ i).occupied = true ∧ (nodeAt t.table_ i).deleted = false) :
    (∃ a, a < t.capacity ∧ t.probe (nodeAt t.table_ i).key a = i ∧
      ∀ b, b < a → (nodeAt t.table_ (t.probe (nodeAt t.table_ i).key b)).occupied = true) ∧
    t.findSlotConst (nodeAt t.table_ i).key = i ∧
    t.find (nodeAt t.table_ i).key = some (nodeAt t.table_ i).value := by
  have h := hr.finv
  have hc : t.capacity = t.capacity_ := h.ginv.wf.1.symm
  rw [hc] at hi ⊢
  have hlive : (nodeAt t.table_ i).live = true := by simp [HashNode.live, hl.1, hl.2]
  exact ⟨h.reach i hi hlive, findSlotConst_of_live h.ginv.wf h.uniq h.reach hi hlive,
    find_of_holds h.ginv.wf h.uniq h.reach ⟨i, hi, hlive, rfl, rfl⟩⟩

/-- An instance of `c13_probe_reachability`: slot 3 of `stateDrop`, which holds key 77
after two occupied probes. -/
theorem c13_probe_reachability_witness :
    Reachable stateDrop ∧ 3 < stateDrop.capacity ∧
      ((nodeAt stateDrop.table_ 3).occupied = true ∧
        (nodeAt stateDrop.table_ 3).deleted = false) ∧
      ((∃ a, a < stateDrop.capacity ∧ stateDrop.probe (nodeAt stateDrop.table_ 3).key a = 3 ∧
          ∀ b, b < a →
            (nodeAt stateDrop.table_
              (stateDrop.probe (nodeAt stateDrop.table_ 3).key b)).occupied = true) ∧
        stateDrop.findSlotConst (nodeAt stateDrop.table_ 3).key = 3 ∧
        stateDrop.find (nodeAt stateDrop.table_ 3).key = some (nodeAt stateDrop.table_ 3).value) :=
  ⟨reachable_insertAll Reachable.fresh _, by decide, by decide,
    c13_probe_reachability stateDrop (reachable_insertAll Reachable.fresh _) 3
      (by decide) (by decide)⟩

/-- A successful `erase` found a LIVE slot. -/
theorem erase_true_located {t : HashTable} {k : Int} (h : (t.erase k).1 = true) :
    t.findSlotConst k < t.capacity_ ∧ (nodeAt t.table_ (t.findSlotConst k)).live = true := by
  rcases Nat.lt_or_ge (t.findSlotConst k) t.capacity_ with h1 | h1
  · cases h2 : (nodeAt t.table_ (t.findSlotConst k)).live with
    | true => exact ⟨h1, rfl⟩
    | false => rw [erase_absent t k h1 h2] at h; cases h
  · rw [erase_exhaust t k h1] at h; cases h

/-- C14: in every state reachable by public operations (`set_probing_method` at
any time included), `size()` is the number of LIVE slots and is below
`capacity()`; and whenever `erase` succeeds, the size was positive and is one
less afterwards: the decrement does not wrap. -/
theorem c14_size_bookkeeping (t : HashTable) (hr : ReachableAny t) :
    t.size = liveCount t.table_ ∧ 0 ≤ t.size ∧ t.size < t.capacity ∧
      ∀ k, (t.erase k).1 = true → 0 < t.size ∧ (t.erase k).2.size + 1 = t.size := by
  have h := hr.ginv
  have hc : t.capacity = t.capacity_ := h.wf.1.symm
  refine ⟨h.sizeOk, Nat.zero_le _, ?_, fun k hk => ?_⟩
  · rw [hc]; show t.size_ < t.capacity_
    have := h.load; have := h.big; omega
  · obtain ⟨h1, h2⟩ := erase_true_located hk
    have hs : (t.erase k).2.size_ + 1 = t.size_ := by
      rw [erase_live t k h1 h2]
      exact size_tombstone h rfl rfl h1 h2 (by simp [HashNode.live]) rfl
    exact ⟨by show 0 < t.size_; omega, hs⟩

/-- An instance of `c14_size_bookkeeping`: `stateEight`. -/
theorem c14_size_bookkeeping_witness :
    ReachableAny stateEight ∧
      (stateEight.size = liveCount stateEight.table_ ∧ 0 ≤ stateEight.size ∧
        stateEight.size < stateEight.capacity ∧
        ∀ k, (stateEight.erase k).1 = true →
          0 < stateEight.size ∧ (stateEight.erase k).2.size + 1 = stateEight.size) :=
  ⟨(reachable_insertAll (Reachable.configured _) _).any,
    c14_size_bookkeeping stateEight (reachable_insertAll (Reachable.configured _) _).any⟩

/-! ## Erase followed by insert -/

/-- An `insert` adds no entry but its own. -/
theorem holds_of_insert {t : HashTable} (h : t.FInv) {k2 : Int} {v : String} {k : Int}
    {w : String} (hh : (t.insert k2 v).2.Holds k w) : k = k2 ∨ t.Holds k w := by
  have hg := FInv_growIfNeeded h
  rcases Nat.lt_or_ge (t.growIfNeeded.findSlotConst k2) t.growIfNeeded.capacity_ with h1 | h1
  · cases h2 : (nodeAt t.growIfNeeded.table_ (t.growIfNeeded.findSlotConst k2)).live with
    | true =>
      rw [insert_dup t k2 v h1 h2] at hh
      exact Or.inr (holds_of_growIfNeeded h hh)
    | false =>
      rw [insert_place t k2 v h1 h2] at hh
      obtain ⟨i, hi, hl, hki, hvi⟩ := hh
      change i < t.growIfNeeded.capacity_ at hi
      change (nodeAt (t.growIfNeeded.table_.set _ _) i).live = true at hl
      change (nodeAt (t.growIfNeeded.table_.set _ _) i).key = k at hki
      change (nodeAt (t.growIfNeeded.table_.set _ _) i).value = w at hvi
      by_cases hii : i = t.growIfNeeded.findSlotConst k2
      · rw [hii, nodeAt_set_eq _ _ _ (by rw [← hg.ginv.wf.1]; exact h1)] at hki
        exact Or.inl hki.symm
      · rw [nodeAt_set_ne _ _ _ _ (Ne.symm hii)] at hl hki hvi
        exact Or.inr (holds_of_growIfNeeded h ⟨i, hi, hl, hki, hvi⟩)
  · rw [insert_exhaust t k2 v h1] at hh
    exact Or.inr (holds_of_growIfNeeded h hh)

/-- An `erase` adds no entry. -/
theorem holds_of_erase {t : HashTable} (h : t.FInv) {k : Int} {k' : Int} {w : String}
    (hh : (t.erase k).2.Holds k' w) : t.Holds k' w := by
  rcases Nat.lt_or_ge (t.findSlotConst k) t.capacity_ with h1 | h1
  · cases h2 : (nodeAt t.table_ (t.findSlotConst k)).live with
    | true =>
      rw [erase_live t k h1 h2] at hh
      obtain ⟨i, hi, hl, hki, hvi⟩ := hh
      change i < t.capacity_ at hi
      change (nodeAt (t.table_.set _ _) i).live = true at hl
      change (nodeAt (t.table_.set _ _) i).key = k' at hki
      change (nodeAt (t.table_.set _ _) i).value = w at hvi
      by_cases hii : i = t.findSlotConst k
      · rw [hii, nodeAt_set_eq _ _ _ (by rw [← h.ginv.wf.1]; exact h1)] at hl
        simp [HashNode.live] at hl
      · rw [nodeAt_set_ne _ _ _ _ (Ne.symm hii)] at hl hki hvi
        exact ⟨i, hi, hl, hki, hvi⟩
    | false => rw [erase_absent t k h1 h2] at hh; exact hh
  · rw [erase_exhaust t k h1] at hh; exact hh

/-- The outcome of `insert` for a key that is not LIVE. -/
theorem insert_absent_outcome {t : HashTable} (h : t.FInv) {k : Int} (v : String)
    (hn : ¬ t.HasLive k) :
    ((t.insert k v).1 = true ↔ (t.growIfNeeded.findSlot k).1 < t.growIfNeeded.capacity_) ∧
      ((t.insert k v).1 = true → (t.insert k v).2.find k = some v) := by
  have hg := FInv_growIfNeeded h
  have hnl : ¬ t.growIfNeeded.HasLive k := not_hasLive_growIfNeeded h hn
  rw [findSlot_fst]
  rcases Nat.lt_or_ge (t.growIfNeeded.findSlotConst k) t.growIfNeeded.capacity_ with h1 | h1
  · cases h2 : (nodeAt t.growIfNeeded.table_ (t.growIfNeeded.findSlotConst k)).live with
    | true => exact absurd (hasLive_of_located h1 h2) hnl
    | false =>
      obtain ⟨g1, g2, _⟩ := insert_place_find (v := v) h h1 h2
      exact ⟨⟨fun _ => h1, fun _ => g1⟩, fun _ => g2⟩
  · rw [insert_exhaust t k v h1]
    exact ⟨⟨fun hh => (by cases hh), fun hh => (by omega)⟩, fun hh => (by cases hh)⟩

/-- An `erase` of a key that `find` reports leaves a TOMBSTONE in the slot of
the key, changes neither the capacity nor the strategy, and leaves the table
below the growth threshold. -/
theorem erase_present_slot {t : HashTable} (h : t.FInv) {k : Int} (hp : t.find k ≠ none) :
    t.findSlotConst k < t.capacity_ ∧
      (t.erase k).2.capacity_ = t.capacity_ ∧ (t.erase k).2.method_ = t.method_ ∧
      nodeAt (t.erase k).2.table_ (t.findSlotConst k) =
        { nodeAt t.table_ (t.findSlotConst k) with deleted := true } ∧
      (nodeAt t.table_ (t.findSlotConst k)).occupied = true ∧
      (t.erase k).2.needsRehash = false := by
  have hloc : t.findSlotConst k < t.capacity_ ∧
      (nodeAt t.table_ (t.findSlotConst k)).live = true := by
    by_contra hc
    exact hp ((find_eq_none_iff t k).mpr hc)
  obtain ⟨h1, h2⟩ := hloc
  have hsz := (erase_present h hp).2.1
  have hcap : (t.erase k).2.capacity_ = t.capacity_ := by rw [erase_live t k h1 h2]; rfl
  refine ⟨h1, hcap, ?_, ?_, live_imp_occupied h2, ?_⟩
  · rw [erase_live t k h1 h2]; rfl
  · rw [erase_live t k h1 h2]
    exact nodeAt_set_eq _ _ _ (by rw [← h.ginv.wf.1]; exact h1)
  · have hl := h.ginv.load
    simp only [HashTable.needsRehash, decide_eq_false_iff_not, hcap]
    omega

/-- The walk of a key does not stop at a TOMBSTONE. -/
theorem findSlotConst_ne_tombstone (g : HashTable) (k : Int) {i : Nat} (hi : i < g.capacity_)
    (ho : (nodeAt g.table_ i).occupied = true) (hd : (nodeAt g.table_ i).deleted = true) :
    g.findSlotConst k ≠ i := by
  intro heq
  obtain ⟨_, _, _, hs⟩ := findSlotConst_stops g k (by rw [heq]; exact hi)
  rw [heq] at hs
  simp [stopsAt, ho, hd] at hs

/-- An `insert` that triggers no growth changes at most the slot it locates. -/
theorem insert_nodeAt_other {t : HashTable} (hn : t.needsRehash = false) (k : Int) (v : String)
    {i : Nat} (hi : i ≠ t.findSlotConst k) :
    nodeAt (t.insert k v).2.table_ i = nodeAt t.table_ i := by
  have hg := growIfNeeded_eq_self hn
  rcases Nat.lt_or_ge (t.growIfNeeded.findSlotConst k) t.growIfNeeded.capacity_ with h1 | h1
  · cases h2 : (nodeAt t.growIfNeeded.table_ (t.growIfNeeded.findSlotConst k)).live with
    | true => rw [insert_dup t k v h1 h2, hg]; rfl
    | false =>
      rw [insert_place t k v h1 h2, hg]
      exact nodeAt_set_ne _ _ _ _ (Ne.symm hi)
  · rw [insert_exhaust t k v h1, hg]; rfl

/-- An `insert` that triggers no growth and returns true has put the new entry
into the slot it located, which was EMPTY. -/
theorem insert_true_slot {t : HashTable} (h : t.FInv) (hn : t.needsRehash = false) {k : Int}
    (v : String) (hr : (t.insert k v).1 = true) :
    t.findSlotConst k < t.capacity_ ∧ (nodeAt t.table_ (t.findSlotConst k)).occupied = false ∧
      nodeAt (t.insert k v).2.table_ (t.findSlotConst k) = ⟨k, v, true, false⟩ := by
  have hg := growIfNeeded_eq_self hn
  rcases Nat.lt_or_ge (t.growIfNeeded.findSlotConst k) t.growIfNeeded.capacity_ with h1 | h1
  · cases h2 : (nodeAt t.growIfNeeded.table_ (t.growIfNeeded.findSlotConst k)).live with
    | true => rw [insert_dup t k v h1 h2] at hr; cases hr
    | false =>
      rw [insert_place t k v h1 h2]
      rw [hg] at h1 h2 ⊢
      exact ⟨h1, (located_empty h1 h2).1,
        nodeAt_set_eq _ _ _ (by rw [← h.ginv.wf.1]; exact h1)⟩
  · rw [insert_exhaust t k v h1] at hr; cases hr

/-- An `insert` that returns false changes the counter of the grown table only. -/
theorem insert_false_state {t : HashTable} {k : Int} (v : String)
    (hf : (t.insert k v).1 = false) : (t.insert k v).2 = (t.growIfNeeded.findSlot k).2 := by
  rcases Nat.lt_or_ge (t.growIfNeeded.findSlotConst k) t.growIfNeeded.capacity_ with h1 | h1
  · cases h2 : (nodeAt t.growIfNeeded.table_ (t.growIfNeeded.findSlotConst k)).live with
    | true => rw [insert_dup t k v h1 h2]
    | false => rw [insert_place t k v h1 h2] at hf; cases hf
  · rw [insert_exhaust t k v h1]

/-- The slot location of a key that no LIVE slot holds fails exactly when every
slot on the walk of the key is occupied. -/
theorem exhausted_iff_blocked {g : HashTable} (hwf : g.WF) {k : Int} (hn : ¬ g.HasLive k) :
    g.capacity_ ≤ g.findSlotConst k ↔ g.Blocked k := by
  constructor
  · intro hge
    rcases findSlotConst_cases g k with ⟨a, _, h2⟩ | ⟨h1, _⟩
    · have := probe_lt g hwf k a
      omega
    · intro a ha
      exact not_stopsAt_occupied (firstHit_none h1 a (Nat.zero_le a) (by omega))
  · intro hb
    rw [findSlotConst_blocked hwf hb hn]

/-- C11 (as stated, refuted): in the reachable state `stateCycle` (default
strategy, key 7 in slot 7, key 127 in slot 15) key 247 is absent and its walk
starts at slot 7. After `erase(7)` the call `insert(247, "c")` walks through
the TOMBSTONE in slot 7 and the LIVE slot 15 only, finds no slot and returns
false; `find(247)` still reports absence. -/
theorem c11_insert_after_erase_fails :
    Reachable stateCycle ∧ stateCycle.find 7 = some "a" ∧ stateCycle.find 247 = none ∧
      stateCycle.probe 247 0 = stateCycle.findSlotConst 7 ∧
      (stateCycle.erase 7).1 = true ∧
      ((stateCycle.erase 7).2.insert 247 "c").1 = false ∧
      ((stateCycle.erase 7).2.insert 247 "c").2.find 247 = none :=
  ⟨reachable_insertAll Reachable.fresh _, by decide, by decide, by decide, by decide, by decide,
    by decide⟩

/-- C11 (amended): in every reachable state, for a present key `k` and an absent
key `k2` different from `k` whose probe walk visits the slot holding `k`: after
`erase(k)`, the call `insert(k2, v)` returns true exactly when its slot
location, run after the growth check, returns an index below the capacity; if
it returns true, `find(k2)` returns `v` afterwards; and in every case `find(k)`
reports absence afterwards. The TOMBSTONE is walked through and never reused:
`erase(k)` leaves the slot of `k` occupied and deleted; the walk of `k2` visits
that slot at an attempt at which the stop test fails; the call `insert(k2, v)`
triggers no growth, does not locate that slot and leaves it as it is; when it
returns true, the slot it located was EMPTY and now holds `(k2, v)`; it
returns false exactly when every slot on the walk of `k2` is occupied, and then
`find(k2)` still reports absence. -/
theorem c11_insert_after_erase (t : HashTable) (k k2 : Int) (v : String)
    (hr : Reachable t) (hk : t.find k ≠ none) (hne : k2 ≠ k) (hk2 : t.find k2 = none)
    (hvisit : ∃ a, a < t.capacity ∧ t.probe k2 a = t.findSlotConst k) :
    (((t.erase k).2.insert k2 v).1 = true ↔
        ((t.erase k).2.growIfNeeded.findSlot k2).1 < (t.erase k).2.growIfNeeded.capacity_) ∧
      (((t.erase k).2.insert k2 v).1 = true → ((t.erase k).2.insert k2 v).2.find k2 = some v) ∧
      ((t.erase k).2.insert k2 v).2.find k = none ∧
      (nodeAt (t.erase k).2.table_ (t.findSlotConst k)).occupied = true ∧
      (nodeAt (t.erase k).2.table_ (t.findSlotConst k)).deleted = true ∧
      (∃ a, a < (t.erase k).2.capacity ∧ (t.erase k).2.probe k2 a = t.findSlotConst k ∧
        stopsAt (nodeAt (t.erase k).2.table_ ((t.erase k).2.probe k2 a)) k2 = false) ∧
      (t.erase k).2.needsRehash = false ∧
      ((t.erase k).2.findSlot k2).1 ≠ t.findSlotConst k ∧
      nodeAt ((t.erase k).2.insert k2 v).2.table_ (t.findSlotConst k) =
        nodeAt (t.erase k).2.table_ (t.findSlotConst k) ∧
      (((t.erase k).2.insert k2 v).1 = true →
        (nodeAt (t.erase k).2.table_ ((t.erase k).2.findSlot k2).1).occupied = false ∧
        nodeAt ((t.erase k).2.insert k2 v).2.table_ ((t.erase k).2.findSlot k2).1 =
          ⟨k2, v, true, false⟩) ∧
      (((t.erase k).2.insert k2 v).1 = false ↔ (t.erase k).2.Blocked k2) ∧
      (((t.erase k).2.insert k2 v).1 = false →
        ((t.erase k).2.insert k2 v).2.find k2 = none) := by
  have h := hr.finv
  have h1 : (t.erase k).2.FInv := FInv_erase h k
  have h2 : ((t.erase k).2.insert k2 v).2.FInv := FInv_insert h1 k2 v
  have hn2 : ¬ (t.erase k).2.HasLive k2 := by
    intro hl
    obtain ⟨w, hw⟩ := (hasLive_iff_holds _ k2).mp hl
    rw [(find_eq_some_iff_holds h k2 w).mpr (holds_of_erase h hw)] at hk2
    cases hk2
  obtain ⟨g1, g2⟩ := insert_absent_outcome h1 v hn2
  obtain ⟨hi, hcap, hmeth, hnode, hocc, hnr⟩ := erase_present_slot h hk
  have hgrow := growIfNeeded_eq_self hnr
  have hto : (nodeAt (t.erase k).2.table_ (t.findSlotConst k)).occupied = true := by
    rw [hnode]; exact hocc
  have htd : (nodeAt (t.erase k).2.table_ (t.findSlotConst k)).deleted = true := by
    rw [hnode]
  have hloc : (t.erase k).2.findSlotConst k2 ≠ t.findSlotConst k :=
    findSlotConst_ne_tombstone _ k2 (by rw [hcap]; exact hi) hto htd
  refine ⟨g1, g2, ?_, hto, htd, ?_, hnr, by rw [findSlot_fst]; exact hloc,
    insert_nodeAt_other hnr k2 v (Ne.symm hloc), ?_, ?_, ?_⟩
  · rw [find_eq_none_iff_not_hasLive h2]
    intro hl
    obtain ⟨w, hw⟩ := (hasLive_iff_holds _ k).mp hl
    rcases holds_of_insert h1 hw with heq | hold
    · exact hne heq.symm
    · exact (erase_present h hk).2.2 ((hasLive_iff_holds _ k).mpr ⟨w, hold⟩)
  · obtain ⟨a, ha, hpa⟩ := hvisit
    have hp : (t.erase k).2.probe k2 a = t.findSlotConst k := by
      rw [probe_congr t _ hcap hmeth]; exact hpa
    refine ⟨a, ?_, hp, ?_⟩
    · show a < (t.erase k).2.table_.length
      rw [← h1.ginv.wf.1, hcap, h.ginv.wf.1]; exact ha
    · rw [hp]; simp [stopsAt, hto, htd]
  · intro htrue
    obtain ⟨_, e1, e2⟩ := insert_true_slot h1 hnr v htrue
    rw [findSlot_fst]
    exact ⟨e1, e2⟩
  · rw [← exhausted_iff_blocked h1.ginv.wf hn2]
    rw [hgrow, findSlot_fst] at g1
    constructor
    · intro hf
      by_contra hc
      have := g1.mpr (by omega)
      rw [hf] at this; cases this
    · intro hge
      cases hb : ((t.erase k).2.insert k2 v).1 with
      | false => rfl
      | true => have := g1.mp hb; omega
  · intro hf
    rw [insert_false_state v hf, findSlot_snd_find]
    exact (find_eq_none_iff_not_hasLive (FInv_growIfNeeded h1) k2).mpr
      (not_hasLive_growIfNeeded h1 hn2)

/-- An instance of `c11_insert_after_erase`: `stateEight`, key 3 erased, key 19
(primary slot 3) inserted: its walk passes the TOMBSTONE in slot 3. -/
theorem c11_insert_after_erase_witness :
    Reachable stateEight ∧ stateEight.find 3 ≠ none ∧ (19 : Int) ≠ 3 ∧
      stateEight.find 19 = none ∧
      (∃ a, a < stateEight.capacity ∧ stateEight.probe 19 a = stateEight.findSlotConst 3) ∧
      ((((stateEight.erase 3).2.insert 19 "z").1 = true ↔
          ((stateEight.erase 3).2.growIfNeeded.findSlot 19).1 <
            (stateEight.erase 3).2.growIfNeeded.capacity_) ∧
        (((stateEight.erase 3).2.insert 19 "z").1 = true →
          ((stateEight.erase 3).2.insert 19 "z").2.find 19 = some "z") ∧
        ((stateEight.erase 3).2.insert 19 "z").2.find 3 = none ∧
        (nodeAt (stateEight.erase 3).2.table_ (stateEight.findSlotConst 3)).occupied = true ∧
        (nodeAt (stateEight.erase 3).2.table_ (stateEight.findSlotConst 3)).deleted = true ∧
        (∃ a, a < (stateEight.erase 3).2.capacity ∧
          (stateEight.erase 3).2.probe 19 a = stateEight.findSlotConst 3 ∧
          stopsAt (nodeAt (stateEight.erase 3).2.table_ ((stateEight.erase 3).2.probe 19 a)) 19 =
            false) ∧
        (stateEight.erase 3).2.needsRehash = false ∧
        ((stateEight.erase 3).2.findSlot 19).1 ≠ stateEight.findSlotConst 3 ∧
        nodeAt ((stateEight.erase 3).2.insert 19 "z").2.table_ (stateEight.findSlotConst 3) =
          nodeAt (stateEight.erase 3).2.table_ (stateEight.findSlotConst 3) ∧
        (((stateEight.erase 3).2.insert 19 "z").1 = true →
          (nodeAt (stateEight.erase 3).2.table_ ((stateEight.erase 3).2.findSlot 19).1).occupied =
              false ∧
          nodeAt ((stateEight.erase 3).2.insert 19 "z").2.table_
              ((stateEight.erase 3).2.findSlot 19).1 = ⟨19, "z", true, false⟩) ∧
        (((stateEight.erase 3).2.insert 19 "z").1 = false ↔ (stateEight.erase 3).2.Blocked 19) ∧
        (((stateEight.erase 3).2.insert 19 "z").1 = false →
          ((stateEight.erase 3).2.insert 19 "z").2.find 19 = none)) :=
  ⟨reachable_insertAll (Reachable.configured _) _, by decide, by decide, by decide,
    ⟨0, by decide, by decide⟩,
    c11_insert_after_erase stateEight 3 19 "z" (reachable_insertAll (Reachable.configured _) _)
      (by decide) (by decide) (by decide) ⟨0, by decide, by decide⟩⟩

/-! ## Probe arithmetic at the capacities `16 * 2^n` -/

theorem capacity_dvd {c n : Nat} (hc : c = 16 * 2 ^ n) (hfit : c < 2 ^ 64) : c ∣ 2 ^ 64 := by
  have h16 : (16 : Nat) = 2 ^ 4 := by norm_num
  have hpow : c = 2 ^ (n + 4) := by rw [hc, h16, ← pow_add, Nat.add_comm]
  rw [hpow] at hfit ⊢
  have hlt : n + 4 < 64 := (Nat.pow_lt_pow_iff_right (by norm_num)).mp hfit
  exact Nat.pow_dvd_pow 2 (by omega)

theorem capacity_big {c n : Nat} (hc : c = 16 * 2 ^ n) : 16 ≤ c := by
  rw [hc]; exact Nat.le_mul_of_pos_right 16 (Nat.pow_pos (by norm_num))

theorem wrap_mod {c : Nat} (hd : c ∣ 2 ^ 64) (x : Nat) : wrap x % c = x % c :=
  Nat.mod_mod_of_dvd x hd

theorem wrap_add_wrap_mod {c : Nat} (hd : c ∣ 2 ^ 64) (x y : Nat) :
    wrap (x + wrap y) % c = (x + y) % c := by
  rw [wrap_mod hd, Nat.add_mod, wrap_mod hd, ← Nat.add_mod]

theorem linearProbe_eq {t : HashTable} (hd : t.capacity_ ∣ 2 ^ 64) (key : Int) (a : Nat) :
    t.linearProbe key a = (t.hash1 key + a) % t.capacity_ := by
  unfold HashTable.linearProbe; exact wrap_mod hd _

theorem quadraticProbe_eq {t : HashTable} (hd : t.capacity_ ∣ 2 ^ 64) (key : Int) (a : Nat) :
    t.quadraticProbe key a = (t.hash1 key + a ^ 2) % t.capacity_ := by
  unfold HashTable.quadraticProbe; rw [wrap_add_wrap_mod hd, pow_two]

theorem doubleHash_eq {t : HashTable} (hd : t.capacity_ ∣ 2 ^ 64) (key : Int) (a : Nat) :
    t.doubleHash key a = (t.hash1 key + a * t.hash2 key) % t.capacity_ := by
  unfold HashTable.doubleHash; exact wrap_add_wrap_mod hd _ _

theorem hash2_eq {t : HashTable} (hbig : 16 ≤ t.capacity_) (hfit : t.capacity_ < 2 ^ 64)
    (key : Int) : t.hash2 key = 1 + toSizeT key % (t.capacity_ - 1) := by
  unfold HashTable.hash2 wrap
  have : toSizeT key % (t.capacity_ - 1) < t.capacity_ - 1 := Nat.mod_lt _ (by omega)
  exact Nat.mod_eq_of_lt (by omega)

theorem toSizeT_nonneg {key : Int} (h0 : 0 ≤ key) (h1 : key < 2 ^ 64) :
    toSizeT key = key.toNat := by
  unfold toSizeT; rw [Int.emod_eq_of_lt h0 h1]

theorem hash1_eq {t : HashTable} (hd : t.capacity_ ∣ 2 ^ 64) (hpos : 0 < t.capacity_)
    (key : Int) : t.hash1 key = (key % (t.capacity_ : Int)).toNat := by
  unfold HashTable.hash1 toSizeT
  have hd' : (t.capacity_ : Int) ∣ 2 ^ 64 := by exact_mod_cast hd
  have h0 : (0 : Int) ≤ key % 2 ^ 64 := Int.emod_nonneg _ (by norm_num)
  have hc : (0 : Int) ≤ key % (t.capacity_ : Int) :=
    Int.emod_nonneg _ (by exact_mod_cast (Nat.pos_iff_ne_zero.mp hpos))
  apply Int.ofNat.inj
  show ((((key % 2 ^ 64).toNat % t.capacity_ : Nat)) : Int) =
    (((key % (t.capacity_ : Int)).toNat : Nat) : Int)
  rw [Int.toNat_of_nonneg hc, Int.natCast_mod, Int.toNat_of_nonneg h0,
    Int.emod_emod_of_dvd _ hd']

theorem probe_linear {t : HashTable} (hd : t.capacity_ ∣ 2 ^ 64)
    (hm : t.method_ = ProbingMethod.LINEAR) (key : Int) (a : Nat) :
    t.probe key a = (t.hash1 key + a) % t.capacity_ := by
  unfold HashTable.probe; rw [hm]; exact linearProbe_eq hd key a

theorem probe_quadratic {t : HashTable} (hd : t.capacity_ ∣ 2 ^ 64)
    (hm : t.method_ = ProbingMethod.QUADRATIC) (key : Int) (a : Nat) :
    t.probe key a = (t.hash1 key + a ^ 2) % t.capacity_ := by
  unfold HashTable.probe; rw [hm]; exact quadraticProbe_eq hd key a

theorem probe_double {t : HashTable} (hd : t.capacity_ ∣ 2 ^ 64)
    (hm : t.method_ = ProbingMethod.DOUBLE_HASHING) (key : Int) (a : Nat) :
    t.probe key a = (t.hash1 key + a * t.hash2 key) % t.capacity_ := by
  unfold HashTable.probe; rw [hm]; exact doubleHash_eq hd key a

/-- The LINEAR walk visits no slot twice. -/
theorem probe_linear_injective {t : HashTable} (hd : t.capacity_ ∣ 2 ^ 64)
    (hm : t.method_ = ProbingMethod.LINEAR) (key : Int) {a b : Nat}
    (ha : a < t.capacity_) (hb : b < t.capacity_) (h : t.probe key a = t.probe key b) :
    a = b := by
  rw [probe_linear hd hm, probe_linear hd hm] at h
  have h' : a ≡ b [MOD t.capacity_] := Nat.ModEq.add_left_cancel' (t.hash1 key) h
  have := h'
  unfold Nat.ModEq at this
  rwa [Nat.mod_eq_of_lt ha, Nat.mod_eq_of_lt hb] at this

/-- The DOUBLE_HASHING walk of a key with an odd step visits no slot twice. -/
theorem probe_double_injective {t : HashTable} {n : Nat} (hc : t.capacity_ = 16 * 2 ^ n)
    (hfit : t.capacity_ < 2 ^ 64) (hm : t.method_ = ProbingMethod.DOUBLE_HASHING) (key : Int)
    (hodd : t.hash2 key % 2 = 1) {a b : Nat}
    (ha : a < t.capacity_) (hb : b < t.capacity_) (h : t.probe key a = t.probe key b) :
    a = b := by
  have hd := capacity_dvd hc hfit
  rw [probe_double hd hm, probe_double hd hm] at h
  have h' : a * t.hash2 key ≡ b * t.hash2 key [MOD t.capacity_] :=
    Nat.ModEq.add_left_cancel' (t.hash1 key) h
  have h16 : (16 : Nat) = 2 ^ 4 := by norm_num
  have hpow : t.capacity_ = 2 ^ (n + 4) := by rw [hc, h16, ← pow_add, Nat.add_comm]
  have hcop : Nat.gcd t.capacity_ (t.hash2 key) = 1 := by
    rw [hpow]
    exact Nat.Coprime.pow_left _ (Nat.coprime_two_left.mpr (Nat.odd_iff.mpr hodd))
  have := Nat.ModEq.cancel_right_of_coprime hcop h'
  unfold Nat.ModEq at this
  rwa [Nat.mod_eq_of_lt ha, Nat.mod_eq_of_lt hb] at this

/-- C16 (as stated, refuted): in the fresh table (capacity 16) under QUADRATIC the
walk of key 0 visits slot 0 at attempts 0 and 4, and under DOUBLE_HASHING the
walk of key 7 visits slot 7 at attempts 0 and 2. -/
theorem c16_walk_revisits_slot :
    ((HashTable.new.set_probing_method ProbingMethod.QUADRATIC).probe 0 0 = 0 ∧
      (HashTable.new.set_probing_method ProbingMethod.QUADRATIC).probe 0 4 = 0) ∧
    ((HashTable.new.set_probing_method ProbingMethod.DOUBLE_HASHING).probe 7 0 = 7 ∧
      (HashTable.new.set_probing_method ProbingMethod.DOUBLE_HASHING).probe 7 2 = 7) := by
  decide

/-- C16 (amended): for every capacity `16 * 2^n` that fits a `size_t` and every
key, the indices `probe(key, 0), ..., probe(key, capacity - 1)` are pairwise
distinct under LINEAR, and under DOUBLE_HASHING when the step `hash2(key)` is odd. -/
theorem c16_walk_distinct (t : HashTable) (n : Nat) (key : Int) (a b : Nat)
    (hc : t.capacity_ = 16 * 2 ^ n) (hfit : t.capacity_ < 2 ^ 64)
    (hm : t.method_ = ProbingMethod.LINEAR ∨
      (t.method_ = ProbingMethod.DOUBLE_HASHING ∧ t.hash2 key % 2 = 1))
    (ha : a < t.capacity_) (hb : b < t.capacity_) (h : t.probe key a = t.probe key b) :
    a = b := by
  rcases hm with hm | ⟨hm, hodd⟩
  · exact probe_linear_injective (capacity_dvd hc hfit) hm key ha hb h
  · exact probe_double_injective hc hfit hm key hodd ha hb h

/-- An instance of `c16_walk_distinct`: the default strategy, capacity 16, key 2
(step 3), attempts 5 and 5. -/
theorem c16_walk_distinct_witness :
    HashTable.new.capacity_ = 16 * 2 ^ 0 ∧ HashTable.new.capacity_ < 2 ^ 64 ∧
      (HashTable.new.method_ = ProbingMethod.LINEAR ∨
        (HashTable.new.method_ = ProbingMethod.DOUBLE_HASHING ∧
          HashTable.new.hash2 2 % 2 = 1)) ∧
      5 < HashTable.new.capacity_ ∧ HashTable.new.probe 2 5 = HashTable.new.probe 2 5 ∧
      5 = 5 :=
  ⟨by decide, by decide, Or.inr ⟨rfl, by decide⟩, by decide, rfl,
    c16_walk_distinct HashTable.new 0 2 5 5 (by decide) (by decide)
      (Or.inr ⟨rfl, by decide⟩) (by decide) (by decide) rfl⟩

/-- C17: for every capacity `16 * 2^n` that fits a `size_t`, every key (negative
keys included) and every attempt, `probe(key, attempt)` is below the capacity,
`hash1(key)` is the non-negative remainder of `key` modulo the capacity, LINEAR
yields `(h1 + attempt) mod capacity` and QUADRATIC yields
`(h1 + attempt^2) mod capacity`. -/
theorem c17_probe_in_range (t : HashTable) (n : Nat) (key : Int) (attempt : Nat)
    (hc : t.capacity_ = 16 * 2 ^ n) (hfit : t.capacity_ < 2 ^ 64) :
    t.probe key attempt < t.capacity_ ∧
      t.hash1 key = (key % (t.capacity_ : Int)).toNat ∧
      (t.method_ = ProbingMethod.LINEAR →
        t.probe key attempt = (t.hash1 key + attempt) % t.capacity_) ∧
      (t.method_ = ProbingMethod.QUADRATIC →
        t.probe key attempt = (t.hash1 key + attempt ^ 2) % t.capacity_) := by
  have hd := capacity_dvd hc hfit
  have hpos : 0 < t.capacity_ := by have := capacity_big hc; omega
  refine ⟨?_, hash1_eq hd hpos key, fun hm => probe_linear hd hm key attempt,
    fun hm => probe_quadratic hd hm key attempt⟩
  unfold HashTable.probe
  cases t.method_ <;>
    simp only [HashTable.doubleHash, HashTable.linearProbe, HashTable.quadraticProbe] <;>
    exact Nat.mod_lt _ hpos

/-- An instance of `c17_probe_in_range`: `stateEight`, the negative key -5, attempt 3. -/
theorem c17_probe_in_range_witness :
    stateEight.capacity_ = 16 * 2 ^ 0 ∧ stateEight.capacity_ < 2 ^ 64 ∧
      (stateEight.probe (-5) 3 < stateEight.capacity_ ∧
        stateEight.hash1 (-5) = ((-5 : Int) % (stateEight.capacity_ : Int)).toNat ∧
        (stateEight.method_ = ProbingMethod.LINEAR →
          stateEight.probe (-5) 3 = (stateEight.hash1 (-5) + 3) % stateEight.capacity_) ∧
        (stateEight.method_ = ProbingMethod.QUADRATIC →
          stateEight.probe (-5) 3 = (stateEight.hash1 (-5) + 3 ^ 2) % stateEight.capacity_)) :=
  ⟨by decide, by decide, c17_probe_in_range stateEight 0 (-5) 3 (by decide) (by decide)⟩

/-- C18 (as stated, refuted): in the fresh table (capacity 16) `hash2(-1)` is 1,
because `static_cast<size_t>(-1)` is `2^64 - 1`, a multiple of 15, while
`1 + (-1 mod 15)` with the non-negative remainder is 15. -/
theorem c18_hash2_negative_key :
    HashTable.new.hash2 (-1) = 1 ∧
      1 + ((-1 : Int) % ((HashTable.new.capacity_ : Int) - 1)).toNat = 15 := by
  decide

/-- C18 (amended): for every capacity `16 * 2^n` that fits a `size_t` and every
key, `hash2(key) = 1 + ((key mod 2^64) mod (capacity - 1))`, which for a
non-negative key below `2^64` is `1 + (key mod (capacity - 1))`; under
DOUBLE_HASHING `probe(key, attempt) = (h1(key) + attempt * h2(key)) mod capacity`;
and `1 <= h2(key) <= capacity - 1`. -/
theorem c18_double_hash_step (t : HashTable) (n : Nat) (key : Int) (attempt : Nat)
    (hc : t.capacity_ = 16 * 2 ^ n) (hfit : t.capacity_ < 2 ^ 64) :
    t.hash2 key = 1 + (key % 2 ^ 64).toNat % (t.capacity_ - 1) ∧
      (0 ≤ key → key < 2 ^ 64 →
        t.hash2 key = 1 + (key % ((t.capacity_ : Int) - 1)).toNat) ∧
      (t.method_ = ProbingMethod.DOUBLE_HASHING →
        t.probe key attempt = (t.hash1 key + attempt * t.hash2 key) % t.capacity_) ∧
      1 ≤ t.hash2 key ∧ t.hash2 key ≤ t.capacity_ - 1 := by
  have hd := capacity_dvd hc hfit
  have hbig := capacity_big hc
  have h2 := hash2_eq hbig hfit key
  have hlt : toSizeT key % (t.capacity_ - 1) < t.capacity_ - 1 := Nat.mod_lt _ (by omega)
  refine ⟨h2, fun h0 h1 => ?_, fun hm => probe_double hd hm key attempt, by omega, by omega⟩
  rw [h2, toSizeT_nonneg h0 h1]
  congr 1
  have hcast : ((t.capacity_ : Int) - 1) = ((t.capacity_ - 1 : Nat) : Int) := by
    rw [Nat.cast_sub (by omega)]; simp
  apply Int.ofNat.inj
  show ((key.toNat % (t.capacity_ - 1) : Nat) : Int) =
    (((key % ((t.capacity_ : Int) - 1)).toNat : Nat) : Int)
  rw [hcast, Int.toNat_of_nonneg (Int.emod_nonneg _ (by
    have : (0 : Int) < ((t.capacity_ - 1 : Nat) : Int) := by exact_mod_cast (by omega : 0 < t.capacity_ - 1)
    omega)), Int.natCast_mod, Int.toNat_of_nonneg h0]

/-- An instance of `c18_double_hash_step`: the fresh table, key 7, attempt 1. -/
theorem c18_double_hash_step_witness :
    HashTable.new.capacity_ = 16 * 2 ^ 0 ∧ HashTable.new.capacity_ < 2 ^ 64 ∧
      (HashTable.new.hash2 7 = 1 + ((7 : Int) % 2 ^ 64).toNat % (HashTable.new.capacity_ - 1) ∧
        ((0 : Int) ≤ 7 → (7 : Int) < 2 ^ 64 →
          HashTable.new.hash2 7 = 1 + ((7 : Int) % ((HashTable.new.capacity_ : Int) - 1)).toNat) ∧
        (HashTable.new.method_ = ProbingMethod.DOUBLE_HASHING →
          HashTable.new.probe 7 1 =
            (HashTable.new.hash1 7 + 1 * HashTable.new.hash2 7) % HashTable.new.capacity_) ∧
        1 ≤ HashTable.new.hash2 7 ∧ HashTable.new.hash2 7 ≤ HashTable.new.capacity_ - 1) :=
  ⟨by decide, by decide, c18_double_hash_step HashTable.new 0 7 1 (by decide) (by decide)⟩

/-! ## Capacity -/

theorem growIfNeeded_capacity (t : HashTable) :
    t.growIfNeeded.capacity_ = if t.needsRehash = true then t.capacity_ * 2 else t.capacity_ := by
  unfold HashTable.growIfNeeded
  split
  · exact rehash_capacity t
  · rfl

theorem insert_capacity (t : HashTable) (k : Int) (v : String) :
    (t.insert k v).2.capacity_ = t.growIfNeeded.capacity_ := by
  rcases Nat.lt_or_ge (t.growIfNeeded.findSlotConst k) t.growIfNeeded.capacity_ with h1 | h1
  · cases h2 : (nodeAt t.growIfNeeded.table_ (t.growIfNeeded.findSlotConst k)).live with
    | true => rw [insert_dup t k v h1 h2]; rfl
    | false => rw [insert_place t k v h1 h2]; rfl
  · rw [insert_exhaust t k v h1]; rfl

theorem upsert_capacity (t : HashTable) (k : Int) (v : String) :
    (t.upsert k v).capacity_ = t.growIfNeeded.capacity_ := by
  rcases Nat.lt_or_ge (t.growIfNeeded.findSlotConst k) t.growIfNeeded.capacity_ with h1 | h1
  · cases h2 : (nodeAt t.growIfNeeded.table_ (t.growIfNeeded.findSlotConst k)).live with
    | true => rw [upsert_overwrite t k v h1 h2]; rfl
    | false => rw [upsert_place t k v h1 h2]; rfl
  · rw [upsert_exhaust t k v h1]; rfl

theorem erase_capacity (t : HashTable) (k : Int) : (t.erase k).2.capacity_ = t.capacity_ := by
  rcases Nat.lt_or_ge (t.findSlotConst k) t.capacity_ with h1 | h1
  · cases h2 : (nodeAt t.table_ (t.findSlotConst k)).live with
    | true => rw [erase_live t k h1 h2]; rfl
    | false => rw [erase_absent t k h1 h2]; rfl
  · rw [erase_exhaust t k h1]; rfl

theorem growIfNeeded_pow {t : HashTable} (h : ∃ n, t.capacity_ = 16 * 2 ^ n) :
    ∃ n, t.growIfNeeded.capacity_ = 16 * 2 ^ n := by
  obtain ⟨n, hn⟩ := h
  rw [growIfNeeded_capacity]
  split
  · exact ⟨n + 1, by rw [hn, pow_succ]; ring⟩
  · exact ⟨n, hn⟩

/-- The capacity of every reachable state is `16 * 2^n`. -/
theorem ReachableAny.capacity_pow {t : HashTable} (h : ReachableAny t) :
    ∃ n, t.capacity_ = 16 * 2 ^ n := by
  induction h with
  | fresh => exact ⟨0, rfl⟩
  | set_probing_method m _ ih => exact ih
  | insert k v _ ih => rw [insert_capacity]; exact growIfNeeded_pow ih
  | upsert k v _ ih => rw [upsert_capacity]; exact growIfNeeded_pow ih
  | erase k _ ih => rw [erase_capacity]; exact ih
  | reset _ ih => exact ih

/-! ## The LINEAR strategy without `erase` -/

theorem ReachableNoErase.reachable {t : HashTable} (h : ReachableNoErase t) : Reachable t := by
  induction h with
  | fresh => exact Reachable.fresh
  | configured m => exact Reachable.configured m
  | insert k v _ ih => exact Reachable.insert k v ih
  | upsert k v _ ih => exact Reachable.upsert k v ih
  | reset _ ih => exact Reachable.reset ih

theorem NoTomb_growIfNeeded {t : HashTable} (h : t.FInv) (hn : t.NoTomb) :
    t.growIfNeeded.NoTomb := by
  unfold HashTable.growIfNeeded
  split
  · exact (rehash_inv h).noTomb
  · exact hn

theorem NoTomb_set {t t' : HashTable} (hwf : t.WF) (hn : t.NoTomb)
    {idx : Nat} {n' : HashNode} (htab : t'.table_ = t.table_.set idx n')
    (hidx : idx < t.capacity_) (hnew : n'.deleted = false) : t'.NoTomb := by
  intro i hi
  by_cases hii : i = idx
  · rw [hii, nodeAt_set_self hwf htab hidx]; exact hnew
  · rw [nodeAt_set_other htab hii] at hi ⊢
    exact hn i hi

theorem NoTomb_insert {t : HashTable} (h : t.FInv) (hn : t.NoTomb) (k : Int) (v : String) :
    (t.insert k v).2.NoTomb := by
  have hg := FInv_growIfNeeded h
  have hgn := NoTomb_growIfNeeded h hn
  rcases Nat.lt_or_ge (t.growIfNeeded.findSlotConst k) t.growIfNeeded.capacity_ with h1 | h1
  · cases h2 : (nodeAt t.growIfNeeded.table_ (t.growIfNeeded.findSlotConst k)).live with
    | true => rw [insert_dup t k v h1 h2]; exact hgn
    | false =>
      rw [insert_place t k v h1 h2]
      exact NoTomb_set hg.ginv.wf hgn rfl h1 rfl
  · rw [insert_exhaust t k v h1]; exact hgn

theorem NoTomb_upsert {t : HashTable} (h : t.FInv) (hn : t.NoTomb) (k : Int) (v : String) :
    (t.upsert k v).NoTomb := by
  have hg := FInv_growIfNeeded h
  have hgn := NoTomb_growIfNeeded h hn
  rcases Nat.lt_or_ge (t.growIfNeeded.findSlotConst k) t.growIfNeeded.capacity_ with h1 | h1
  · cases h2 : (nodeAt t.growIfNeeded.table_ (t.growIfNeeded.findSlotConst k)).live with
    | true =>
      rw [upsert_overwrite t k v h1 h2]
      refine NoTomb_set hg.ginv.wf hgn rfl h1 ?_
      exact hgn _ (live_imp_occupied h2)
    | false =>
      rw [upsert_place t k v h1 h2]
      exact NoTomb_set hg.ginv.wf hgn rfl h1 rfl
  · rw [upsert_exhaust t k v h1]; exact hgn

theorem reachableNoErase_insertAll {t : HashTable} (h : ReachableNoErase t)
    (kvs : List (Int × String)) : ReachableNoErase (insertAll t kvs) := by
  induction kvs generalizing t with
  | nil => exact h
  | cons kv rest ih => exact ih (ReachableNoErase.insert kv.1 kv.2 h)

/-- Without `erase` no slot ever becomes a TOMBSTONE. -/
theorem ReachableNoErase.noTomb {t : HashTable} (h : ReachableNoErase t) : t.NoTomb := by
  induction h with
  | fresh => intro i hi; rw [show nodeAt HashTable.new.table_ i = HashNode.empty from
      nodeAt_replicate _ i] at hi; cases hi
  | configured m => intro i hi; rw [show nodeAt (HashTable.new.set_probing_method m).table_ i =
      HashNode.empty from nodeAt_replicate _ i] at hi; cases hi
  | insert k v hr ih => exact NoTomb_insert hr.reachable.finv ih k v
  | upsert k v hr ih => exact NoTomb_upsert hr.reachable.finv ih k v
  | reset _ ih => exact ih

theorem le_half_of_dvd {c : Nat} (hd : c ∣ 2 ^ 64) (hfit : c < 2 ^ 64) : c ≤ 2 ^ 63 := by
  obtain ⟨q, hq⟩ := hd
  have hq2 : 2 ≤ q := by
    rcases q with _ | _ | q
    · simp at hq
    · omega
    · omega
  have : c * 2 ≤ c * q := Nat.mul_le_mul_left c hq2
  omega

/-- In a LINEAR table without tombstones that satisfies the invariant, every
walk finds a slot. -/
theorem linear_locates {g : HashTable} (h : g.FInv) (hn : g.NoTomb)
    (hm : g.method_ = ProbingMethod.LINEAR) (hd : g.capacity_ ∣ 2 ^ 64)
    (hfit : g.capacity_ < 2 ^ 64) (k : Int) : g.findSlotConst k < g.capacity_ := by
  rcases findSlotConst_cases g k with ⟨a, _, h2⟩ | ⟨h1, _⟩
  · rw [h2]; exact probe_lt g h.ginv.wf k a
  · exfalso
    have hb : g.Blocked k := by
      intro a ha
      exact not_stopsAt_occupied (firstHit_none h1 a (Nat.zero_le a) (by omega))
    have hfull := blocked_linear_full h.ginv.wf hn hm (le_half_of_dvd hd hfit) hb
    have h1 := h.ginv.sizeOk
    have h2 := h.ginv.load
    have h3 := h.ginv.big
    omega

/-- A table without tombstones that satisfies the general invariant has an
EMPTY slot. -/
theorem hasEmpty_of_noTomb {g : HashTable} (h : g.GInv) (hn : g.NoTomb) : g.HasEmpty := by
  by_contra hc
  have hall : ∀ i, i < g.table_.length → (nodeAt g.table_ i).live = true := by
    intro i hi
    have ho : (nodeAt g.table_ i).occupied = true := by
      cases ho : (nodeAt g.table_ i).occupied with
      | true => rfl
      | false => exact absurd ⟨i, by rw [h.wf.1]; exact hi, ho⟩ hc
    simp [HashNode.live, ho, hn i ho]
  have h1 := liveCount_eq_length g.table_ hall
  have h2 := h.sizeOk
  have h3 := h.load
  have h4 := h.big
  have h5 := h.wf.1
  omega

/-- Under the LINEAR strategy the slot location of a key finds a slot exactly
when some slot is EMPTY or the key is held by a LIVE slot. -/
theorem linear_locates_iff {g : HashTable} (h : g.FInv) (hm : g.method_ = ProbingMethod.LINEAR)
    (hcap : g.capacity_ ≤ 2 ^ 63) (k : Int) :
    g.findSlotConst k < g.capacity_ ↔ g.HasEmpty ∨ g.find k ≠ none := by
  have hfind : g.find k ≠ none ↔ g.HasLive k := by
    rw [Ne, find_eq_none_iff_not_hasLive h k, not_not]
  rw [hfind]
  constructor
  · intro h1
    cases h2 : (nodeAt g.table_ (g.findSlotConst k)).live with
    | true => exact Or.inr (hasLive_of_located h1 h2)
    | false => exact Or.inl ⟨_, h1, (located_empty h1 h2).1⟩
  · rintro (⟨i, hi, he⟩ | hl)
    · rcases findSlotConst_cases g k with ⟨a, _, h2⟩ | ⟨h1, _⟩
      · rw [h2]; exact probe_lt g h.ginv.wf k a
      · exfalso
        obtain ⟨a, ha, hpa⟩ := linear_surjective h.ginv.wf hm hcap k i hi
        have := not_stopsAt_occupied (firstHit_none h1 a (Nat.zero_le a) (by omega))
        rw [show g.probe k a = i from hpa, he] at this
        cases this
    · exact (located_of_hasLive h hl).1

/-- After `upsert(k, v)` the key is found with `v` exactly when the slot location
of the call, run after the growth check, found a slot. -/
theorem upsert_find_iff {t : HashTable} (h : t.FInv) (k : Int) (v : String) :
    (t.upsert k v).find k = some v ↔
      t.growIfNeeded.findSlotConst k < t.growIfNeeded.capacity_ := by
  rcases Nat.lt_or_ge (t.growIfNeeded.findSlotConst k) t.growIfNeeded.capacity_ with h1 | h1
  · cases h2 : (nodeAt t.growIfNeeded.table_ (t.growIfNeeded.findSlotConst k)).live with
    | true => exact ⟨fun _ => h1, fun _ => (upsert_overwrite_find h h1 h2).1⟩
    | false => exact ⟨fun _ => h1, fun _ => (upsert_place_find h h1 h2).1⟩
  · rw [upsert_exhaust t k v h1, findSlot_snd_find,
      (find_eq_none_iff _ k).mpr (fun hc => absurd hc.1 (by omega))]
    exact ⟨fun hh => (by cases hh), fun hh => (by omega)⟩

/-- C15 (as stated, refuted): in the reachable state `stateTombs` (LINEAR, keys
0 to 15 inserted and erased one after the other) the size is 0 and every slot
is a TOMBSTONE; the slot location of key 16 returns the capacity ("no slot"),
`insert(16, "x")` returns false although 16 is absent, and `upsert(16, "x")`
does nothing. -/
theorem c15_probe_exhaustion_reached :
    Reachable stateTombs ∧ stateTombs.method_ = ProbingMethod.LINEAR ∧ stateTombs.size = 0 ∧
      stateTombs.findSlotConst 16 = stateTombs.capacity_ ∧
      (stateTombs.findSlot 16).1 = stateTombs.capacity_ ∧
      stateTombs.find 16 = none ∧ (stateTombs.insert 16 "x").1 = false ∧
      (stateTombs.upsert 16 "x").find 16 = none :=
  ⟨reachable_insertEraseAll (Reachable.configured _) _, by decide, by decide, by decide,
    by decide, by decide, by decide, by decide⟩

/-- C15 (amended): in every state reachable from a fresh table under the LINEAR
strategy (set before the first insertion) by `insert`, `upsert` and `erase`
calls, with the doubled capacity fitting a `size_t`, and for every key `k`: the
slot location of `k` returns an index below the capacity exactly when some slot
of the table is EMPTY or `k` is present; run after the growth check of `insert`
and `upsert`, it does so exactly when the call triggers growth or some slot is
EMPTY or `k` is present. So `insert` of an absent key returns true exactly when
the call triggers growth or some slot is EMPTY, and after `upsert(k, v)` the key
is found with `v` exactly when the call triggers growth or some slot is EMPTY
or `k` was present. A state reached without `erase` has an EMPTY slot. -/
theorem c15_linear_no_exhaustion (t : HashTable) (k : Int) (hr : Reachable t)
    (hm : t.method_ = ProbingMethod.LINEAR) (hfit : 2 * t.capacity_ < 2 ^ 64) :
    ((t.findSlot k).1 < t.capacity_ ↔ t.HasEmpty ∨ t.find k ≠ none) ∧
      (t.findSlotConst k < t.capacity_ ↔ t.HasEmpty ∨ t.find k ≠ none) ∧
      ((t.growIfNeeded.findSlot k).1 < t.growIfNeeded.capacity_ ↔
        t.needsRehash = true ∨ t.HasEmpty ∨ t.find k ≠ none) ∧
      (∀ v, t.find k = none →
        ((t.insert k v).1 = true ↔ t.needsRehash = true ∨ t.HasEmpty)) ∧
      (∀ v, (t.upsert k v).find k = some v ↔
        t.needsRehash = true ∨ t.HasEmpty ∨ t.find k ≠ none) ∧
      (ReachableNoErase t → t.HasEmpty) := by
  have h := hr.finv
  obtain ⟨n, hcn⟩ := hr.any.capacity_pow
  have hcap : t.capacity_ ≤ 2 ^ 63 := le_half_of_dvd (capacity_dvd hcn (by omega)) (by omega)
  have hloc := linear_locates_iff h hm hcap k
  have hgloc : t.growIfNeeded.findSlotConst k < t.growIfNeeded.capacity_ ↔
      t.needsRehash = true ∨ t.HasEmpty ∨ t.find k ≠ none := by
    cases hn : t.needsRehash with
    | true =>
      have hg := FInv_rehash h
      have hc2 := rehash_capacity t
      have hd : t.rehash.capacity_ ∣ 2 ^ 64 :=
        capacity_dvd (show t.rehash.capacity_ = 16 * 2 ^ (n + 1) by rw [hc2, hcn, pow_succ]; ring)
          (by omega)
      rw [growIfNeeded_eq_rehash hn]
      exact ⟨fun _ => Or.inl rfl, fun _ =>
        linear_locates hg (rehash_inv h).noTomb (by rw [rehash_method]; exact hm) hd (by omega) k⟩
    | false =>
      rw [growIfNeeded_eq_self hn, hloc]
      exact ⟨fun hh => Or.inr hh, fun hh => hh.resolve_left (by simp)⟩
  refine ⟨by rw [findSlot_fst]; exact hloc, hloc, by rw [findSlot_fst]; exact hgloc, ?_, ?_,
    fun hne => hasEmpty_of_noTomb h.ginv hne.noTomb⟩
  · intro v habs
    have hnl := (find_eq_none_iff_not_hasLive h k).mp habs
    rw [(insert_absent_outcome h v hnl).1, findSlot_fst, hgloc]
    constructor
    · rintro (h1 | h1 | h1)
      · exact Or.inl h1
      · exact Or.inr h1
      · exact absurd habs h1
    · rintro (h1 | h1)
      · exact Or.inl h1
      · exact Or.inr (Or.inl h1)
  · intro v
    rw [upsert_find_iff h k v, hgloc]

/-- An instance of `c15_linear_no_exhaustion`: the state after `erase(3)` on
`stateEight`, which holds a TOMBSTONE, and key 19, whose walk starts at it. -/
theorem c15_linear_no_exhaustion_witness :
    Reachable (stateEight.erase 3).2 ∧ (stateEight.erase 3).2.method_ = ProbingMethod.LINEAR ∧
      2 * (stateEight.erase 3).2.capacity_ < 2 ^ 64 ∧
      ((((stateEight.erase 3).2.findSlot 19).1 < (stateEight.erase 3).2.capacity_ ↔
          (stateEight.erase 3).2.HasEmpty ∨ (stateEight.erase 3).2.find 19 ≠ none) ∧
        ((stateEight.erase 3).2.findSlotConst 19 < (stateEight.erase 3).2.capacity_ ↔
          (stateEight.erase 3).2.HasEmpty ∨ (stateEight.erase 3).2.find 19 ≠ none) ∧
        (((stateEight.erase 3).2.growIfNeeded.findSlot 19).1 <
            (stateEight.erase 3).2.growIfNeeded.capacity_ ↔
          (stateEight.erase 3).2.needsRehash = true ∨ (stateEight.erase 3).2.HasEmpty ∨
            (stateEight.erase 3).2.find 19 ≠ none) ∧
        (∀ v, (stateEight.erase 3).2.find 19 = none →
          (((stateEight.erase 3).2.insert 19 v).1 = true ↔
            (stateEight.erase 3).2.needsRehash = true ∨ (stateEight.erase 3).2.HasEmpty)) ∧
        (∀ v, ((stateEight.erase 3).2.upsert 19 v).find 19 = some v ↔
          (stateEight.erase 3).2.needsRehash = true ∨ (stateEight.erase 3).2.HasEmpty ∨
            (stateEight.erase 3).2.find 19 ≠ none) ∧
        (ReachableNoErase (stateEight.erase 3).2 → (stateEight.erase 3).2.HasEmpty)) :=
  ⟨Reachable.erase 3 (reachable_insertAll (Reachable.configured _) _), by decide, by decide,
    c15_linear_no_exhaustion (stateEight.erase 3).2 19
      (Reachable.erase 3 (reachable_insertAll (Reachable.configured _) _)) (by decide)
      (by decide)⟩

/-! ## The collision counter -/

/-- The collision test of the code is the rule of the specification. -/
theorem collidesAt_eq (t : HashTable) (key : Int) (a : Nat) :
    collidesAt (nodeAt t.table_ (t.probe key a)) key a = t.countsAsCollision key a := by
  unfold collidesAt HashTable.countsAsCollision HashNode.live
  cases (nodeAt t.table_ (t.probe key a)).occupied <;>
    cases (nodeAt t.table_ (t.probe key a)).deleted <;>
    by_cases ha : 1 ≤ a <;>
    by_cases hk : (nodeAt t.table_ (t.probe key a)).key = key <;>
    simp [ha, hk, Nat.lt_iff_add_one_le]

/-- The counter after the loop of the counting `findSlot`: one increment per
attempt that counts as a collision, from the entry attempt up to the stopping
attempt, or over all the iterations when the walk does not stop. -/
theorem findSlotLoop_snd (t : HashTable) (key : Int) (fuel a cc : Nat) :
    (t.findSlotLoop key fuel a cc).2 =
      cc + (List.range' a
        (match firstHit (t.stopFn key) fuel a with
          | some s => s - a + 1
          | none => fuel)).countP (t.countsAsCollision key) := by
  induction fuel generalizing a cc with
  | zero => simp [HashTable.findSlotLoop, firstHit]
  | succ n ih =>
    unfold HashTable.findSlotLoop firstHit
    by_cases hs : t.stopFn key a = true
    · have hs' : stopsAt (nodeAt t.table_ (t.probe key a)) key = true := hs
      simp only [hs, hs', if_true, Nat.sub_self, Nat.zero_add, List.range'_one,
        List.countP_singleton, collidesAt_eq]
      split <;> simp_all
    · have hs' : ¬ stopsAt (nodeAt t.table_ (t.probe key a)) key = true := hs
      simp only [hs, hs', if_false, collidesAt_eq, Bool.false_eq_true, ↓reduceIte]
      rw [ih]
      cases hf : firstHit (t.stopFn key) n (a + 1) with
      | none =>
        simp only [List.range'_succ, List.countP_cons]
        split <;> omega
      | some s =>
        have hle := (firstHit_some hf).1
        have e : List.range' a (s - a + 1) = a :: List.range' (a + 1) (s - (a + 1) + 1) := by
          rw [show s - a + 1 = (s - (a + 1) + 1) + 1 by omega, List.range'_succ]
        simp only
        rw [e, List.countP_cons]
        split <;> omega

theorem findSlot_collision_count (t : HashTable) (key : Int) :
    (t.findSlot key).2.collision_count_ =
      t.collision_count_ + t.collisionsUpTo key (t.lastAttempt key) := by
  rw [findSlot_snd]
  show (t.findSlotLoop key t.capacity_ 0 t.collision_count_).2 = _
  rw [findSlotLoop_snd]
  unfold HashTable.collisionsUpTo HashTable.lastAttempt
  rw [List.range_eq_range']
  cases hf : firstHit (t.stopFn key) t.capacity_ 0 with
  | some s => simp
  | none =>
    simp only
    rcases Nat.eq_zero_or_pos t.capacity_ with h0 | hpos
    · rw [h0]
      simp [HashTable.countsAsCollision]
    · rw [show t.capacity_ - 1 + 1 = t.capacity_ by omega]

theorem insert_collision_count (t : HashTable) (k : Int) (v : String) :
    (t.insert k v).2.collision_count_ = (t.growIfNeeded.findSlot k).2.collision_count_ := by
  rcases Nat.lt_or_ge (t.growIfNeeded.findSlotConst k) t.growIfNeeded.capacity_ with h1 | h1
  · cases h2 : (nodeAt t.growIfNeeded.table_ (t.growIfNeeded.findSlotConst k)).live with
    | true => rw [insert_dup t k v h1 h2]
    | false => rw [insert_place t k v h1 h2]
  · rw [insert_exhaust t k v h1]

theorem upsert_collision_count (t : HashTable) (k : Int) (v : String) :
    (t.upsert k v).collision_count_ = (t.growIfNeeded.findSlot k).2.collision_count_ := by
  rcases Nat.lt_or_ge (t.growIfNeeded.findSlotConst k) t.growIfNeeded.capacity_ with h1 | h1
  · cases h2 : (nodeAt t.growIfNeeded.table_ (t.growIfNeeded.findSlotConst k)).live with
    | true => rw [upsert_overwrite t k v h1 h2]
    | false => rw [upsert_place t k v h1 h2]
  · rw [upsert_exhaust t k v h1]

theorem erase_collision_count (t : HashTable) (k : Int) :
    (t.erase k).2.collision_count_ = (t.findSlot k).2.collision_count_ := by
  rcases Nat.lt_or_ge (t.findSlotConst k) t.capacity_ with h1 | h1
  · cases h2 : (nodeAt t.table_ (t.findSlotConst k)).live with
    | true => rw [erase_live t k h1 h2]
    | false => rw [erase_absent t k h1 h2]
  · rw [erase_exhaust t k h1]

/-- C19: for every table state and key, one run of the counting slot location
raises `collision_count` by exactly the number of attempts `a >= 1`, up to and
including the attempt at which the walk stops (or `capacity - 1` on
exhaustion), whose probed slot is LIVE and holds another key, and changes
nothing else; attempt 0, a TOMBSTONE, an EMPTY slot and a slot holding the
searched key never count; `insert` and `upsert` (after the growth check) and
`erase` change the counter by one such run; growth leaves the counter as it
was (`find` and `contains` are `const` and return no table). -/
theorem c19_collision_counting (t : HashTable) (key : Int) :
    (t.findSlot key).2.collision_count =
        t.collision_count + t.collisionsUpTo key (t.lastAttempt key) ∧
      ((t.findSlot key).2.table_ = t.table_ ∧ (t.findSlot key).2.size_ = t.size_ ∧
        (t.findSlot key).2.capacity_ = t.capacity_ ∧ (t.findSlot key).2.method_ = t.method_) ∧
      t.countsAsCollision key 0 = false ∧
      (∀ a, (nodeAt t.table_ (t.probe key a)).deleted = true →
        t.countsAsCollision key a = false) ∧
      (∀ a, (nodeAt t.table_ (t.probe key a)).occupied = false →
        t.countsAsCollision key a = false) ∧
      (∀ a, (nodeAt t.table_ (t.probe key a)).key = key → t.countsAsCollision key a = false) ∧
      (∀ v, (t.insert key v).2.collision_count = (t.growIfNeeded.findSlot key).2.collision_count) ∧
      (∀ v, (t.upsert key v).collision_count = (t.growIfNeeded.findSlot key).2.collision_count) ∧
      (t.erase key).2.collision_count = (t.findSlot key).2.collision_count ∧
      t.rehash.collision_count = t.collision_count ∧
      t.growIfNeeded.collision_count = t.collision_count := by
  refine ⟨findSlot_collision_count t key, ⟨rfl, rfl, rfl, rfl⟩, ?_, ?_, ?_, ?_,
    fun v => insert_collision_count t key v, fun v => upsert_collision_count t key v,
    erase_collision_count t key, rehash_collision_count t, growIfNeeded_collision_count t⟩
  · simp [HashTable.countsAsCollision]
  · intro a ha; simp [HashTable.countsAsCollision, HashNode.live, ha]
  · intro a ha; simp [HashTable.countsAsCollision, HashNode.live, ha]
  · intro a ha; simp [HashTable.countsAsCollision, ha]

/-! ## When growth fires -/

theorem insert_size (t : HashTable) (k : Int) (v : String) :
    (t.insert k v).2.size_ = t.growIfNeeded.size_ + (if (t.insert k v).1 = true then 1 else 0) := by
  rcases Nat.lt_or_ge (t.growIfNeeded.findSlotConst k) t.growIfNeeded.capacity_ with h1 | h1
  · cases h2 : (nodeAt t.growIfNeeded.table_ (t.growIfNeeded.findSlotConst k)).live with
    | true => rw [insert_dup t k v h1 h2]; rfl
    | false => rw [insert_place t k v h1 h2]; rfl
  · rw [insert_exhaust t k v h1]; rfl

theorem needsRehash_iff (t : HashTable) :
    t.needsRehash = true ↔ 2 * (t.size_ + 1) > t.capacity_ := by
  simp [HashTable.needsRehash]

theorem reachableAny_runInserts {t : HashTable} (h : ReachableAny t)
    (ops : List (Int × String)) : ReachableAny (runInserts t ops).2 := by
  induction ops generalizing t with
  | nil => exact h
  | cons kv rest ih => exact ih (ReachableAny.insert kv.1 kv.2 h)

/-- While the size stays below 8 a table of capacity 16 does not grow: after
`ops` the capacity is 16, the size has grown by at most the number of calls,
and by exactly that number when every call returned true. -/
theorem runInserts_small (ops : List (Int × String)) :
    ∀ (t : HashTable), t.capacity_ = 16 → t.size_ + ops.length ≤ 8 →
      (runInserts t ops).2.capacity_ = 16 ∧
        (runInserts t ops).2.size_ ≤ t.size_ + ops.length ∧
        ((runInserts t ops).1 = List.replicate ops.length true →
          (runInserts t ops).2.size_ = t.size_ + ops.length) := by
  induction ops with
  | nil => intro t hc _; exact ⟨hc, Nat.le_refl _, fun _ => rfl⟩
  | cons kv rest ih =>
    intro t hc hs
    obtain ⟨k, v⟩ := kv
    simp only [List.length_cons] at hs
    have hno : t.needsRehash = false := by
      cases hn : t.needsRehash with
      | false => rfl
      | true => have := (needsRehash_iff t).mp hn; omega
    have hg := growIfNeeded_eq_self hno
    have hcap : (t.insert k v).2.capacity_ = 16 := by rw [insert_capacity, hg, hc]
    have hsize := insert_size t k v
    rw [hg] at hsize
    have hle : (t.insert k v).2.size_ ≤ t.size_ + 1 := by
      rw [hsize]; split <;> omega
    obtain ⟨i1, i2, i3⟩ := ih (t.insert k v).2 hcap (by omega)
    simp only [runInserts, List.length_cons, List.replicate_succ]
    refine ⟨i1, by omega, fun hall => ?_⟩
    rw [List.cons.injEq] at hall
    rw [i3 hall.2, hsize, hall.1]
    simp only [if_true]; omega

/-- An `insert` call on a state with the invariant leaves every other key as it was
when no growth fires: a key that is not LIVE before stays so unless it is the inserted one. -/
theorem not_hasLive_insert {t : HashTable} (h : t.FInv) {k k2 : Int} (v : String)
    (hne : k ≠ k2) (hn : ¬ t.HasLive k) : ¬ (t.insert k2 v).2.HasLive k := by
  intro hl
  obtain ⟨w, hw⟩ := (hasLive_iff_holds _ k).mp hl
  rcases holds_of_insert h hw with heq | hold
  · exact hne heq
  · exact hn ((hasLive_iff_holds _ k).mpr ⟨w, hold⟩)

/-- Under LINEAR and without `erase`, calls of `insert` with distinct keys that
are not yet LIVE all return true while the table has capacity 16 and the size
stays at most 8. -/
theorem runInserts_linear_all_true (ops : List (Int × String)) :
    ∀ (t : HashTable), ReachableNoErase t → t.method_ = ProbingMethod.LINEAR →
      t.capacity_ = 16 → t.size_ + ops.length ≤ 8 → (ops.map Prod.fst).Nodup →
      (∀ k, k ∈ ops.map Prod.fst → ¬ t.HasLive k) →
      (runInserts t ops).1 = List.replicate ops.length true := by
  induction ops with
  | nil => intro t _ _ _ _ _ _; rfl
  | cons kv rest ih =>
    intro t hr hm hc hs hnd hnl
    obtain ⟨k, v⟩ := kv
    simp only [List.length_cons] at hs
    simp only [List.map_cons, List.nodup_cons] at hnd
    have h := hr.reachable.finv
    have hno : t.needsRehash = false := by
      cases hn : t.needsRehash with
      | false => rfl
      | true => have := (needsRehash_iff t).mp hn; omega
    have hg := growIfNeeded_eq_self hno
    have hloc : t.findSlotConst k < t.capacity_ :=
      linear_locates h hr.noTomb hm (by rw [hc]; exact ⟨2 ^ 60, by norm_num⟩)
        (by rw [hc]; norm_num) k
    have hk : ¬ t.HasLive k := hnl k (by simp)
    have htrue : (t.insert k v).1 = true :=
      (insert_absent_outcome h v hk).1.mpr (by rw [findSlot_fst, hg]; exact hloc)
    have hcap : (t.insert k v).2.capacity_ = 16 := by rw [insert_capacity, hg, hc]
    have hsize := insert_size t k v
    rw [hg, htrue] at hsize
    simp only [if_true] at hsize
    have hmeth : (t.insert k v).2.method_ = ProbingMethod.LINEAR := by
      rcases Nat.lt_or_ge (t.growIfNeeded.findSlotConst k) t.growIfNeeded.capacity_ with h1 | h1
      · cases h2 : (nodeAt t.growIfNeeded.table_ (t.growIfNeeded.findSlotConst k)).live with
        | true => rw [insert_dup t k v h1 h2]; show t.growIfNeeded.method_ = _; rw [hg]; exact hm
        | false =>
          rw [insert_place t k v h1 h2]; show t.growIfNeeded.method_ = _; rw [hg]; exact hm
      · rw [insert_exhaust t k v h1]; show t.growIfNeeded.method_ = _; rw [hg]; exact hm
    have hrest := ih (t.insert k v).2 (ReachableNoErase.insert k v hr) hmeth hcap (by omega) hnd.2
      (fun k' hk' => not_hasLive_insert h v (by
        intro heq; rw [heq] at hk'; exact hnd.1 hk') (hnl k' (by simp [hk'])))
    simp only [runInserts, List.length_cons, List.replicate_succ, htrue, hrest]

/-- C20 (as stated, refuted): under the default strategy the nine distinct keys
of `opsNine` (7, 127, 247, 1, 2, 3, 4, 5, 6) leave a fresh table with capacity
16: the third call finds no slot and returns false, so the size is 7 when the
ninth call runs its growth check. -/
theorem c20_no_growth_at_ninth_insert :
    (opsNine.map Prod.fst).Nodup ∧
      (runInserts HashTable.new opsNine).1 =
        [true, true, false, true, true, true, true, true, true] ∧
      (runInserts HashTable.new opsNine).2.size = 8 ∧
      (runInserts HashTable.new opsNine).2.capacity = 16 := by
  decide

/-- C20 (amended): in every reachable state an `insert` or `upsert` call doubles
the capacity once when `2 * (size + 1) > capacity` holds at call time and leaves
it unchanged otherwise, and `erase` never changes it (`find` and `contains` are
`const`); the capacity is always `16 * 2^n`; a fresh table keeps capacity 16
through its first 8 `insert` calls, and has capacity 32 after the 9th whenever
the first 8 calls all returned true, as they do for distinct keys under LINEAR. -/
theorem c20_growth_timing (t : HashTable) (k : Int) (v : String) (hr : ReachableAny t) :
    (t.insert k v).2.capacity =
        (if 2 * (t.size + 1) > t.capacity then 2 * t.capacity else t.capacity) ∧
      (t.upsert k v).capacity =
        (if 2 * (t.size + 1) > t.capacity then 2 * t.capacity else t.capacity) ∧
      (t.erase k).2.capacity = t.capacity ∧
      (∃ n, t.capacity = 16 * 2 ^ n) ∧
      (∀ (m : ProbingMethod) (ops : List (Int × String)), ops.length ≤ 8 →
        (runInserts (HashTable.new.set_probing_method m) ops).2.capacity = 16) ∧
      (∀ (m : ProbingMethod) (ops : List (Int × String)) (k9 : Int) (v9 : String),
        ops.length = 8 →
        (runInserts (HashTable.new.set_probing_method m) ops).1 = List.replicate 8 true →
        ((runInserts (HashTable.new.set_probing_method m) ops).2.insert k9 v9).2.capacity = 32) ∧
      (∀ (ops : List (Int × String)) (k9 : Int) (v9 : String),
        ops.length = 8 → (ops.map Prod.fst).Nodup →
        (runInserts (HashTable.new.set_probing_method ProbingMethod.LINEAR) ops).1 =
            List.replicate 8 true ∧
          ((runInserts (HashTable.new.set_probing_method ProbingMethod.LINEAR)
            ops).2.insert k9 v9).2.capacity = 32) := by
  have cap_eq : ∀ {s : HashTable}, ReachableAny s → s.capacity = s.capacity_ :=
    fun hs => hs.ginv.wf.1.symm
  have hgrow : t.growIfNeeded.capacity_ =
      (if 2 * (t.size + 1) > t.capacity then 2 * t.capacity else t.capacity) := by
    rw [growIfNeeded_capacity, cap_eq hr]
    by_cases hn : 2 * (t.size_ + 1) > t.capacity_
    · rw [if_pos ((needsRehash_iff t).mpr hn), if_pos (show 2 * (t.size + 1) > _ from hn)]
      omega
    · rw [if_neg (fun hh => hn ((needsRehash_iff t).mp hh)),
        if_neg (show ¬ 2 * (t.size + 1) > _ from hn)]
  have nine : ∀ (m : ProbingMethod) (ops : List (Int × String)) (k9 : Int) (v9 : String),
      ops.length = 8 →
      (runInserts (HashTable.new.set_probing_method m) ops).1 = List.replicate 8 true →
      ((runInserts (HashTable.new.set_probing_method m) ops).2.insert k9 v9).2.capacity = 32 := by
    intro m ops k9 v9 hlen hall
    have hra := reachableAny_runInserts (ReachableAny.set_probing_method m ReachableAny.fresh) ops
    obtain ⟨i1, _, i3⟩ := runInserts_small ops (HashTable.new.set_probing_method m) rfl
      (by show 0 + ops.length ≤ 8; omega)
    have hsz := i3 (by rw [hlen]; exact hall)
    have hsz' : (runInserts (HashTable.new.set_probing_method m) ops).2.size_ = 8 := by
      rw [hsz, hlen]; rfl
    rw [cap_eq (ReachableAny.insert k9 v9 hra), insert_capacity, growIfNeeded_capacity,
      if_pos ((needsRehash_iff _).mpr (by rw [hsz', i1]; norm_num)), i1]
  refine ⟨?_, ?_, ?_, ?_, ?_, nine, ?_⟩
  · rw [cap_eq (ReachableAny.insert k v hr), insert_capacity]; exact hgrow
  · rw [cap_eq (ReachableAny.upsert k v hr), upsert_capacity]; exact hgrow
  · rw [cap_eq (ReachableAny.erase k hr), erase_capacity, cap_eq hr]
  · rw [cap_eq hr]; exact hr.capacity_pow
  · intro m ops hlen
    have hra := reachableAny_runInserts (ReachableAny.set_probing_method m ReachableAny.fresh) ops
    rw [cap_eq hra]
    exact (runInserts_small ops (HashTable.new.set_probing_method m) rfl
      (by show 0 + ops.length ≤ 8; omega)).1
  · intro ops k9 v9 hlen hnd
    have hall : (runInserts (HashTable.new.set_probing_method ProbingMethod.LINEAR) ops).1 =
        List.replicate 8 true := by
      rw [← hlen]
      apply runInserts_linear_all_true ops _ (ReachableNoErase.configured _) rfl rfl
        (by show 0 + ops.length ≤ 8; omega) hnd
      intro k' _ ⟨i, _, hl, _⟩
      rw [show nodeAt (HashTable.new.set_probing_method ProbingMethod.LINEAR).table_ i =
        HashNode.empty from nodeAt_replicate _ i] at hl
      cases hl
    exact ⟨hall, nine _ ops k9 v9 hlen hall⟩

/-- An instance of `c20_growth_timing`: `stateEight` and a ninth key. -/
theorem c20_growth_timing_witness :
    ReachableAny stateEight ∧
      ((stateEight.insert 8 "i").2.capacity =
          (if 2 * (stateEight.size + 1) > stateEight.capacity then 2 * stateEight.capacity
            else stateEight.capacity) ∧
        (stateEight.upsert 8 "i").capacity =
          (if 2 * (stateEight.size + 1) > stateEight.capacity then 2 * stateEight.capacity
            else stateEight.capacity) ∧
        (stateEight.erase 8).2.capacity = stateEight.capacity ∧
        (∃ n, stateEight.capacity = 16 * 2 ^ n) ∧
        (∀ (m : ProbingMethod) (ops : List (Int × String)), ops.length ≤ 8 →
          (runInserts (HashTable.new.set_probing_method m) ops).2.capacity = 16) ∧
        (∀ (m : ProbingMethod) (ops : List (Int × String)) (k9 : Int) (v9 : String),
          ops.length = 8 →
          (runInserts (HashTable.new.set_probing_method m) ops).1 = List.replicate 8 true →
          ((runInserts (HashTable.new.set_probing_method m) ops).2.insert k9 v9).2.capacity =
            32) ∧
        (∀ (ops : List (Int × String)) (k9 : Int) (v9 : String),
          ops.length = 8 → (ops.map Prod.fst).Nodup →
          (runInserts (HashTable.new.set_probing_method ProbingMethod.LINEAR) ops).1 =
              List.replicate 8 true ∧
            ((runInserts (HashTable.new.set_probing_method ProbingMethod.LINEAR)
              ops).2.insert k9 v9).2.capacity = 32)) :=
  ⟨(reachable_insertAll (Reachable.configured _) _).any,
    c20_growth_timing stateEight 8 "i" (reachable_insertAll (Reachable.configured _) _).any⟩

/-! ## Properties of every table state -/

theorem firstHit_congr {p q : Nat → Bool} {fuel a : Nat}
    (h : ∀ c, a ≤ c → c < a + fuel → p c = q c) : firstHit p fuel a = firstHit q fuel a := by
  induction fuel generalizing a with
  | zero => rfl
  | succ n ih =>
    unfold firstHit
    rw [h a (Nat.le_refl a) (by omega)]
    rw [ih (fun c h1 h2 => h c (by omega) (by omega))]

/-- Two tables of the same capacity and strategy answer `find(key)` alike when
the slots on the walk of `key` pass the stop test alike and the slots that
pass it are equal. -/
theorem find_congr_walk {t t' : HashTable} (hc : t'.capacity_ = t.capacity_)
    (hm : t'.method_ = t.method_) (key : Int)
    (hstop : ∀ a, a < t.capacity_ →
      stopsAt (nodeAt t'.table_ (t.probe key a)) key =
        stopsAt (nodeAt t.table_ (t.probe key a)) key)
    (hnode : ∀ a, a < t.capacity_ → stopsAt (nodeAt t.table_ (t.probe key a)) key = true →
      nodeAt t'.table_ (t.probe key a) = nodeAt t.table_ (t.probe key a)) :
    t'.find key = t.find key := by
  have hp : ∀ a, t'.probe key a = t.probe key a := probe_congr t t' hc hm key
  have hfirst : firstHit (t'.stopFn key) t'.capacity_ 0 = firstHit (t.stopFn key) t.capacity_ 0 := by
    rw [hc]
    apply firstHit_congr
    intro c _ hlt
    unfold HashTable.stopFn
    rw [hp]; exact hstop c (by omega)
  unfold HashTable.find HashTable.findSlotConst
  rw [findSlotConstLoop_eq, findSlotConstLoop_eq, hfirst, hc]
  cases hf : firstHit (t.stopFn key) t.capacity_ 0 with
  | none => simp
  | some a =>
    obtain ⟨_, ha, hsa, _⟩ := firstHit_some hf
    simp only
    rw [hp, hnode a (by omega) hsa]

/-- A LIVE slot lies inside the slot sequence. -/
theorem lt_length_of_live {tb : List HashNode} {i : Nat} (h : (nodeAt tb i).live = true) :
    i < tb.length := by
  by_contra hc
  rw [nodeAt_of_le tb i (by omega)] at h
  cases h

/-- An `erase(k)` leaves `find` of every other key as it was. -/
theorem find_erase_other (t : HashTable) {k k2 : Int} (hne : k ≠ k2) :
    (t.erase k).2.find k2 = t.find k2 := by
  rcases Nat.lt_or_ge (t.findSlotConst k) t.capacity_ with h1 | h1
  · cases h2 : (nodeAt t.table_ (t.findSlotConst k)).live with
    | true =>
      obtain ⟨_, _, _, hs⟩ := findSlotConst_stops t k h1
      have hkey := stopsAt_live hs h2
      have hocc := live_imp_occupied h2
      have hlen := lt_length_of_live h2
      rw [erase_live t k h1 h2]
      have hold : stopsAt (nodeAt t.table_ (t.findSlotConst k)) k2 = false :=
        not_stopsAt_of_ne hocc (fun _ => by rw [hkey]; exact hne)
      refine find_congr_walk ?_ ?_ k2 ?_ ?_
      · rfl
      · rfl
      · intro a _
        show stopsAt (nodeAt (t.table_.set _ _) _) k2 = _
        by_cases hidx : t.probe k2 a = t.findSlotConst k
        · rw [hidx, nodeAt_set_eq _ _ _ hlen, hold]
          simp [stopsAt, hocc]
        · rw [nodeAt_set_ne _ _ _ _ (Ne.symm hidx)]
      · intro a _ hsa
        show nodeAt (t.table_.set _ _) _ = _
        by_cases hidx : t.probe k2 a = t.findSlotConst k
        · rw [hidx, hold] at hsa; cases hsa
        · rw [nodeAt_set_ne _ _ _ _ (Ne.symm hidx)]
    | false => rw [erase_absent t k h1 h2, findSlot_snd_find]
  · rw [erase_exhaust t k h1, findSlot_snd_find]

/-- C21: for every table state (any slot contents, any strategy) and all keys
`k != k2`, `find(k2)` and `contains(k2)` give the same result after `erase(k)`
as before it; when `erase(k)` succeeds the erased slot stays occupied and is
marked deleted (a TOMBSTONE). -/
theorem c21_erase_frame (t : HashTable) (k k2 : Int) (hne : k ≠ k2) :
    (t.erase k).2.find k2 = t.find k2 ∧ (t.erase k).2.contains k2 = t.contains k2 ∧
      ((t.erase k).1 = true →
        (nodeAt (t.erase k).2.table_ (t.findSlotConst k)).occupied = true ∧
          (nodeAt (t.erase k).2.table_ (t.findSlotConst k)).deleted = true) := by
  refine ⟨find_erase_other t hne, ?_, fun htrue => ?_⟩
  · rw [contains_eq_isSome, contains_eq_isSome, find_erase_other t hne]
  · obtain ⟨h1, h2⟩ := erase_true_located htrue
    rw [erase_live t k h1 h2]
    show (nodeAt (t.table_.set _ _) _).occupied = true ∧ (nodeAt (t.table_.set _ _) _).deleted = true
    rw [nodeAt_set_eq _ _ _ (lt_length_of_live h2)]
    exact ⟨(live_imp_occupied h2 : (nodeAt t.table_ (t.findSlotConst k)).occupied = true), rfl⟩

/-- An instance of `c21_erase_frame`: `stateDrop`, key 45 erased (slot 0, on the walk
of key 77), key 77 looked up. -/
theorem c21_erase_frame_witness :
    (45 : Int) ≠ 77 ∧
      ((stateDrop.erase 45).2.find 77 = stateDrop.find 77 ∧
        (stateDrop.erase 45).2.contains 77 = stateDrop.contains 77 ∧
        ((stateDrop.erase 45).1 = true →
          (nodeAt (stateDrop.erase 45).2.table_ (stateDrop.findSlotConst 45)).occupied = true ∧
            (nodeAt (stateDrop.erase 45).2.table_ (stateDrop.findSlotConst 45)).deleted = true)) :=
  ⟨by decide, c21_erase_frame stateDrop 45 77 (by decide)⟩

/-- Growth keeps the object well formed. -/
theorem WF_rehash {t : HashTable} (h : t.WF) : t.rehash.WF :=
  (rehashG_foldl t.table_ [] { t with capacity_ := t.capacity_ * 2
                                      table_ := List.replicate (t.capacity_ * 2) HashNode.empty
                                      size_ := 0 }
    ⟨⟨by simp, by show 0 < t.capacity_ * 2; have := h.2; omega⟩,
      by show 0 = liveCount (List.replicate _ _); rw [liveCount_replicate],
      Nat.zero_le _⟩).1

theorem WF_growIfNeeded {t : HashTable} (h : t.WF) : t.growIfNeeded.WF := by
  unfold HashTable.growIfNeeded
  split
  · exact WF_rehash h
  · exact h

/-- In a well-formed state an `insert` that returns true is followed by a
`find` that returns the inserted value. -/
theorem find_of_insert_true {t : HashTable} (hwf : t.WF) {k : Int} {v : String}
    (h : (t.insert k v).1 = true) : (t.insert k v).2.find k = some v := by
  have hg := WF_growIfNeeded hwf
  rcases Nat.lt_or_ge (t.growIfNeeded.findSlotConst k) t.growIfNeeded.capacity_ with h1 | h1
  · cases h2 : (nodeAt t.growIfNeeded.table_ (t.growIfNeeded.findSlotConst k)).live with
    | true => rw [insert_dup t k v h1 h2] at h; cases h
    | false =>
      obtain ⟨a, hf, hpa, _⟩ := findSlotConst_stops _ k h1
      rw [insert_place t k v h1 h2]
      refine find_set_located ⟨k, v, true, false⟩ hg ?_ ?_ hf ?_ (by simp [stopsAt]) rfl
      · rfl
      · rfl
      · rw [← hpa]
  · rw [insert_exhaust t k v h1] at h; cases h

/-- C22: for every well-formed table state (any slot contents, any history of
the strategy; `capacity_` is the length of `table_` and is positive), every key
`k` and value `v`: if `insert(k, v)` returns true, the `find(k)` that follows
returns `v` and `contains(k)` returns true; and in every state `contains(k)` is
true exactly when `find(k)` returns a value. -/
theorem c22_insert_findable (t : HashTable) (k : Int) (v : String) (hwf : t.WF)
    (h : (t.insert k v).1 = true) :
    (t.insert k v).2.find k = some v ∧ (t.insert k v).2.contains k = true ∧
      ∀ (s : HashTable) (k' : Int), s.contains k' = true ↔ ∃ w, s.find k' = some w := by
  have hf := find_of_insert_true hwf h
  refine ⟨hf, by rw [contains_eq_isSome, hf]; rfl, fun s k' => ?_⟩
  rw [contains_eq_isSome, Option.isSome_iff_exists]

/-- An instance of `c22_insert_findable`: `stateSwitched`, where `insert(33, "z")`
returns true although key 33 is LIVE in slot 3. -/
theorem c22_insert_findable_witness :
    stateSwitched.WF ∧ (stateSwitched.insert 33 "z").1 = true ∧
      ((stateSwitched.insert 33 "z").2.find 33 = some "z" ∧
        (stateSwitched.insert 33 "z").2.contains 33 = true ∧
        ∀ (s : HashTable) (k' : Int), s.contains k' = true ↔ ∃ w, s.find k' = some w) :=
  ⟨⟨by decide, by decide⟩, by decide,
    c22_insert_findable stateSwitched 33 "z" ⟨by decide, by decide⟩ (by decide)⟩

end HT
